import Mathlib

/-!
Verification of the algorithm-visualiser repository's step-log producers
(bubble sort, BFS, DFS, A*), its playback controller (`goToStep`) and its
visualization adapters (array, grid) against the natural-language spec.

Shallow embedding conventions:
* JS arrays become `List`, JS `Map` becomes an association list with
  cons-on-write / first-match-on-read (which models `Map.set` overwrite),
  JS `Set` becomes a `List` with membership queries.
* JS numbers are embedded as `Int`/`Nat`; A* move costs (which involve
  `Math.sqrt(2)`) are embedded exactly as elements `a + b*sqrt 2` of
  ℤ[√2] represented by integer pairs, with the exact order relation.
* The presentation-only `message` string carried by every step record is
  omitted from the embedding: no code branches on it.
* `while` loops become fuel-indexed recursion; a loop that can diverge
  (`reconstructPath`) or whose bound needs proof returns `Option`/is paired
  with a termination lemma, `none` standing for a run that never finishes
  within the given fuel.
-/

namespace AlgoViz

/-! ### Bubble sort (`bubbleSortSteps` in the algorithm registry, duplicated
as the standalone `bubbleSort`) -/

/-- One record of the sorting step log: `{ type, indices, array }`
(the `message` field is presentation-only and omitted). -/
structure SortStep where
  type : String
  indices : List Nat
  array : List Int
deriving DecidableEq, Repr

/-- The adjacent-transposition `[arr[j], arr[j+1]] = [arr[j+1], arr[j]]`. -/
def swapAt : List Int → Nat → List Int
  | x :: y :: rest, 0 => y :: x :: rest
  | x :: rest, n + 1 => x :: swapAt rest n
  | l, _ => l

/-- The inner loop `for (j = 0; j < n - i - 1; j++)` of `bubbleSortSteps`:
`fuel` counts the remaining iterations (`n - i - 1` at entry), `j` is the
loop counter, `swapped` the running flag.  Returns the emitted steps, the
array after the pass and the final `swapped` flag. -/
def bubbleInner (a : List Int) (j : Nat) (swapped : Bool) :
    Nat → List SortStep × List Int × Bool
  | 0 => ([], a, swapped)
  | fuel + 1 =>
    let cmp : SortStep := ⟨"compare", [j, j + 1], a⟩
    if a.getD j 0 > a.getD (j + 1) 0 then
      let a2 := swapAt a j
      let sw : SortStep := ⟨"swap", [j, j + 1], a2⟩
      let r := bubbleInner a2 (j + 1) true fuel
      (cmp :: sw :: r.1, r.2)
    else
      let r := bubbleInner a (j + 1) swapped fuel
      (cmp :: r.1, r.2)

/-- The outer loop `for (i = 0; i < n; i++)` of `bubbleSortSteps` with the
early `break` when a pass made no swap; `fuel` is the remaining number of
outer iterations (`n` at entry).  Returns the emitted steps and the final
array. -/
def bubbleOuter (a : List Int) (n i : Nat) : Nat → List SortStep × List Int
  | 0 => ([], a)
  | fuel + 1 =>
    let p := bubbleInner a 0 false (n - i - 1)
    let pc : SortStep := ⟨"pass_complete", [n - i - 1], p.2.1⟩
    if p.2.2 then
      let r := bubbleOuter p.2.1 n (i + 1) fuel
      (p.1 ++ pc :: r.1, r.2)
    else
      (p.1 ++ [pc], p.2.1)

/-- `bubbleSortSteps(arr)`: the full emitted step log. -/
def bubbleSortSteps (arr : List Int) : List SortStep :=
  (bubbleOuter arr arr.length 0 arr.length).1

/-- Structural form of one bubble pass limited to `fuel` comparisons,
used as a proof-side bridge for `bubbleInner`'s array effect and flag. -/
def bpass : Nat → List Int → List Int × Bool
  | 0, l => (l, false)
  | fuel + 1, x :: y :: rest =>
    if x > y then
      (y :: (bpass fuel (x :: rest)).1, true)
    else
      (x :: (bpass fuel (y :: rest)).1, (bpass fuel (y :: rest)).2)
  | _ + 1, l => (l, false)

/-! ### Playback controller (`VisualizationEngine.goToStep` and
`AlgorithmPlugin.goToStep`, which share the same guard) -/

/-- The cursor update of `goToStep(stepIndex)`: both implementations run
`if (stepIndex >= 0 && stepIndex < this.steps.length) { this.currentStep =
stepIndex; ... }`, leaving `currentStep` untouched otherwise.  `stepIndex`
is an arbitrary JS number, embedded as `Int`. -/
def goToStepIndex {σ : Type} (steps : List σ) (cur : Nat) (stepIndex : Int) : Nat :=
  if 0 ≤ stepIndex ∧ stepIndex < steps.length then stepIndex.toNat else cur

/-! ### Array visualization adapter (`ArrayVisualization.executeStep`) -/

/-- An `ArrayElement`'s algorithm-visible state: its `value` and named
`state` (geometry and colors are derived presentation data). -/
structure ArrElem where
  value : Int
  state : String
deriving DecidableEq, Repr

/-- The algorithm-visible state of an `ArrayVisualization`: its element
list and its `data` array. -/
structure ArrayViz where
  elements : List ArrElem
  data : List Int
deriving DecidableEq, Repr

/-- A step as destructured by `ArrayVisualization.executeStep`:
`const { type, indices = [], message } = step` plus the optional
`step.array` snapshot read in the `swap` case. -/
structure ArrayStep where
  type : String
  indices : List Nat
  array : Option (List Int)
deriving DecidableEq, Repr

/-- `if (this.elements[index]) this.elements[index].setState(state)`:
out-of-range indices are ignored. -/
def setStateAt : List ArrElem → Nat → String → List ArrElem
  | [], _, _ => []
  | e :: es, 0, s => { e with state := s } :: es
  | e :: es, i + 1, s => e :: setStateAt es i s

/-- `indices.forEach(index => ...)` setting one named state. -/
def setStatesAt (elems : List ArrElem) (indices : List Nat) (s : String) :
    List ArrElem :=
  indices.foldl (fun es idx => setStateAt es idx s) elems

/-- `updateFromArray`'s element part: each element in positional order takes
the snapshot value at its index when present (`newArray[index] !== undefined`). -/
def updateValues : List ArrElem → List Int → List ArrElem
  | [], _ => []
  | e :: es, v :: vs => { e with value := v } :: updateValues es vs
  | e :: es, [] => e :: updateValues es []

/-- `ArrayVisualization.executeStep(step)`: resets every element to
`default`, then dispatches on `step.type`; the `swap` case additionally
resynchronizes values from the `step.array` snapshot when present and
`indices.length === 2`. -/
def arrayExecuteStep (st : ArrayViz) (step : ArrayStep) : ArrayViz :=
  let elems0 := st.elements.map fun e => { e with state := "default" }
  if step.type = "compare" then
    { st with elements := setStatesAt elems0 step.indices "comparing" }
  else if step.type = "swap" then
    let es := setStatesAt elems0 step.indices "swapping"
    match step.array with
    | some arr =>
      if step.indices.length = 2 then
        { elements := updateValues es arr, data := arr }
      else { st with elements := es }
    | none => { st with elements := es }
  else if step.type = "pass_complete" ∨ step.type = "completed" then
    { st with elements := setStatesAt elems0 step.indices "completed" }
  else if step.type = "new_min" then
    { st with elements := setStatesAt elems0 step.indices "minimum" }
  else if step.type = "pass_start" ∨ step.type = "current" then
    { st with elements := setStatesAt elems0 step.indices "current" }
  else
    { st with elements := elems0 }

/-! ### Grid visualization adapter (`GridVisualization.executeStep`) -/

/-- A `GridElement`'s algorithm-visible state: its `type`
(`empty`/`wall`/`start`/`end`), `visited` and `inPath` flags and named
`state`. -/
structure GridCell where
  type : String
  visited : Bool
  inPath : Bool
  state : String
deriving DecidableEq, Repr

/-- The algorithm-visible state of a `GridVisualization`: dimensions
(`options.rows`/`options.cols`), the cell matrix, and the `startCell` /
`endCell` references (modeled by their grid coordinates). -/
structure GridViz where
  rows : Nat
  cols : Nat
  grid : List (List GridCell)
  startCell : Option (Nat × Nat)
  endCell : Option (Nat × Nat)
deriving DecidableEq, Repr

/-- A step as destructured by `GridVisualization.executeStep`:
`const { type, row, col, rows = [], cols = [], path = [], message } = step`.
Coordinates are arbitrary JS numbers (embedded `Int`); an absent coordinate
behaves exactly like an out-of-range one (every bounds comparison on
`undefined` is false). -/
structure GridStep where
  type : String
  row : Int
  col : Int
  rows : List Int
  cols : List Int
  path : List (Int × Int)
deriving DecidableEq, Repr

/-- The grid is rectangular as built by `createGrid`
(`options.rows` rows of `options.cols` cells). -/
def GridWF (g : GridViz) : Prop :=
  g.grid.length = g.rows ∧ ∀ r ∈ g.grid, r.length = g.cols

instance (g : GridViz) : Decidable (GridWF g) := by
  unfold GridWF; infer_instance

/-- `getCell(row, col)` with the JS error behavior made explicit: inside the
declared bounds, `this.grid[row]` being missing (a row count that disagrees
with `options.rows`) makes `this.grid[row][col]` a TypeError; a missing
column inside an existing row merely yields `undefined`.  Outside the
declared bounds the method returns `null`. -/
def getCellE (g : GridViz) (row col : Int) : Except String (Option GridCell) :=
  if 0 ≤ row ∧ row < (g.rows : Int) ∧ 0 ≤ col ∧ col < (g.cols : Int) then
    match g.grid[row.toNat]? with
    | none => .error "TypeError: cannot index undefined row"
    | some r => .ok r[col.toNat]?
  else .ok none

/-- Record-free core of the pure `getCell` model. -/
def getCellAux (rows cols : Nat) (grid : List (List GridCell)) (row col : Int) :
    Option GridCell :=
  if 0 ≤ row ∧ row < (rows : Int) ∧ 0 ≤ col ∧ col < (cols : Int) then
    (grid[row.toNat]?).bind fun r => r[col.toNat]?
  else none

/-- Pure counterpart of `getCellE`, used as the proof-side bridge: on
well-formed grids the two agree. -/
def getCell? (g : GridViz) (row col : Int) : Option GridCell :=
  getCellAux g.rows g.cols g.grid row col

/-- Update the cell at one column of a row (no effect out of range). -/
def modifyRow : List GridCell → Nat → (GridCell → GridCell) → List GridCell
  | [], _, _ => []
  | x :: xs, 0, f => f x :: xs
  | x :: xs, c + 1, f => x :: modifyRow xs c f

/-- Replace the cell at a grid position (mutation through the cell
reference returned by `getCell`); no effect out of range. -/
def modifyCell : List (List GridCell) → Nat → Nat → (GridCell → GridCell) →
    List (List GridCell)
  | [], _, _, _ => []
  | row :: rest, 0, c, f => modifyRow row c f :: rest
  | row :: rest, r + 1, c, f => row :: modifyCell rest r c f

/-- The `setCurrentCell` sweep that resets every cell whose state is
`current` back to `default`. -/
def clearCurrent (grid : List (List GridCell)) : List (List GridCell) :=
  grid.map (List.map fun c =>
    if c.state = "current" then { c with state := "default" } else c)

/-- `markPath`'s sweep clearing `inPath` on every cell. -/
def clearInPath (grid : List (List GridCell)) : List (List GridCell) :=
  grid.map (List.map fun c => { c with inPath := false })

/-- `resetGrid`: every cell that is not start, end or wall gets its
pathfinding state cleared. -/
def resetGridCells (grid : List (List GridCell)) : List (List GridCell) :=
  grid.map (List.map fun c =>
    if c.type ≠ "start" ∧ c.type ≠ "end" ∧ c.type ≠ "wall" then
      { c with visited := false, inPath := false, state := "default" }
    else c)

/-- One iteration of `addToFrontier`'s `for (let i = 0; i < rows.length; i++)`
loop: look up `(rows[i], cols[i])` and mark the cell `frontier` when it is
unvisited and walkable. -/
def frontierBody (rows cols : List Int) (acc : GridViz) (i : Nat) : GridViz :=
  match rows[i]?, cols[i]? with
  | some r, some c =>
    match getCell? acc r c with
    | some cell =>
      if ¬cell.visited ∧ cell.type ≠ "wall" then
        { acc with grid := modifyCell acc.grid r.toNat c.toNat (fun cl => { cl with state := "frontier" }) }
      else acc
    | none => acc
  | _, _ => acc

/-- One iteration of `markPath`'s `path.forEach`: mark the cell `inPath`
when it exists. -/
def pathBody (acc : GridViz) (rc : Int × Int) : GridViz :=
  match getCell? acc rc.1 rc.2 with
  | some _ =>
    { acc with grid := modifyCell acc.grid rc.1.toNat rc.2.toNat (fun cl => { cl with inPath := true }) }
  | none => acc

/-- Pure model of `GridVisualization.executeStep` (the bridge target of the
faithful `gridExecuteStepE`; the two agree on well-formed grids). -/
def gridExecApply (g : GridViz) (step : GridStep) : GridViz :=
  if step.type = "visit" then
    match getCell? g step.row step.col with
    | some c =>
      if c.type ≠ "wall" then
        { g with grid := modifyCell g.grid step.row.toNat step.col.toNat (fun cell => { cell with visited := true }) }
      else g
    | none => g
  else if step.type = "current" then
    let g1 := { g with grid := clearCurrent g.grid }
    match getCell? g1 step.row step.col with
    | some _ =>
      { g1 with grid := modifyCell g1.grid step.row.toNat step.col.toNat (fun cell => { cell with state := "current" }) }
    | none => g1
  else if step.type = "add_to_frontier" then
    (List.range step.rows.length).foldl (frontierBody step.rows step.cols) g
  else if step.type = "mark_path" then
    step.path.foldl pathBody { g with grid := clearInPath g.grid }
  else if step.type = "set_wall" then
    match getCell? g step.row step.col with
    | some c =>
      if c.type ≠ "start" ∧ c.type ≠ "end" then
        { g with grid := modifyCell g.grid step.row.toNat step.col.toNat (fun cell => { cell with type := "wall" }) }
      else g
    | none => g
  else if step.type = "set_start" then
    let g1 :=
      match g.startCell with
      | some rc =>
        { g with grid := modifyCell g.grid rc.1 rc.2 (fun cell => { cell with type := "empty" }) }
      | none => g
    match getCell? g1 step.row step.col with
    | some _ =>
      { g1 with
        grid := modifyCell g1.grid step.row.toNat step.col.toNat (fun cell => { cell with type := "start" }),
        startCell := some (step.row.toNat, step.col.toNat) }
    | none => g1
  else if step.type = "set_end" then
    let g1 :=
      match g.endCell with
      | some rc =>
        { g with grid := modifyCell g.grid rc.1 rc.2 (fun cell => { cell with type := "empty" }) }
      | none => g
    match getCell? g1 step.row step.col with
    | some _ =>
      { g1 with
        grid := modifyCell g1.grid step.row.toNat step.col.toNat (fun cell => { cell with type := "end" }),
        endCell := some (step.row.toNat, step.col.toNat) }
    | none => g1
  else if step.type = "reset" then
    { g with grid := resetGridCells g.grid }
  else g

/-- `frontierBody` with the faithful error-aware cell access. -/
def frontierBodyE (rows cols : List Int) (acc : GridViz) (i : Nat) :
    Except String GridViz :=
  match rows[i]?, cols[i]? with
  | some r, some c => do
    let cell? ← getCellE acc r c
    match cell? with
    | some cell =>
      if ¬cell.visited ∧ cell.type ≠ "wall" then
        pure { acc with grid := modifyCell acc.grid r.toNat c.toNat (fun cl => { cl with state := "frontier" }) }
      else pure acc
    | none => pure acc
  | _, _ => pure acc

/-- `pathBody` with the faithful error-aware cell access. -/
def pathBodyE (acc : GridViz) (rc : Int × Int) : Except String GridViz := do
  let cell? ← getCellE acc rc.1 rc.2
  match cell? with
  | some _ =>
    pure { acc with grid := modifyCell acc.grid rc.1.toNat rc.2.toNat (fun cl => { cl with inPath := true }) }
  | none => pure acc

/-- Faithful model of `GridVisualization.executeStep`: every cell access
goes through `getCellE`, whose error case models the TypeError a
malformed grid would raise. -/
def gridExecuteStepE (g : GridViz) (step : GridStep) : Except String GridViz :=
  if step.type = "visit" then do
    let c? ← getCellE g step.row step.col
    match c? with
    | some c =>
      if c.type ≠ "wall" then
        pure { g with grid := modifyCell g.grid step.row.toNat step.col.toNat (fun cell => { cell with visited := true }) }
      else pure g
    | none => pure g
  else if step.type = "current" then do
    let g1 := { g with grid := clearCurrent g.grid }
    let c? ← getCellE g1 step.row step.col
    match c? with
    | some _ =>
      pure { g1 with grid := modifyCell g1.grid step.row.toNat step.col.toNat (fun cell => { cell with state := "current" }) }
    | none => pure g1
  else if step.type = "add_to_frontier" then
    (List.range step.rows.length).foldlM (frontierBodyE step.rows step.cols) g
  else if step.type = "mark_path" then
    step.path.foldlM pathBodyE { g with grid := clearInPath g.grid }
  else if step.type = "set_wall" then do
    let c? ← getCellE g step.row step.col
    match c? with
    | some c =>
      if c.type ≠ "start" ∧ c.type ≠ "end" then
        pure { g with grid := modifyCell g.grid step.row.toNat step.col.toNat (fun cell => { cell with type := "wall" }) }
      else pure g
    | none => pure g
  else if step.type = "set_start" then do
    let g1 :=
      match g.startCell with
      | some rc =>
        { g with grid := modifyCell g.grid rc.1 rc.2 (fun cell => { cell with type := "empty" }) }
      | none => g
    let c? ← getCellE g1 step.row step.col
    match c? with
    | some _ =>
      pure { g1 with
        grid := modifyCell g1.grid step.row.toNat step.col.toNat (fun cell => { cell with type := "start" }),
        startCell := some (step.row.toNat, step.col.toNat) }
    | none => pure g1
  else if step.type = "set_end" then do
    let g1 :=
      match g.endCell with
      | some rc =>
        { g with grid := modifyCell g.grid rc.1 rc.2 (fun cell => { cell with type := "empty" }) }
      | none => g
    let c? ← getCellE g1 step.row step.col
    match c? with
    | some _ =>
      pure { g1 with
        grid := modifyCell g1.grid step.row.toNat step.col.toNat (fun cell => { cell with type := "end" }),
        endCell := some (step.row.toNat, step.col.toNat) }
    | none => pure g1
  else if step.type = "reset" then
    pure { g with grid := resetGridCells g.grid }
  else pure g


/-! ### A* pathfinding (`AStarAlgorithm`, src/unnamed/part_002) -/

/-- `a + b * √2` as an exact pair of integers. -/
abbrev Zq := Int × Int

def zadd (x y : Zq) : Zq := (x.1 + y.1, x.2 + y.2)

/-- Sign test: whether `0 < p + q * √2`. -/
def zsqrt2Pos (p q : Int) : Bool :=
  if q = 0 then decide (0 < p)
  else if 0 < q then decide (0 ≤ p) || decide (p * p < 2 * (q * q))
  else decide (0 < p) && decide (2 * (q * q) < p * p)

/-- Strict order `x < y` on `ℤ[√2]`. -/
def zlt (x y : Zq) : Bool := zsqrt2Pos (y.1 - x.1) (y.2 - x.2)

/-- JS `a < b` where either side may be `undefined`/NaN (then `false`). -/
def fltOpt (x y : Option Zq) : Bool :=
  match x, y with
  | some a, some b => zlt a b
  | _, _ => false

/-- JS `a >= b` where either side may be `undefined`/NaN (then `false`). -/
def fgeOpt (x y : Option Zq) : Bool :=
  match x, y with
  | some a, some b => !zlt a b
  | _, _ => false

/-- A grid cell as read by the A* algorithm (only `.type` is inspected). -/
structure AGridCell where
  type : String
  deriving DecidableEq, Repr

/-- A cell position `{row, col}`. -/
abbrev ACell := Int × Int

/-- First-match read of a JS `Map` modelled as an association list. -/
def mget {α β : Type} [DecidableEq α] (m : List (α × β)) (k : α) : Option β :=
  (m.find? (fun p => decide (p.1 = k))).map (·.2)

/-- `Map.set` modelled by prepending (reads see the newest binding). -/
def mset {α β : Type} (m : List (α × β)) (k : α) (v : β) : List (α × β) :=
  (k, v) :: m

/-- A step emitted by the A* runner (`message` fields omitted). -/
inductive AStep where
  | start (row col : Int)
  | current (row col : Int)
  | found (row col : Int)
  | mark_path (path : List ACell)
  | visit (row col : Int)
  | add_to_frontier (rows cols : List Int)
  | not_found
  deriving DecidableEq, Repr

/-- `AStarAlgorithm.isValidCell`. -/
def astarIsValidCell (grid : List (List AGridCell)) (row col : Int) : Bool :=
  if row < 0 ∨ (grid.length : Int) ≤ row ∨ col < 0 ∨
      ((grid.headD []).length : Int) ≤ col then
    false
  else
    match (grid.get? row.toNat).bind (fun r => r.get? col.toNat) with
    | some cell => decide (cell.type ≠ "wall")
    | none => false

def astarDirections : List (Int × Int) :=
  [(-1, 0), (1, 0), (0, -1), (0, 1), (-1, -1), (-1, 1), (1, -1), (1, 1)]

/-- `AStarAlgorithm.getNeighbors`. -/
def astarGetNeighbors (grid : List (List AGridCell)) (cell : ACell) : List ACell :=
  astarDirections.filterMap (fun d =>
    let newRow := cell.1 + d.1
    let newCol := cell.2 + d.2
    if astarIsValidCell grid newRow newCol then some (newRow, newCol) else none)

/-- `AStarAlgorithm.getMoveCost`. -/
def astarGetMoveCost (fromC toC : ACell) : Zq :=
  let dx := |fromC.2 - toC.2|
  let dy := |fromC.1 - toC.1|
  if dx = 1 ∧ dy = 1 then (0, 1) else (1, 0)

/-- `AStarAlgorithm.heuristic` for the integer-valued heuristic names. -/
def astarHeuristic (t : String) (fromC toC : ACell) : Zq :=
  let dx := |fromC.2 - toC.2|
  let dy := |fromC.1 - toC.1|
  if t = "manhattan" then (dx + dy, 0)
  else if t = "diagonal" then (max dx dy, 0)
  else (dx + dy, 0)

/-- `AStarAlgorithm.reconstructPath` loop, fuelled. -/
def astarReconAux (parent : List (ACell × ACell)) :
    Nat → Option ACell → List ACell → Option (List ACell)
  | _, none, acc => some acc
  | 0, some _, _ => none
  | fuel + 1, some c, acc => astarReconAux parent fuel (mget parent c) (c :: acc)

def astarReconstructPath (parent : List (ACell × ACell)) (start endC : ACell) :
    Option (List ACell) :=
  astarReconAux parent (parent.length + 1) (some endC) []

structure AState where
  openSet : List ACell
  closedSet : List ACell
  gScore : List (ACell × Option Zq)
  fScore : List (ACell × Option Zq)
  parent : List (ACell × ACell)
  steps : List AStep
  deriving Repr

/-- The linear minimum-fScore scan. -/
def astarScanMin (fS : List (ACell × Option Zq)) :
    List ACell → ACell → Nat → Nat → ACell × Nat
  | [], best, bestIdx, _ => (best, bestIdx)
  | c :: rest, best, bestIdx, i =>
    if fltOpt (mget fS c).join (mget fS best).join then astarScanMin fS rest c i (i + 1)
    else astarScanMin fS rest best bestIdx (i + 1)

structure NbState where
  openSet : List ACell
  newFrontier : List ACell
  gScore : List (ACell × Option Zq)
  fScore : List (ACell × Option Zq)
  parent : List (ACell × ACell)

/-- One iteration of the neighbour loop. -/
def astarNbBody (closed : List ACell) (current endC : ACell)
    (h : ACell → ACell → Zq) (s : NbState) (n : ACell) : NbState :=
  if n ∈ closed then s
  else
    let tg : Option Zq :=
      (mget s.gScore current).join.map (fun g => zadd g (astarGetMoveCost current n))
    if n ∉ s.openSet then
      { openSet := s.openSet ++ [n]
        newFrontier := s.newFrontier ++ [n]
        gScore := mset s.gScore n tg
        fScore := mset s.fScore n (tg.map (fun g => zadd g (h n endC)))
        parent := mset s.parent n current }
    else if fgeOpt tg (mget s.gScore n).join then s
    else
      { s with
        gScore := mset s.gScore n tg
        fScore := mset s.fScore n (tg.map (fun g => zadd g (h n endC)))
        parent := mset s.parent n current }

/-- Outcome of one iteration of the `while (openSet.length > 0)` loop:
`brk` for the `break` on reaching the goal, `cont` to keep looping, `div`
when the inner `reconstructPath` call would loop forever. -/
inductive AIter where
  | brk (st : AState) : AIter
  | cont (st : AState) : AIter
  | div : AIter

/-- One iteration of the `while` loop of `AStarAlgorithm.execute`, for a
non-empty open set `c0 :: rest`. -/
def astarIterate (grid : List (List AGridCell)) (endC : ACell)
    (h : ACell → ACell → Zq) (st : AState) (c0 : ACell) (rest : List ACell) : AIter :=
  let sel := astarScanMin st.fScore rest c0 0 1
  let current := sel.1
  let openSet1 := (c0 :: rest).eraseIdx sel.2
  let closed1 := current :: st.closedSet
  let steps1 := st.steps ++ [AStep.current current.1 current.2]
  if current = endC then
    match astarReconstructPath st.parent current endC with
    | none => AIter.div
    | some path =>
      AIter.brk { st with
        openSet := openSet1
        closedSet := closed1
        steps := steps1 ++ [AStep.found current.1 current.2, AStep.mark_path path] }
  else
    let steps2 := steps1 ++ [AStep.visit current.1 current.2]
    let neighbors := astarGetNeighbors grid current
    let ns := neighbors.foldl (astarNbBody closed1 current endC h)
      ⟨openSet1, [], st.gScore, st.fScore, st.parent⟩
    let steps3 :=
      if ns.newFrontier = [] then steps2
      else steps2 ++
        [AStep.add_to_frontier (ns.newFrontier.map (·.1)) (ns.newFrontier.map (·.2))]
    AIter.cont ⟨ns.openSet, closed1, ns.gScore, ns.fScore, ns.parent, steps3⟩

/-- The main `while (openSet.length > 0)` loop, fuelled; `none` models
divergence. -/
def astarLoop (grid : List (List AGridCell)) (endC : ACell)
    (h : ACell → ACell → Zq) : Nat → AState → Option AState
  | 0, _ => none
  | fuel + 1, st =>
    match st.openSet with
    | [] => some st
    | c0 :: rest =>
      match astarIterate grid endC h st c0 rest with
      | AIter.div => none
      | AIter.brk st2 => some st2
      | AIter.cont st2 => astarLoop grid endC h fuel st2

def astarInit (start endC : ACell) (h : ACell → ACell → Zq) : AState :=
  { openSet := [start]
    closedSet := []
    gScore := [(start, some ((0 : Int), (0 : Int)))]
    fScore := [(start, some (h start endC))]
    parent := []
    steps := [AStep.start start.1 start.2] }

/-- `AStarAlgorithm.execute` with the heuristic abstracted, fuelled. -/
def astarRun (grid : List (List AGridCell)) (start endC : ACell)
    (h : ACell → ACell → Zq) (fuel : Nat) : Option (List AStep) :=
  match astarLoop grid endC h fuel (astarInit start endC h) with
  | none => none
  | some st =>
    if st.openSet = [] ∧ endC ∉ st.closedSet then some (st.steps ++ [AStep.not_found])
    else some st.steps

/-- `AStarAlgorithm.execute` with a named heuristic. -/
def astarExecute (grid : List (List AGridCell)) (start endC : ACell)
    (htype : String) (fuel : Nat) : Option (List AStep) :=
  astarRun grid start endC (astarHeuristic htype) fuel

/-- The subjects of the `current` steps of a log. -/
def currentSubjects (l : List AStep) : List ACell :=
  l.filterMap (fun s => match s with | AStep.current r c => some (r, c) | _ => none)

/-- The paths carried by `mark_path` steps of a log. -/
def markPaths (l : List AStep) : List (List ACell) :=
  l.filterMap (fun s => match s with | AStep.mark_path p => some p | _ => none)

def grid5 : List (List AGridCell) :=
  List.replicate 5 (List.replicate 5 ⟨"empty"⟩)

/-- Adjacency of grid cells: one `getNeighbors` hop. -/
def AAdj (grid : List (List AGridCell)) (a b : ACell) : Prop :=
  b ∈ astarGetNeighbors grid a

/-- A path from `start` exists in the grid (`start` itself need not be a
valid cell: the runner explores from it unconditionally). -/
def AReach (grid : List (List AGridCell)) (start c : ACell) : Prop :=
  Relation.ReflTransGen (AAdj grid) start c

/-- The loop invariant of `AStarAlgorithm.execute`: the closed set holds
pairwise distinct cells, open cells are distinct and unexamined, the
`current` steps emitted so far record the closing order, and every touched
cell is reachable from `start` and (except possibly `start`) valid. -/
def AInv (grid : List (List AGridCell)) (start : ACell) (st : AState) : Prop :=
  st.closedSet.Nodup ∧
  st.openSet.Nodup ∧
  (∀ c ∈ st.openSet, c ∉ st.closedSet) ∧
  currentSubjects st.steps = st.closedSet.reverse ∧
  (∀ c ∈ st.openSet, AReach grid start c) ∧
  (∀ c ∈ st.closedSet, AReach grid start c) ∧
  (∀ c ∈ st.openSet, c = start ∨ astarIsValidCell grid c.1 c.2 = true) ∧
  (∀ c ∈ st.closedSet, c = start ∨ astarIsValidCell grid c.1 c.2 = true)

/-- The Step Log of the A* run on the empty 5×5 grid from (0,0) to (4,4)
with the manhattan heuristic. -/
def astarLog5 : List AStep :=
  [AStep.start 0 0,
   AStep.current 0 0, AStep.visit 0 0,
   AStep.add_to_frontier [1, 0, 1] [0, 1, 1],
   AStep.current 1 1, AStep.visit 1 1,
   AStep.add_to_frontier [2, 1, 0, 2, 2] [1, 2, 2, 0, 2],
   AStep.current 2 2, AStep.visit 2 2,
   AStep.add_to_frontier [3, 2, 1, 3, 3] [2, 3, 3, 1, 3],
   AStep.current 3 3, AStep.visit 3 3,
   AStep.add_to_frontier [4, 3, 2, 4, 4] [3, 4, 4, 2, 4],
   AStep.current 4 4, AStep.found 4 4,
   AStep.mark_path [(0, 0), (1, 1), (2, 2), (3, 3), (4, 4)]]


/-! ### BFS (`BFSAlgorithm`, src/BFSAlgorithm.js) and DFS (`DFSAlgorithm`,
src/unnamed/part_000)

Node ids are modelled by an arbitrary type `ν` with decidable equality
(the app uses strings; JS `===` on primitives is equality).  A JS value
that can be a node id, `null`, or `undefined` is modelled by `JSVal`. -/

/-- A node id, `null`, or `undefined`. -/
inductive JSVal (ν : Type) where
  | undef
  | null
  | node (id : ν)
  deriving DecidableEq, Repr

/-- An edge `{from, to, directed}` (the `from` and `to` fields are named
`src` and `tgt` here because both are reserved in Lean). -/
structure BEdge (ν : Type) where
  src : ν
  tgt : ν
  directed : Bool
  deriving DecidableEq, Repr

/-- A graph input: `adjacencyList` (a JS Map, when present) or an edge
list (when present). -/
structure BGraph (ν : Type) where
  adjacencyList : Option (List (ν × List ν))
  edges : Option (List (BEdge ν))
  deriving Repr

/-- `getNeighbors` (identical in `BFSAlgorithm` and `DFSAlgorithm`):
adjacency-list lookup when present, else an ordered scan of the edge list,
else no neighbours. -/
def getNeighborsG {ν : Type} [DecidableEq ν] (g : BGraph ν) (nodeId : ν) :
    List ν :=
  match g.adjacencyList with
  | some adj => (mget adj nodeId).getD []
  | none =>
    match g.edges with
    | some edges =>
      edges.foldl (fun acc e =>
        if e.src = nodeId then acc ++ [e.tgt]
        else if e.directed = false ∧ e.tgt = nodeId then acc ++ [e.src]
        else acc) []
    | none => []

/-- A step emitted by the BFS runner (`message` fields omitted). -/
inductive BStep (ν : Type) where
  | start (nodeId : ν)
  | current (nodeId : ν)
  | found (nodeId : ν)
  | highlight_path (path : List ν)
  | visit (nodeId : ν)
  | frontier (nodeIds : List ν)
  | not_found
  | complete
  deriving DecidableEq, Repr

/-- `reconstructPath` loop (identical in `BFSAlgorithm` and `DFSAlgorithm`):
`while (current !== null) { path.unshift(current); current = parent.get(current) }`,
fuelled; `none` models divergence.  When `current` becomes `undefined`
(absent key) the JS loop never exits, so the accumulator of that branch is
never returned and its `undefined` entries need not be recorded. -/
def reconAux {ν : Type} [DecidableEq ν] (parent : List (ν × JSVal ν)) :
    Nat → JSVal ν → List ν → Option (List ν)
  | _, JSVal.null, acc => some acc
  | 0, _, _ => none
  | fuel + 1, JSVal.undef, acc => reconAux parent fuel JSVal.undef acc
  | fuel + 1, JSVal.node c, acc =>
    reconAux parent fuel ((mget parent c).getD JSVal.undef) (c :: acc)

/-- `reconstructPath(parent, start, end)` (the `start` argument is unused
by the source). -/
def reconstructPathG {ν : Type} [DecidableEq ν]
    (parent : List (ν × JSVal ν)) (start endN : ν) : Option (List ν) :=
  reconAux parent (parent.length + 1) (JSVal.node endN) []

structure BState (ν : Type) where
  queue : List ν
  visited : List ν
  parent : List (ν × JSVal ν)
  distances : List (ν × Option Int)
  steps : List (BStep ν)
  deriving Repr

/-- Outcome of one iteration of the BFS `while` loop. -/
inductive BIter (ν : Type) where
  | brk (st : BState ν) : BIter ν
  | cont (st : BState ν) : BIter ν
  | div : BIter ν

/-- The body of the BFS neighbour loop: enqueue a neighbour that is neither
visited nor already queued, recording parent and distance. -/
def bfsNbBody {ν : Type} [DecidableEq ν] (visited : List ν) (current : ν)
    (s : List ν × List (ν × JSVal ν) × List (ν × Option Int) × List ν)
    (n : ν) : List ν × List (ν × JSVal ν) × List (ν × Option Int) × List ν :=
  if n ∉ visited ∧ n ∉ s.1 then
    (s.1 ++ [n], mset s.2.1 n (JSVal.node current),
      mset s.2.2.1 n ((mget s.2.2.1 current).join.map (fun d => d + 1)),
      s.2.2.2 ++ [n])
  else s

/-- One iteration of the BFS `while` loop, for a non-empty queue
`current :: rest` (`queue.shift()` takes the head). -/
def bfsIterate {ν : Type} [DecidableEq ν] (g : BGraph ν) (startNode : ν)
    (endNode : Option ν) (st : BState ν) (current : ν) (rest : List ν) : BIter ν :=
  let steps1 := st.steps ++ [BStep.current current]
  if endNode = some current then
    match reconstructPathG st.parent startNode current with
    | none => BIter.div
    | some path =>
      BIter.brk { st with
        queue := rest
        steps := steps1 ++ [BStep.found current, BStep.highlight_path path] }
  else
    let visited1 := if current ∈ st.visited then st.visited else current :: st.visited
    let steps2 := steps1 ++ [BStep.visit current]
    let nbs := getNeighborsG g current
    let s := nbs.foldl (bfsNbBody visited1 current) (rest, st.parent, st.distances, [])
    let steps3 :=
      if s.2.2.2 = [] then steps2 else steps2 ++ [BStep.frontier s.2.2.2]
    BIter.cont ⟨s.1, visited1, s.2.1, s.2.2.1, steps3⟩

/-- The BFS `while (queue.length > 0)` loop, fuelled. -/
def bfsLoop {ν : Type} [DecidableEq ν] (g : BGraph ν) (startNode : ν)
    (endNode : Option ν) : Nat → BState ν → Option (BState ν)
  | 0, _ => none
  | fuel + 1, st =>
    match st.queue with
    | [] => some st
    | current :: rest =>
      match bfsIterate g startNode endNode st current rest with
      | BIter.div => none
      | BIter.brk st2 => some st2
      | BIter.cont st2 => bfsLoop g startNode endNode fuel st2

def bfsInit {ν : Type} (startNode : ν) : BState ν :=
  { queue := [startNode]
    visited := []
    parent := [(startNode, JSVal.null)]
    distances := [(startNode, some 0)]
    steps := [BStep.start startNode] }

/-- `BFSAlgorithm.execute`, fuelled (`endNode = none` models the `null`
default). -/
def bfsRun {ν : Type} [DecidableEq ν] (g : BGraph ν) (startNode : ν)
    (endNode : Option ν) (fuel : Nat) : Option (List (BStep ν)) :=
  match bfsLoop g startNode endNode fuel (bfsInit startNode) with
  | none => none
  | some st =>
    match endNode with
    | some e =>
      if e ∉ st.visited then some (st.steps ++ [BStep.not_found])
      else some st.steps
    | none => some (st.steps ++ [BStep.complete])

/-- Reachability along `getNeighbors` hops. -/
def GReach {ν : Type} [DecidableEq ν] (g : BGraph ν) (s c : ν) : Prop :=
  Relation.ReflTransGen (fun a b => b ∈ getNeighborsG g a) s c

/-- A walk of length `n` from `a` to `b` along `getNeighbors` hops. -/
inductive BPathLen {ν : Type} [DecidableEq ν] (g : BGraph ν) (a : ν) :
    ν → Nat → Prop where
  | refl : BPathLen g a a 0
  | tail {b c : ν} {n : Nat} : BPathLen g a b n → c ∈ getNeighborsG g b →
      BPathLen g a c (n + 1)

-- the example from the specification: nodes A..E, edges A-B, A-C, B-D, C-E, B-E

def gSpec : BGraph String :=
  { adjacencyList := none
    edges := some
      [⟨"A", "B", false⟩, ⟨"A", "C", false⟩, ⟨"B", "D", false⟩,
       ⟨"C", "E", false⟩, ⟨"B", "E", false⟩] }

/-- An acyclic parent chain from `start` (whose parent is `null`) up to a
node, listed in start-to-end order: the situation `reconstructPath` is
called in after a successful search. -/
inductive ParentChainTo {ν : Type} [DecidableEq ν]
    (parent : List (ν × JSVal ν)) (s : ν) : ν → List ν → Prop where
  | base : mget parent s = some JSVal.null → ParentChainTo parent s s [s]
  | step {u v : ν} {l : List ν} : ParentChainTo parent s u l →
      mget parent v = some (JSVal.node u) → v ∉ l →
      ParentChainTo parent s v (l ++ [v])

/-- The parent chain built by the searches: each node's recorded parent is
the node it was discovered from, with depth counting the hops from `s`. -/
inductive PChain {ν : Type} [DecidableEq ν] (g : BGraph ν) (s : ν)
    (parent : List (ν × JSVal ν)) : ν → Nat → Prop where
  | base : mget parent s = some JSVal.null → PChain g s parent s 0
  | step {u v : ν} {n : Nat} : PChain g s parent u n →
      mget parent v = some (JSVal.node u) → v ∈ getNeighborsG g u →
      PChain g s parent v (n + 1)

/-- Every node id that `getNeighbors` can ever return. -/
def universeG {ν : Type} (g : BGraph ν) : List ν :=
  match g.adjacencyList with
  | some adj => adj.flatMap (fun p => p.2)
  | none =>
    match g.edges with
    | some edges => edges.flatMap (fun e => [e.src, e.tgt])
    | none => []

/-- The BFS loop invariant: the queue holds distinct unvisited nodes, the
start is discovered with a null parent, the parent map covers exactly the
discovered nodes and realises breadth layers (a `d`/`d+1` split of the
queue), visited neighbours are discovered one layer deeper at most, every
discovered node is reachable and drawn from the graph universe, and the
target (when given) is never in `visited`. -/
def BInv {ν : Type} [DecidableEq ν] (g : BGraph ν) (s : ν) (e? : Option ν)
    (st : BState ν) : Prop :=
  st.queue.Nodup ∧
  st.visited.Nodup ∧
  (∀ v ∈ st.queue, v ∉ st.visited) ∧
  (s ∈ st.queue ∨ s ∈ st.visited) ∧
  PChain g s st.parent s 0 ∧
  (∀ x, (mget st.parent x).isSome → x ∈ st.queue ∨ x ∈ st.visited) ∧
  (∃ d q1 q2, st.queue = q1 ++ q2 ∧
    (∀ v ∈ q1, PChain g s st.parent v d) ∧
    (∀ v ∈ q2, PChain g s st.parent v (d + 1)) ∧
    (∀ v ∈ st.visited, ∃ k, k ≤ d ∧ PChain g s st.parent v k)) ∧
  (∀ u ∈ st.visited, ∀ w ∈ getNeighborsG g u, ∀ k, PChain g s st.parent u k →
    (w ∈ st.visited ∨ w ∈ st.queue) ∧
    ∃ kk, kk ≤ k + 1 ∧ PChain g s st.parent w kk) ∧
  (∀ v ∈ st.queue, GReach g s v) ∧
  (∀ v ∈ st.visited, GReach g s v) ∧
  (∀ v ∈ st.queue, v = s ∨ v ∈ universeG g) ∧
  (∀ v ∈ st.visited, v = s ∨ v ∈ universeG g) ∧
  (∀ e, e? = some e → e ∉ st.visited)

/-! ### DFS (`DFSAlgorithm`, src/unnamed/part_000) -/

/-- A step emitted by the DFS runner (`message` fields omitted). -/
inductive DStep (ν : Type) where
  | start (nodeId : ν)
  | current (nodeId : ν)
  | found (nodeId : ν)
  | highlight_path (path : List ν)
  | visit (nodeId : ν)
  | add_to_stack (nodeIds : List ν)
  | backtrack (fromNode toNode : ν)
  | not_found
  | complete
  deriving DecidableEq, Repr

/-- The DFS state.  The JS array is pushed/popped at its end; the stack is
modelled top-first, so `pop` is the head and `stack[stack.length - 1]` is
the head as well. -/
structure DState (ν : Type) where
  stack : List ν
  visited : List ν
  parent : List (ν × JSVal ν)
  steps : List (DStep ν)
  deriving Repr

/-- Outcome of one iteration of the DFS `while` loop. -/
inductive DIter (ν : Type) where
  | brk (st : DState ν) : DIter ν
  | cont (st : DState ν) : DIter ν
  | div : DIter ν

/-- One iteration of the DFS `while` loop, for a non-empty stack
`current :: rest`.  The `continue` on a visited node just drops it; the
reverse-order `for` loop is a fold over `unvisited.reverse`, each push
prepending to the top; `Set.add` is a plain insert because the `continue`
guarantees `current ∉ visited`. -/
def dfsIterate {ν : Type} [DecidableEq ν] (g : BGraph ν) (startNode : ν)
    (endNode : Option ν) (st : DState ν) (current : ν) (rest : List ν) :
    DIter ν :=
  if current ∈ st.visited then DIter.cont { st with stack := rest }
  else
    let steps1 := st.steps ++ [DStep.current current]
    if endNode = some current then
      match reconstructPathG st.parent startNode current with
      | none => DIter.div
      | some path =>
        DIter.brk { st with
          stack := rest
          steps := steps1 ++ [DStep.found current, DStep.highlight_path path] }
    else
      let visited1 := current :: st.visited
      let steps2 := steps1 ++ [DStep.visit current]
      let neighbors := getNeighborsG g current
      let unvisited := neighbors.filter (fun n => decide (n ∉ visited1))
      let sp := unvisited.reverse.foldl
        (fun (sp : List ν × List (ν × JSVal ν)) n =>
          if (mget sp.2 n).isSome then sp
          else (n :: sp.1, mset sp.2 n (JSVal.node current))) (rest, st.parent)
      let steps3 :=
        if unvisited = [] then steps2
        else steps2 ++ [DStep.add_to_stack unvisited]
      let steps4 :=
        match sp.1 with
        | [] => steps3
        | nextNode :: _ =>
          if nextNode ∉ unvisited then steps3 ++ [DStep.backtrack current nextNode]
          else steps3
      DIter.cont ⟨sp.1, visited1, sp.2, steps4⟩

/-- The DFS `while (stack.length > 0)` loop, fuelled. -/
def dfsLoop {ν : Type} [DecidableEq ν] (g : BGraph ν) (startNode : ν)
    (endNode : Option ν) : Nat → DState ν → Option (DState ν)
  | 0, _ => none
  | fuel + 1, st =>
    match st.stack with
    | [] => some st
    | current :: rest =>
      match dfsIterate g startNode endNode st current rest with
      | DIter.div => none
      | DIter.brk st2 => some st2
      | DIter.cont st2 => dfsLoop g startNode endNode fuel st2

def dfsInit {ν : Type} (startNode : ν) : DState ν :=
  { stack := [startNode]
    visited := []
    parent := [(startNode, JSVal.null)]
    steps := [DStep.start startNode] }

/-- `DFSAlgorithm.execute`, fuelled. -/
def dfsRun {ν : Type} [DecidableEq ν] (g : BGraph ν) (startNode : ν)
    (endNode : Option ν) (fuel : Nat) : Option (List (DStep ν)) :=
  match dfsLoop g startNode endNode fuel (dfsInit startNode) with
  | none => none
  | some st =>
    match endNode with
    | some e =>
      if e ∉ st.visited then some (st.steps ++ [DStep.not_found])
      else some st.steps
    | none => some (st.steps ++ [DStep.complete])

/-- The DFS invariant: every stacked or visited node is reachable. -/
def DInv {ν : Type} [DecidableEq ν] (g : BGraph ν) (s : ν) (st : DState ν) :
    Prop :=
  (∀ x ∈ st.stack, GReach g s x) ∧ (∀ x ∈ st.visited, GReach g s x)

theorem bpass_length (fuel : Nat) (l : List Int) :
    (bpass fuel l).1.length = l.length := by
  induction fuel generalizing l with
  | zero => simp [bpass]
  | succ f ih =>
    match l with
    | [] => simp [bpass]
    | [x] => simp [bpass]
    | x :: y :: rest =>
      by_cases h : x > y <;> simp [bpass, h, ih]

theorem bpass_perm (fuel : Nat) (l : List Int) :
    (bpass fuel l).1.Perm l := by
  induction fuel generalizing l with
  | zero => simp [bpass]
  | succ f ih =>
    match l with
    | [] => simp [bpass]
    | [x] => simp [bpass]
    | x :: y :: rest =>
      by_cases h : x > y
      · simp only [bpass, if_pos h]
        exact ((ih (x :: rest)).cons y).trans (List.Perm.swap x y rest)
      · simp only [bpass, if_neg h]
        exact (ih (y :: rest)).cons x

theorem bpass_flag_false (fuel : Nat) (l : List Int)
    (h : (bpass fuel l).2 = false) : (bpass fuel l).1 = l := by
  induction fuel generalizing l with
  | zero => simp [bpass]
  | succ f ih =>
    match l with
    | [] => simp [bpass]
    | [x] => simp [bpass]
    | x :: y :: rest =>
      by_cases hxy : x > y
      · simp [bpass, hxy] at h
      · simp only [bpass, if_neg hxy] at h ⊢
        simp [ih _ h]

theorem bpass_flag_false_chain (fuel : Nat) (l : List Int)
    (h : (bpass fuel l).2 = false) :
    (l.take (fuel + 1)).Chain' (· ≤ ·) := by
  induction fuel generalizing l with
  | zero =>
    match l with
    | [] => simp
    | x :: rest => simp
  | succ f ih =>
    match l with
    | [] => simp
    | [x] => simp
    | x :: y :: rest =>
      by_cases hxy : x > y
      · simp [bpass, hxy] at h
      · simp only [bpass, if_neg hxy] at h
        have := ih (y :: rest) h
        simp only [List.take_cons] at this ⊢
        exact List.Chain'.cons (by omega) this

theorem bpass_drop (fuel : Nat) (l : List Int) :
    (bpass fuel l).1.drop (fuel + 1) = l.drop (fuel + 1) := by
  induction fuel generalizing l with
  | zero => simp [bpass]
  | succ f ih =>
    match l with
    | [] => simp [bpass]
    | [x] => simp [bpass]
    | x :: y :: rest =>
      by_cases h : x > y <;>
        simpa [bpass, h, List.drop_succ_cons] using ih _

theorem bpass_take_perm (fuel : Nat) (l : List Int) :
    ((bpass fuel l).1.take (fuel + 1)).Perm (l.take (fuel + 1)) := by
  have hperm := bpass_perm fuel l
  have hdrop := bpass_drop fuel l
  have h1 : (bpass fuel l).1.take (fuel + 1) ++ (bpass fuel l).1.drop (fuel + 1)
      = (bpass fuel l).1 := List.take_append_drop _ _
  have h2 : l.take (fuel + 1) ++ l.drop (fuel + 1) = l := List.take_append_drop _ _
  rw [← List.perm_append_right_iff (l.drop (fuel + 1))]
  rw [← hdrop, h1, hdrop, h2]
  exact hperm

theorem bpass_max (fuel : Nat) (l : List Int) (hlen : fuel < l.length) :
    ∀ x ∈ (bpass fuel l).1.take (fuel + 1),
      x ≤ (bpass fuel l).1.getD fuel 0 := by
  induction fuel generalizing l with
  | zero =>
    match l with
    | [] => simp at hlen
    | x :: rest => simp [bpass]
  | succ f ih =>
    match l with
    | [] => simp at hlen
    | [x] => simp at hlen
    | x :: y :: rest =>
      by_cases hxy : x > y
      · simp only [bpass, if_pos hxy]
        intro z hz
        have hlen' : f < (x :: rest).length := by
          simp at hlen ⊢; omega
        have hx_mem : x ∈ (bpass f (x :: rest)).1.take (f + 1) := by
          have : x ∈ (x :: rest).take (f + 1) := by
            simp [List.take_succ_cons]
          exact ((bpass_take_perm f (x :: rest)).mem_iff).2 this
        simp only [List.take_succ_cons, List.mem_cons] at hz
        simp only [List.getD_cons_succ]
        rcases hz with rfl | hz
        · exact le_trans (le_of_lt hxy) (ih (x :: rest) hlen' x hx_mem)
        · exact ih (x :: rest) hlen' z hz
      · simp only [bpass, if_neg hxy]
        intro z hz
        have hlen' : f < (y :: rest).length := by
          simp at hlen ⊢; omega
        have hy_mem : y ∈ (bpass f (y :: rest)).1.take (f + 1) := by
          have : y ∈ (y :: rest).take (f + 1) := by
            simp [List.take_succ_cons]
          exact ((bpass_take_perm f (y :: rest)).mem_iff).2 this
        simp only [List.take_succ_cons, List.mem_cons] at hz
        simp only [List.getD_cons_succ]
        rcases hz with rfl | hz
        · exact le_trans (not_lt.1 hxy) (ih (y :: rest) hlen' y hy_mem)
        · exact ih (y :: rest) hlen' z hz

theorem swapAt_append (pre : List Int) (x y : Int) (rest : List Int) :
    swapAt (pre ++ x :: y :: rest) pre.length = pre ++ y :: x :: rest := by
  induction pre with
  | nil => simp [swapAt]
  | cons a pre ih => simpa [swapAt] using ih

theorem getD_append_len (pre l : List Int) (k : Nat) :
    (pre ++ l).getD (pre.length + k) 0 = l.getD k 0 := by
  induction pre with
  | nil => simp
  | cons a pre ih => simpa [Nat.succ_add] using ih

/-- Bridge: `bubbleInner` starting at position `pre.length` of `pre ++ l`
behaves exactly like the structural pass `bpass` on `l`, leaving `pre`
untouched; its final flag is the disjunction of the entry flag with the
pass's swap flag. -/
theorem bubbleInner_bridge (fuel : Nat) :
    ∀ (pre l : List Int) (s : Bool), fuel < l.length →
      (bubbleInner (pre ++ l) pre.length s fuel).2.1 = pre ++ (bpass fuel l).1 ∧
      (bubbleInner (pre ++ l) pre.length s fuel).2.2 = (s || (bpass fuel l).2) := by
  induction fuel with
  | zero => intro pre l s _; simp [bubbleInner, bpass]
  | succ f ih =>
    intro pre l s hlen
    match l with
    | [] => simp at hlen
    | [x] => simp at hlen
    | x :: y :: rest =>
      have hx : (pre ++ x :: y :: rest).getD (pre.length + 0) 0 = x :=
        getD_append_len pre (x :: y :: rest) 0
      have hy : (pre ++ x :: y :: rest).getD (pre.length + 1) 0 = y :=
        getD_append_len pre (x :: y :: rest) 1
      simp only [Nat.add_zero] at hx
      by_cases hxy : x > y
      · have hcond : (pre ++ x :: y :: rest).getD pre.length 0 >
            (pre ++ x :: y :: rest).getD (pre.length + 1) 0 := by
          rw [hx, hy]; exact hxy
        have hswap := swapAt_append pre x y rest
        have hre : pre ++ y :: x :: rest = (pre ++ [y]) ++ x :: rest := by simp
        have hlen' : f < (x :: rest).length := by simp at hlen ⊢; omega
        have ihh := ih (pre ++ [y]) (x :: rest) true hlen'
        simp only [bubbleInner, if_pos hcond, hswap]
        constructor
        · rw [hre]
          rw [show pre.length + 1 = (pre ++ [y]).length by simp]
          rw [ihh.1]
          simp [bpass, hxy]
        · rw [hre]
          rw [show pre.length + 1 = (pre ++ [y]).length by simp]
          rw [ihh.2]
          simp [bpass, hxy]
      · have hcond : ¬ ((pre ++ x :: y :: rest).getD pre.length 0 >
            (pre ++ x :: y :: rest).getD (pre.length + 1) 0) := by
          rw [hx, hy]; exact hxy
        have hre : pre ++ x :: y :: rest = (pre ++ [x]) ++ y :: rest := by simp
        have hlen' : f < (y :: rest).length := by simp at hlen ⊢; omega
        have ihh := ih (pre ++ [x]) (y :: rest) s hlen'
        simp only [bubbleInner, if_neg hcond]
        constructor
        · rw [hre]
          rw [show pre.length + 1 = (pre ++ [x]).length by simp]
          rw [ihh.1]
          simp [bpass, hxy]
        · rw [hre]
          rw [show pre.length + 1 = (pre ++ [x]).length by simp]
          rw [ihh.2]
          simp [bpass, hxy]

/-- Bridge specialized to the outer loop's call (`j = 0`). -/
theorem bubbleInner_run (fuel : Nat) (a : List Int) (hlen : fuel < a.length) :
    (bubbleInner a 0 false fuel).2.1 = (bpass fuel a).1 ∧
    (bubbleInner a 0 false fuel).2.2 = (bpass fuel a).2 := by
  have := bubbleInner_bridge fuel [] a false hlen
  simpa using this

theorem getD_mem_take (l : List Int) (k : Nat) (h : k < l.length) :
    l.getD k 0 ∈ l.take (k + 1) := by
  induction l generalizing k with
  | nil => simp at h
  | cons x rest ih =>
    match k with
    | 0 => simp
    | k + 1 =>
      simp only [List.getD_cons_succ, List.take_succ_cons, List.mem_cons]
      exact Or.inr (ih k (by simpa using h))

theorem drop_eq_getD_cons (l : List Int) (k : Nat) (h : k < l.length) :
    l.drop k = l.getD k 0 :: l.drop (k + 1) := by
  induction l generalizing k with
  | nil => simp at h
  | cons x rest ih =>
    match k with
    | 0 => simp
    | k + 1 =>
      simp only [List.drop_succ_cons, List.getD_cons_succ]
      exact ih k (by simpa using h)

/-- Invariant proof for the outer loop: entering iteration `i` with an array
whose last `i` positions hold, in sorted order, elements dominating the rest,
the loop returns a sorted permutation of its input and a step list ending in
a `pass_complete` step carrying the final array. -/
theorem bubbleOuter_spec (fuel : Nat) :
    ∀ (a : List Int) (n i : Nat), a.length = n → 1 ≤ n → n ≤ fuel + i → 1 ≤ fuel →
      (a.drop (n - i)).Sorted (· ≤ ·) →
      (∀ x ∈ a.take (n - i), ∀ y ∈ a.drop (n - i), x ≤ y) →
      ((bubbleOuter a n i fuel).2.Sorted (· ≤ ·) ∧
        (bubbleOuter a n i fuel).2.Perm a ∧
        ∃ s : SortStep, (bubbleOuter a n i fuel).1.getLast? = some s ∧
          s.type = "pass_complete" ∧ s.array = (bubbleOuter a n i fuel).2) := by
  induction fuel with
  | zero => intro a n i _ _ _ hfuel _ _; omega
  | succ f ih =>
    intro a n i hn hn1 hfi _ hsorted hcross
    have hf0 : n - i - 1 < a.length := by omega
    obtain ⟨harr, hflag⟩ := bubbleInner_run (n - i - 1) a hf0
    cases hsw : (bpass (n - i - 1) a).2 with
    | false =>
      have hpf : (bubbleInner a 0 false (n - i - 1)).2.2 = false := by
        rw [hflag, hsw]
      have hpa : (bubbleInner a 0 false (n - i - 1)).2.1 = a := by
        rw [harr, bpass_flag_false _ _ hsw]
      have hres : bubbleOuter a n i (f + 1) =
          ((bubbleInner a 0 false (n - i - 1)).1 ++
            [⟨"pass_complete", [n - i - 1], a⟩], a) := by
        simp only [bubbleOuter, hpf, hpa, Bool.false_eq_true, if_false]
      rw [hres]
      have hsorted_all : a.Sorted (· ≤ ·) := by
        by_cases hi : i < n
        · have htake : (a.take (n - i)).Sorted (· ≤ ·) := by
            have hc := bpass_flag_false_chain _ _ hsw
            have : n - i - 1 + 1 = n - i := by omega
            rw [this] at hc
            exact List.chain'_iff_pairwise.1 hc
          have := List.take_append_drop (n - i) a
          rw [← this]
          rw [List.Sorted, List.pairwise_append]
          exact ⟨htake, hsorted, hcross⟩
        · have : n - i = 0 := by omega
          rw [this, List.drop_zero] at hsorted
          exact hsorted
      refine ⟨hsorted_all, List.Perm.refl a, ⟨"pass_complete", [n - i - 1], a⟩,
        ?_, rfl, rfl⟩
      exact List.getLast?_concat _
    | true =>
      have hpf : (bubbleInner a 0 false (n - i - 1)).2.2 = true := by
        rw [hflag, hsw]
      have hf1 : 1 ≤ n - i - 1 := by
        by_contra hcon
        have : n - i - 1 = 0 := by omega
        rw [this] at hsw
        simp [bpass] at hsw
      set b := (bpass (n - i - 1) a).1 with hb
      have hpa : (bubbleInner a 0 false (n - i - 1)).2.1 = b := harr
      have hblen : b.length = a.length := bpass_length _ _
      have hbperm : b.Perm a := bpass_perm _ _
      have hin : i + 1 < n := by omega
      have hni1 : n - (i + 1) = n - i - 1 := by omega
      have hni : n - i - 1 + 1 = n - i := by omega
      have hbf0 : n - i - 1 < b.length := by omega
      set M := b.getD (n - i - 1) 0 with hM
      have hdropb : b.drop (n - i - 1) = M :: b.drop (n - i - 1 + 1) :=
        drop_eq_getD_cons b (n - i - 1) hbf0
      have hdropb2 : b.drop (n - i - 1 + 1) = a.drop (n - i) := by
        rw [bpass_drop, hni]
      have hMmem : M ∈ a.take (n - i) := by
        have h1 : M ∈ b.take (n - i - 1 + 1) := getD_mem_take b (n - i - 1) hbf0
        have h2 := (bpass_take_perm (n - i - 1) a).mem_iff.1 (by rw [← hb]; exact h1)
        rwa [hni] at h2
      have hsorted' : (b.drop (n - (i + 1))).Sorted (· ≤ ·) := by
        rw [hni1, hdropb, hdropb2, List.sorted_cons]
        exact ⟨fun y hy => hcross M hMmem y hy, hsorted⟩
      have hcross' : ∀ x ∈ b.take (n - (i + 1)), ∀ y ∈ b.drop (n - (i + 1)), x ≤ y := by
        rw [hni1]
        intro x hx y hy
        have hx1 : x ∈ b.take (n - i - 1 + 1) := by
          have : b.take (n - i - 1) = (b.take (n - i - 1 + 1)).take (n - i - 1) := by
            rw [List.take_take]
            congr 1
            omega
          rw [this] at hx
          exact List.take_subset _ _ hx
        have hxM : x ≤ M := bpass_max (n - i - 1) a hf0 x (by rw [← hb]; exact hx1)
        have hxa : x ∈ a.take (n - i) := by
          have := (bpass_take_perm (n - i - 1) a).mem_iff.1 (by rw [← hb]; exact hx1)
          rwa [hni] at this
        rw [hdropb, hdropb2] at hy
        rcases List.mem_cons.1 hy with rfl | hy'
        · exact hxM
        · exact hcross x hxa y hy'
      have ihh := ih b n (i + 1) (hblen.trans hn) hn1 (by omega) (by omega)
        hsorted' hcross'
      obtain ⟨ihs, ihp, s, hs1, hs2, hs3⟩ := ihh
      have hres : bubbleOuter a n i (f + 1) =
          ((bubbleInner a 0 false (n - i - 1)).1 ++
            ⟨"pass_complete", [n - i - 1], b⟩ ::
              (bubbleOuter b n (i + 1) f).1,
            (bubbleOuter b n (i + 1) f).2) := by
        simp only [bubbleOuter, hpf, hpa, if_true]
      have hres1 : (bubbleOuter a n i (f + 1)).1 =
          (bubbleInner a 0 false (n - i - 1)).1 ++
            ⟨"pass_complete", [n - i - 1], b⟩ :: (bubbleOuter b n (i + 1) f).1 := by
        rw [hres]
      have hres2 : (bubbleOuter a n i (f + 1)).2 = (bubbleOuter b n (i + 1) f).2 := by
        rw [hres]
      rw [hres1, hres2]
      refine ⟨ihs, ihp.trans hbperm, s, ?_, hs2, hs3⟩
      have hr1ne : (bubbleOuter b n (i + 1) f).1 ≠ [] := by
        intro hemp
        rw [hemp] at hs1
        simp at hs1
      obtain ⟨r0, R, hR⟩ := List.exists_cons_of_ne_nil hr1ne
      rw [hR, List.getLast?_append_cons, List.getLast?_cons_cons, ← hR]
      exact hs1

/-- C1: for every non-empty integer array, the bubble-sort step log ends with
a `pass_complete` step whose `array` snapshot is a non-decreasing permutation
of the input; and whenever a full outer pass performs no swaps (at any
reachable outer-loop state), the remaining log is exactly that pass's steps
followed by its `pass_complete` step — nothing further is emitted. -/
theorem bubbleSort_log_spec (arr : List Int) (h : arr ≠ []) :
    (∃ s : SortStep, (bubbleSortSteps arr).getLast? = some s ∧
      s.type = "pass_complete" ∧ s.array.Sorted (· ≤ ·) ∧ s.array.Perm arr) ∧
    (∀ (a : List Int) (n i fuel : Nat),
      (bubbleInner a 0 false (n - i - 1)).2.2 = false →
      (bubbleOuter a n i (fuel + 1)).1 =
        (bubbleInner a 0 false (n - i - 1)).1 ++
          [⟨"pass_complete", [n - i - 1],
            (bubbleInner a 0 false (n - i - 1)).2.1⟩]) := by
  constructor
  · have hn1 : 1 ≤ arr.length := by
      cases arr with
      | nil => exact absurd rfl h
      | cons x rest => simp
    have := bubbleOuter_spec arr.length arr arr.length 0 rfl hn1 (by omega) hn1
      (by rw [Nat.sub_zero, List.drop_length]; exact List.sorted_nil)
      (by intro x _ y hy; rw [Nat.sub_zero, List.drop_length] at hy; simp at hy)
    obtain ⟨hs, hp, s, h1, h2, h3⟩ := this
    exact ⟨s, h1, h2, h3 ▸ hs, h3 ▸ hp⟩
  · intro a n i fuel hflag
    simp only [bubbleOuter, hflag, Bool.false_eq_true, if_false]

/-- Witness for C1 at the spec's own example input `[5,3,8,1]`. -/
theorem bubbleSort_log_spec_witness :
    ([(5 : Int), 3, 8, 1] ≠ []) ∧
    (∃ s : SortStep, (bubbleSortSteps [5, 3, 8, 1]).getLast? = some s ∧
      s.type = "pass_complete" ∧ s.array.Sorted (· ≤ ·) ∧
      s.array.Perm [5, 3, 8, 1]) :=
  ⟨by decide, (bubbleSort_log_spec [5, 3, 8, 1] (by decide)).1⟩

example : bubbleSortSteps [2, 1] =
    [⟨"compare", [0, 1], [2, 1]⟩, ⟨"swap", [0, 1], [1, 2]⟩,
     ⟨"pass_complete", [1], [1, 2]⟩, ⟨"pass_complete", [0], [1, 2]⟩] := by
  decide

example : bubbleSortSteps [1, 2, 3] =
    [⟨"compare", [0, 1], [1, 2, 3]⟩, ⟨"compare", [1, 2], [1, 2, 3]⟩,
     ⟨"pass_complete", [2], [1, 2, 3]⟩] := by
  decide

/-! ### C6: `goToStep` -/

/-- C6 counterexample: on the 4-step log for `[2,1]`, `goToStep(99)` leaves
the cursor at 0 instead of clamping it to the last index 3. -/
theorem goToStep_no_clamp_counterexample :
    goToStepIndex (bubbleSortSteps [2, 1]) 0 99 = 0 ∧
    ¬ goToStepIndex (bubbleSortSteps [2, 1]) 0 99 =
        (bubbleSortSteps [2, 1]).length - 1 := by
  decide

/-- C6 (amended): for every loaded step log of length ≥ 1, `goToStep(i)`
sets the cursor to `i` exactly when `0 ≤ i < len`, and leaves the cursor
unchanged (no clamping) otherwise. -/
theorem goToStep_index_spec {σ : Type} (steps : List σ) (cur : Nat) (i : Int)
    (_hlen : 1 ≤ steps.length) :
    (0 ≤ i → i < steps.length → goToStepIndex steps cur i = i.toNat) ∧
    (i < 0 ∨ (steps.length : Int) ≤ i → goToStepIndex steps cur i = cur) := by
  unfold goToStepIndex
  constructor
  · intro h1 h2
    rw [if_pos ⟨h1, h2⟩]
  · intro h
    rw [if_neg]
    rintro ⟨h1, h2⟩
    omega

/-- Witness for C6's amended theorem on the `[2,1]` log with `i = 99`. -/
theorem goToStep_index_spec_witness :
    (0 ≤ (99 : Int) → (99 : Int) < (bubbleSortSteps [2, 1]).length →
      goToStepIndex (bubbleSortSteps [2, 1]) 0 99 = (99 : Int).toNat) ∧
    ((99 : Int) < 0 ∨ ((bubbleSortSteps [2, 1]).length : Int) ≤ 99 →
      goToStepIndex (bubbleSortSteps [2, 1]) 0 99 = 0) :=
  goToStep_index_spec (bubbleSortSteps [2, 1]) 0 99 (by decide)

/-! ### C7: unknown step kinds -/

/-- C7 counterexample: the array adapter is not a no-op on an unknown step
kind — `executeStep` first resets every element's state to `default`, so an
element in state `comparing` is changed. -/
theorem arrayExecuteStep_unknown_not_noop :
    arrayExecuteStep ⟨[⟨5, "comparing"⟩], [5]⟩ ⟨"shuffle", [], none⟩ ≠
      (⟨[⟨5, "comparing"⟩], [5]⟩ : ArrayViz) := by
  decide

/-- C7 (amended): the grid adapter leaves its state entirely unchanged on a
step kind outside its dispatch table; the array adapter, by contrast, resets
every element's state to `default` (keeping values and data) on an unknown
step kind, because the reset precedes the dispatch. -/
theorem executeStep_unknown_kind_spec :
    (∀ (g : GridViz) (step : GridStep),
      step.type ∉ ["visit", "current", "add_to_frontier", "mark_path",
        "set_wall", "set_start", "set_end", "reset"] →
      gridExecuteStepE g step = .ok g) ∧
    (∀ (st : ArrayViz) (step : ArrayStep),
      step.type ∉ ["compare", "swap", "pass_complete", "completed",
        "new_min", "pass_start", "current"] →
      arrayExecuteStep st step =
        { st with elements :=
            st.elements.map fun e => { e with state := "default" } }) := by
  constructor
  · intro g step h
    simp only [List.mem_cons, List.not_mem_nil, or_false, not_or] at h
    obtain ⟨h1, h2, h3, h4, h5, h6, h7, h8⟩ := h
    simp [gridExecuteStepE, h1, h2, h3, h4, h5, h6, h7, h8, Except.pure]
    rfl
  · intro st step h
    simp only [List.mem_cons, List.not_mem_nil, or_false, not_or] at h
    obtain ⟨h1, h2, h3, h4, h5, h6, h7⟩ := h
    simp [arrayExecuteStep, h1, h2, h3, h4, h5, h6, h7]

/-- Witness for C7's amended theorem: a 1×1 grid and a 1-element array under
an unrecognized step kind `zzz`. -/
theorem executeStep_unknown_kind_spec_witness :
    gridExecuteStepE ⟨1, 1, [[⟨"empty", false, false, "default"⟩]], none, none⟩
        ⟨"zzz", 0, 0, [], [], []⟩ =
      .ok ⟨1, 1, [[⟨"empty", false, false, "default"⟩]], none, none⟩ ∧
    arrayExecuteStep ⟨[⟨5, "comparing"⟩], [5]⟩ ⟨"zzz", [], none⟩ =
      { (⟨[⟨5, "comparing"⟩], [5]⟩ : ArrayViz) with elements := (⟨[⟨5, "comparing"⟩], [5]⟩ : ArrayViz).elements.map (fun e => { e with state := "default" }) } :=
  ⟨executeStep_unknown_kind_spec.1 _ _ (by decide),
   executeStep_unknown_kind_spec.2 _ _ (by decide)⟩

/-! ### Grid adapter: lookup and update algebra -/

theorem modifyRow_length (row : List GridCell) (c : Nat) (f : GridCell → GridCell) :
    (modifyRow row c f).length = row.length := by
  induction row generalizing c with
  | nil => simp [modifyRow]
  | cons x xs ih =>
    match c with
    | 0 => simp [modifyRow]
    | c + 1 => simp [modifyRow, ih]

theorem modifyRow_getElem? (row : List GridCell) (c : Nat) (f : GridCell → GridCell)
    (c' : Nat) :
    (modifyRow row c f)[c']? = if c' = c then (row[c]?).map f else row[c']? := by
  induction row generalizing c c' with
  | nil => simp [modifyRow]
  | cons x xs ih =>
    match c, c' with
    | 0, 0 => simp [modifyRow]
    | 0, c' + 1 => simp [modifyRow]
    | c + 1, 0 => simp [modifyRow]
    | c + 1, c' + 1 => simpa [modifyRow] using ih c c'

theorem modifyCell_length (grid : List (List GridCell)) (r c : Nat)
    (f : GridCell → GridCell) : (modifyCell grid r c f).length = grid.length := by
  induction grid generalizing r with
  | nil => simp [modifyCell]
  | cons row rest ih =>
    match r with
    | 0 => simp [modifyCell]
    | r + 1 => simp [modifyCell, ih]

theorem modifyCell_getElem? (grid : List (List GridCell)) (r c : Nat)
    (f : GridCell → GridCell) (r' : Nat) :
    (modifyCell grid r c f)[r']? =
      if r' = r then (grid[r]?).map (fun row => modifyRow row c f)
      else grid[r']? := by
  induction grid generalizing r r' with
  | nil => simp [modifyCell]
  | cons row rest ih =>
    match r, r' with
    | 0, 0 => simp [modifyCell]
    | 0, r' + 1 => simp [modifyCell]
    | r + 1, 0 => simp [modifyCell]
    | r + 1, r' + 1 => simpa [modifyCell] using ih r r'

theorem modifyCell_shape (grid : List (List GridCell)) (r c : Nat)
    (f : GridCell → GridCell) :
    (modifyCell grid r c f).map List.length = grid.map List.length := by
  induction grid generalizing r with
  | nil => simp [modifyCell]
  | cons row rest ih =>
    match r with
    | 0 => simp [modifyCell, modifyRow_length]
    | r + 1 => simp [modifyCell, ih]

theorem modifyRow_id (row : List GridCell) (c : Nat) :
    modifyRow row c (fun x => x) = row := by
  induction row generalizing c with
  | nil => simp [modifyRow]
  | cons x xs ih =>
    match c with
    | 0 => simp [modifyRow]
    | c + 1 => simp [modifyRow, ih]

theorem modifyCell_id (grid : List (List GridCell)) (r c : Nat) :
    modifyCell grid r c (fun x => x) = grid := by
  induction grid generalizing r with
  | nil => simp [modifyCell]
  | cons row rest ih =>
    match r with
    | 0 => simp [modifyCell, modifyRow_id]
    | r + 1 => simp [modifyCell, ih]

theorem modifyRow_comp (row : List GridCell) (c : Nat) (f h : GridCell → GridCell) :
    modifyRow (modifyRow row c f) c h = modifyRow row c (fun x => h (f x)) := by
  induction row generalizing c with
  | nil => simp [modifyRow]
  | cons x xs ih =>
    match c with
    | 0 => simp [modifyRow]
    | c + 1 => simp [modifyRow, ih]

theorem modifyCell_comp (grid : List (List GridCell)) (r c : Nat)
    (f h : GridCell → GridCell) :
    modifyCell (modifyCell grid r c f) r c h =
      modifyCell grid r c (fun x => h (f x)) := by
  induction grid generalizing r with
  | nil => simp [modifyCell]
  | cons row rest ih =>
    match r with
    | 0 => simp [modifyCell, modifyRow_comp]
    | r + 1 => simp [modifyCell, ih]

theorem modifyRow_comm (row : List GridCell) (c1 c2 : Nat)
    (f h : GridCell → GridCell) (hne : c1 ≠ c2) :
    modifyRow (modifyRow row c1 f) c2 h = modifyRow (modifyRow row c2 h) c1 f := by
  induction row generalizing c1 c2 with
  | nil => simp [modifyRow]
  | cons x xs ih =>
    match c1, c2 with
    | 0, 0 => exact absurd rfl hne
    | 0, c2 + 1 => simp [modifyRow]
    | c1 + 1, 0 => simp [modifyRow]
    | c1 + 1, c2 + 1 =>
      simp only [modifyRow, List.cons.injEq, true_and]
      exact ih c1 c2 (by omega)

theorem modifyCell_comm (grid : List (List GridCell)) (r1 c1 r2 c2 : Nat)
    (f h : GridCell → GridCell) (hne : ¬(r1 = r2 ∧ c1 = c2)) :
    modifyCell (modifyCell grid r1 c1 f) r2 c2 h =
      modifyCell (modifyCell grid r2 c2 h) r1 c1 f := by
  induction grid generalizing r1 r2 with
  | nil => simp [modifyCell]
  | cons row rest ih =>
    match r1, r2 with
    | 0, 0 =>
      have hc : c1 ≠ c2 := by
        intro hc; exact hne ⟨rfl, hc⟩
      simp [modifyCell, modifyRow_comm row c1 c2 f h hc]
    | 0, r2 + 1 => simp [modifyCell]
    | r1 + 1, 0 => simp [modifyCell]
    | r1 + 1, r2 + 1 =>
      simp only [modifyCell, List.cons.injEq, true_and]
      exact ih r1 r2 (by intro hx; exact hne ⟨by omega, hx.2⟩)

theorem map_modifyRow (φ f fx : GridCell → GridCell)
    (hc : ∀ x, φ (f x) = fx (φ x)) (row : List GridCell) (c : Nat) :
    (modifyRow row c f).map φ = modifyRow (row.map φ) c fx := by
  induction row generalizing c with
  | nil => simp [modifyRow]
  | cons x xs ih =>
    match c with
    | 0 => simp [modifyRow, hc]
    | c + 1 => simp [modifyRow, ih]

theorem map_modifyCell (φ f fx : GridCell → GridCell)
    (hc : ∀ x, φ (f x) = fx (φ x)) (grid : List (List GridCell)) (r c : Nat) :
    (modifyCell grid r c f).map (List.map φ) =
      modifyCell (grid.map (List.map φ)) r c fx := by
  induction grid generalizing r with
  | nil => simp [modifyCell]
  | cons row rest ih =>
    match r with
    | 0 => simp [modifyCell, map_modifyRow φ f fx hc]
    | r + 1 => simp [modifyCell, ih]

theorem map_grid_self (φ : GridCell → GridCell) (hφ : ∀ x, φ (φ x) = φ x)
    (grid : List (List GridCell)) :
    (grid.map (List.map φ)).map (List.map φ) = grid.map (List.map φ) := by
  rw [List.map_map]
  apply List.map_congr_left
  intro row _
  simp only [Function.comp_apply]
  rw [List.map_map]
  apply List.map_congr_left
  intro x _
  exact hφ x

theorem map_grid_shape (φ : GridCell → GridCell) (grid : List (List GridCell)) :
    (grid.map (List.map φ)).map List.length = grid.map List.length := by
  rw [List.map_map]
  apply List.map_congr_left
  intro row _
  simp

theorem GridWF_grid_update (g : GridViz) (grid2 : List (List GridCell))
    (hs : grid2.map List.length = g.grid.map List.length) (hwf : GridWF g) :
    GridWF { g with grid := grid2 } := by
  constructor
  · have hlen : grid2.length = g.grid.length := by
      have := congrArg List.length hs
      simpa using this
    simpa [hlen] using hwf.1
  · intro r hr
    have hmem : r.length ∈ grid2.map List.length := List.mem_map_of_mem _ hr
    rw [hs] at hmem
    obtain ⟨r1, hr1, hlen⟩ := List.mem_map.1 hmem
    rw [← hlen]
    exact hwf.2 r1 hr1

theorem getCellAux_modifyCell (rows cols : Nat) (grid : List (List GridCell))
    (r c : Nat) (f : GridCell → GridCell) (row col : Int) :
    getCellAux rows cols (modifyCell grid r c f) row col =
      if row.toNat = r ∧ col.toNat = c then
        (getCellAux rows cols grid row col).map f
      else getCellAux rows cols grid row col := by
  unfold getCellAux
  by_cases hb : 0 ≤ row ∧ row < (rows : Int) ∧ 0 ≤ col ∧ col < (cols : Int)
  · simp only [if_pos hb, modifyCell_getElem?]
    by_cases h1 : row.toNat = r
    · subst h1
      simp only [if_pos rfl]
      cases hrow : grid[row.toNat]? with
      | none => simp
      | some rowL =>
        by_cases h2 : col.toNat = c
        · subst h2
          simp [modifyRow_getElem?]
        · simp [modifyRow_getElem?, h2]
    · simp [h1]
  · simp [if_neg hb]

theorem getCellAux_map (rows cols : Nat) (grid : List (List GridCell))
    (φ : GridCell → GridCell) (row col : Int) :
    getCellAux rows cols (grid.map (List.map φ)) row col =
      (getCellAux rows cols grid row col).map φ := by
  unfold getCellAux
  by_cases hb : 0 ≤ row ∧ row < (rows : Int) ∧ 0 ≤ col ∧ col < (cols : Int)
  · simp only [if_pos hb, List.getElem?_map]
    cases hrow : grid[row.toNat]? with
    | none => simp
    | some rowL => simp [List.getElem?_map]
  · simp [if_neg hb]

theorem getCellE_wf (g : GridViz) (hwf : GridWF g) (row col : Int) :
    getCellE g row col = .ok (getCell? g row col) := by
  unfold getCellE getCell? getCellAux
  by_cases hb : 0 ≤ row ∧ row < (g.rows : Int) ∧ 0 ≤ col ∧ col < (g.cols : Int)
  · simp only [if_pos hb]
    have hrow : row.toNat < g.grid.length := by
      rw [hwf.1]
      omega
    rw [List.getElem?_eq_getElem hrow]
    simp
  · simp [if_neg hb]

theorem foldlM_except_ok {α β : Type} (P : α → Prop)
    (fE : α → β → Except String α) (f : α → β → α)
    (hfE : ∀ a b, P a → fE a b = .ok (f a b))
    (hP : ∀ a b, P a → P (f a b)) :
    ∀ (l : List β) (a : α), P a →
      l.foldlM fE a = .ok (l.foldl f a) ∧ P (l.foldl f a) := by
  intro l
  induction l with
  | nil =>
    intro a ha
    exact ⟨rfl, ha⟩
  | cons b t ih =>
    intro a ha
    rw [List.foldlM_cons, hfE a b ha, List.foldl_cons]
    have := ih (f a b) (hP a b ha)
    simpa [Except.bind] using this

theorem foldl_comm_single {α β : Type} (φ : α → β → α)
    (hcomm : ∀ g i j, φ (φ g i) j = φ (φ g j) i) :
    ∀ (l : List β) (g : α) (a : β), l.foldl φ (φ g a) = φ (l.foldl φ g) a := by
  intro l
  induction l with
  | nil => intro g a; rfl
  | cons b t ih =>
    intro g a
    rw [List.foldl_cons, List.foldl_cons, hcomm g a b, ih]

theorem foldl_self_idem {α β : Type} (φ : α → β → α)
    (hcomm : ∀ g i j, φ (φ g i) j = φ (φ g j) i)
    (hidem : ∀ g i, φ (φ g i) i = φ g i) :
    ∀ (l : List β) (g : α), l.foldl φ (l.foldl φ g) = l.foldl φ g := by
  intro l
  induction l with
  | nil => intro g; rfl
  | cons b t ih =>
    intro g
    rw [List.foldl_cons, List.foldl_cons,
      foldl_comm_single φ hcomm t (List.foldl φ (φ g b) t) b,
      foldl_comm_single φ hcomm t g b,
      foldl_comm_single φ hcomm t (List.foldl φ g t) b, ih g, hidem]

theorem except_bind_ok {α β : Type} (a : α) (k : α → Except String β) :
    (Except.ok a >>= k) = k a := rfl

theorem frontierBodyE_bridge (rows cols : List Int) (acc : GridViz) (i : Nat)
    (hwf : GridWF acc) :
    frontierBodyE rows cols acc i = .ok (frontierBody rows cols acc i) := by
  unfold frontierBodyE frontierBody
  cases rows[i]? with
  | none => rfl
  | some r =>
    cases cols[i]? with
    | none => rfl
    | some c =>
      dsimp only
      rw [getCellE_wf acc hwf]
      cases getCell? acc r c with
      | none => rfl
      | some cell =>
        rw [except_bind_ok]
        dsimp only
        by_cases hcond : ¬cell.visited ∧ cell.type ≠ "wall"
        · simp only [if_pos hcond]
          rfl
        · simp only [if_neg hcond]
          rfl

theorem frontierBody_wf (rows cols : List Int) (acc : GridViz) (i : Nat)
    (hwf : GridWF acc) : GridWF (frontierBody rows cols acc i) := by
  unfold frontierBody
  cases rows[i]? with
  | none => exact hwf
  | some r =>
    cases cols[i]? with
    | none => exact hwf
    | some c =>
      dsimp only
      cases getCell? acc r c with
      | none => exact hwf
      | some cell =>
        by_cases hcond : ¬cell.visited ∧ cell.type ≠ "wall"
        · simp only [if_pos hcond]
          exact GridWF_grid_update acc _ (modifyCell_shape _ _ _ _) hwf
        · simp only [if_neg hcond]
          exact hwf

theorem pathBodyE_bridge (acc : GridViz) (rc : Int × Int) (hwf : GridWF acc) :
    pathBodyE acc rc = .ok (pathBody acc rc) := by
  unfold pathBodyE pathBody
  rw [getCellE_wf acc hwf]
  cases getCell? acc rc.1 rc.2 with
  | none => rfl
  | some cell => rfl

theorem pathBody_wf (acc : GridViz) (rc : Int × Int) (hwf : GridWF acc) :
    GridWF (pathBody acc rc) := by
  unfold pathBody
  cases getCell? acc rc.1 rc.2 with
  | none => exact hwf
  | some cell => exact GridWF_grid_update acc _ (modifyCell_shape _ _ _ _) hwf

/-- On a well-formed grid the faithful `executeStep` never raises and agrees
with the pure model, whose result is well-formed again. -/
theorem gridExec_bridge (g : GridViz) (step : GridStep) (hwf : GridWF g) :
    gridExecuteStepE g step = .ok (gridExecApply g step) ∧
    GridWF (gridExecApply g step) := by
  have hwf_map : ∀ (φ : GridCell → GridCell),
      GridWF { g with grid := g.grid.map (List.map φ) } :=
    fun φ => GridWF_grid_update g _ (map_grid_shape φ g.grid) hwf
  unfold gridExecuteStepE gridExecApply
  by_cases h1 : step.type = "visit"
  · simp only [if_pos h1]
    rw [getCellE_wf g hwf]
    cases getCell? g step.row step.col with
    | none => exact ⟨rfl, hwf⟩
    | some c =>
      rw [except_bind_ok]
      dsimp only
      by_cases hc : c.type ≠ "wall"
      · simp only [if_pos hc]
        exact ⟨rfl, GridWF_grid_update g _ (modifyCell_shape _ _ _ _) hwf⟩
      · simp only [if_neg hc]
        exact ⟨rfl, hwf⟩
  simp only [if_neg h1]
  by_cases h2 : step.type = "current"
  · simp only [if_pos h2]
    have hwfC : GridWF { g with grid := clearCurrent g.grid } := hwf_map _
    rw [getCellE_wf _ hwfC]
    cases getCell? { g with grid := clearCurrent g.grid } step.row step.col with
    | none => exact ⟨rfl, hwf_map _⟩
    | some c =>
      rw [except_bind_ok]
      dsimp only
      exact ⟨rfl, GridWF_grid_update { g with grid := clearCurrent g.grid } _ (modifyCell_shape _ _ _ _) hwfC⟩
  simp only [if_neg h2]
  by_cases h3 : step.type = "add_to_frontier"
  · simp only [if_pos h3]
    exact foldlM_except_ok GridWF (frontierBodyE step.rows step.cols)
      (frontierBody step.rows step.cols)
      (fun a b ha => frontierBodyE_bridge step.rows step.cols a b ha)
      (fun a b ha => frontierBody_wf step.rows step.cols a b ha)
      (List.range step.rows.length) g hwf
  simp only [if_neg h3]
  by_cases h4 : step.type = "mark_path"
  · simp only [if_pos h4]
    exact foldlM_except_ok GridWF pathBodyE pathBody
      (fun a b ha => pathBodyE_bridge a b ha)
      (fun a b ha => pathBody_wf a b ha)
      step.path _ (hwf_map _)
  simp only [if_neg h4]
  by_cases h5 : step.type = "set_wall"
  · simp only [if_pos h5]
    rw [getCellE_wf g hwf]
    cases getCell? g step.row step.col with
    | none => exact ⟨rfl, hwf⟩
    | some c =>
      rw [except_bind_ok]
      dsimp only
      by_cases hc : c.type ≠ "start" ∧ c.type ≠ "end"
      · simp only [if_pos hc]
        exact ⟨rfl, GridWF_grid_update g _ (modifyCell_shape _ _ _ _) hwf⟩
      · simp only [if_neg hc]
        exact ⟨rfl, hwf⟩
  simp only [if_neg h5]
  by_cases h6 : step.type = "set_start"
  · simp only [if_pos h6]
    cases hsc : g.startCell with
    | none =>
      dsimp only
      rw [getCellE_wf g hwf]
      cases getCell? g step.row step.col with
      | none => exact ⟨rfl, hwf⟩
      | some c =>
        rw [except_bind_ok]
        dsimp only
        exact ⟨rfl, GridWF_grid_update g _ (modifyCell_shape _ _ _ _) hwf⟩
    | some rc =>
      dsimp only
      have hwf1 : GridWF (⟨g.rows, g.cols, modifyCell g.grid rc.1 rc.2 (fun cell => { cell with type := "empty" }), some rc, g.endCell⟩ : GridViz) :=
        GridWF_grid_update g _ (modifyCell_shape _ _ _ _) hwf
      rw [getCellE_wf _ hwf1]
      cases getCell? (⟨g.rows, g.cols, modifyCell g.grid rc.1 rc.2 (fun cell => { cell with type := "empty" }), some rc, g.endCell⟩ : GridViz) step.row step.col with
      | none => exact ⟨rfl, hwf1⟩
      | some c =>
        rw [except_bind_ok]
        dsimp only
        exact ⟨rfl, GridWF_grid_update (⟨g.rows, g.cols, modifyCell g.grid rc.1 rc.2 (fun cell => { cell with type := "empty" }), some rc, g.endCell⟩ : GridViz) _ (modifyCell_shape _ _ _ _) hwf1⟩
  simp only [if_neg h6]
  by_cases h7 : step.type = "set_end"
  · simp only [if_pos h7]
    cases hsc : g.endCell with
    | none =>
      dsimp only
      rw [getCellE_wf g hwf]
      cases getCell? g step.row step.col with
      | none => exact ⟨rfl, hwf⟩
      | some c =>
        rw [except_bind_ok]
        dsimp only
        exact ⟨rfl, GridWF_grid_update g _ (modifyCell_shape _ _ _ _) hwf⟩
    | some rc =>
      dsimp only
      have hwf1 : GridWF (⟨g.rows, g.cols, modifyCell g.grid rc.1 rc.2 (fun cell => { cell with type := "empty" }), g.startCell, some rc⟩ : GridViz) :=
        GridWF_grid_update g _ (modifyCell_shape _ _ _ _) hwf
      rw [getCellE_wf _ hwf1]
      cases getCell? (⟨g.rows, g.cols, modifyCell g.grid rc.1 rc.2 (fun cell => { cell with type := "empty" }), g.startCell, some rc⟩ : GridViz) step.row step.col with
      | none => exact ⟨rfl, hwf1⟩
      | some c =>
        rw [except_bind_ok]
        dsimp only
        exact ⟨rfl, GridWF_grid_update (⟨g.rows, g.cols, modifyCell g.grid rc.1 rc.2 (fun cell => { cell with type := "empty" }), g.startCell, some rc⟩ : GridViz) _ (modifyCell_shape _ _ _ _) hwf1⟩
  simp only [if_neg h7]
  by_cases h8 : step.type = "reset"
  · simp only [if_pos h8]
    exact ⟨rfl, hwf_map _⟩
  simp only [if_neg h8]
  exact ⟨rfl, hwf⟩

/-- `setStateAt` ignores an out-of-range index entirely. -/
theorem setStateAt_out_of_range (elems : List ArrElem) (idx : Nat) (s : String)
    (h : elems.length ≤ idx) : setStateAt elems idx s = elems := by
  induction elems generalizing idx with
  | nil => cases idx <;> rfl
  | cons e es ih =>
    match idx with
    | 0 => simp at h
    | idx + 1 =>
      simp only [setStateAt, List.cons.injEq, true_and]
      exact ih idx (by simpa using h)

/-- C8: a step whose target lies outside the scene graph never raises: on any
well-formed grid (as built by `createGrid`) the faithful `executeStep`
returns a result for every step, including those with out-of-range or
negative `row`/`col`; and the array adapter's per-index update is the
identity on any out-of-range index, so out-of-range `indices` entries are
silently skipped. -/
theorem executeStep_missing_ref_safe :
    (∀ (g : GridViz) (step : GridStep), GridWF g →
      ∃ g', gridExecuteStepE g step = .ok g') ∧
    (∀ (elems : List ArrElem) (idx : Nat) (s : String),
      elems.length ≤ idx → setStateAt elems idx s = elems) := by
  constructor
  · intro g step hwf
    exact ⟨gridExecApply g step, (gridExec_bridge g step hwf).1⟩
  · exact setStateAt_out_of_range

/-- Witness for C8: a well-formed 1×1 grid with a `visit` step aimed at
(5,5), and a 1-element array with index 3. -/
theorem executeStep_missing_ref_safe_witness :
    (∃ g', gridExecuteStepE
        ⟨1, 1, [[⟨"empty", false, false, "default"⟩]], none, none⟩
        ⟨"visit", 5, 5, [], [], []⟩ = .ok g') ∧
    setStateAt [⟨5, "default"⟩] 3 "comparing" = [⟨5, "default"⟩] :=
  ⟨executeStep_missing_ref_safe.1 _ _ (by decide),
   executeStep_missing_ref_safe.2 _ 3 "comparing" (by decide)⟩

/-! ### Array adapter: idempotence lemmas -/

theorem updateValues_nil (es : List ArrElem) : updateValues es [] = es := by
  induction es with
  | nil => rfl
  | cons e es ih => simp [updateValues, ih]

theorem map_default_setStateAt (es : List ArrElem) (i : Nat) (s : String) :
    (setStateAt es i s).map (fun e => { e with state := "default" }) =
      es.map (fun e => { e with state := "default" }) := by
  induction es generalizing i with
  | nil => rfl
  | cons e es ih =>
    match i with
    | 0 => simp [setStateAt]
    | i + 1 => simp [setStateAt, ih]

theorem map_default_setStatesAt (idxs : List Nat) (es : List ArrElem) (s : String) :
    (setStatesAt es idxs s).map (fun e => { e with state := "default" }) =
      es.map (fun e => { e with state := "default" }) := by
  induction idxs generalizing es with
  | nil => rfl
  | cons i idxs ih =>
    show ((setStatesAt (setStateAt es i s) idxs s).map _) = _
    rw [ih, map_default_setStateAt]

theorem map_default_idem (es : List ArrElem) :
    ((es.map (fun e => { e with state := "default" })).map
      (fun e => { e with state := "default" })) =
      es.map (fun e => { e with state := "default" }) := by
  rw [List.map_map]
  apply List.map_congr_left
  intro x _
  rfl

theorem map_default_comp (es : List ArrElem) :
    es.map ((fun e => { e with state := "default" }) ∘
        (fun e => { e with state := "default" })) =
      es.map (fun e => { e with state := "default" }) := by
  apply List.map_congr_left
  intro x _
  rfl

theorem setStateAt_updateValues (es : List ArrElem) (vs : List Int) (i : Nat)
    (s : String) :
    setStateAt (updateValues es vs) i s = updateValues (setStateAt es i s) vs := by
  induction es generalizing vs i with
  | nil =>
    cases vs <;> rfl
  | cons e es ih =>
    cases vs with
    | nil => rw [updateValues_nil, updateValues_nil]
    | cons v vs =>
      match i with
      | 0 => simp [updateValues, setStateAt]
      | i + 1 => simp [updateValues, setStateAt, ih]

theorem setStatesAt_updateValues (idxs : List Nat) (es : List ArrElem)
    (vs : List Int) (s : String) :
    setStatesAt (updateValues es vs) idxs s =
      updateValues (setStatesAt es idxs s) vs := by
  induction idxs generalizing es with
  | nil => rfl
  | cons i idxs ih =>
    show setStatesAt (setStateAt (updateValues es vs) i s) idxs s = _
    rw [setStateAt_updateValues, ih]
    rfl

theorem updateValues_idem (es : List ArrElem) (vs : List Int) :
    updateValues (updateValues es vs) vs = updateValues es vs := by
  induction es generalizing vs with
  | nil => rfl
  | cons e es ih =>
    cases vs with
    | nil => rw [updateValues_nil, updateValues_nil]
    | cons v vs => simp [updateValues, ih]

theorem map_default_updateValues (es : List ArrElem) (vs : List Int) :
    (updateValues es vs).map (fun e => { e with state := "default" }) =
      updateValues (es.map (fun e => { e with state := "default" })) vs := by
  induction es generalizing vs with
  | nil => rfl
  | cons e es ih =>
    cases vs with
    | nil => rw [updateValues_nil, updateValues_nil]
    | cons v vs => simp [updateValues, ih]

/-- Idempotence of the array adapter: the element-state reset plus absolute
snapshot payloads make a second application of the same step a no-op. -/
theorem arrayExecuteStep_idem (st : ArrayViz) (step : ArrayStep) :
    arrayExecuteStep (arrayExecuteStep st step) step = arrayExecuteStep st step := by
  unfold arrayExecuteStep
  by_cases h1 : step.type = "compare"
  · simp only [if_pos h1]
    simp [map_default_setStatesAt, map_default_idem, map_default_comp]
  simp only [if_neg h1]
  by_cases h2 : step.type = "swap"
  · simp only [if_pos h2]
    cases harr : step.array with
    | none =>
      dsimp only
      simp [map_default_setStatesAt, map_default_idem, map_default_comp]
    | some arr =>
      dsimp only
      by_cases hlen : step.indices.length = 2
      · simp only [if_pos hlen]
        rw [map_default_updateValues, map_default_setStatesAt, map_default_idem,
          setStatesAt_updateValues, updateValues_idem]
      · simp only [if_neg hlen]
        simp [map_default_setStatesAt, map_default_idem, map_default_comp]
  simp only [if_neg h2]
  by_cases h3 : step.type = "pass_complete" ∨ step.type = "completed"
  · simp only [if_pos h3]
    simp [map_default_setStatesAt, map_default_idem, map_default_comp]
  simp only [if_neg h3]
  by_cases h4 : step.type = "new_min"
  · simp only [if_pos h4]
    simp [map_default_setStatesAt, map_default_idem, map_default_comp]
  simp only [if_neg h4]
  by_cases h5 : step.type = "pass_start" ∨ step.type = "current"
  · simp only [if_pos h5]
    simp [map_default_setStatesAt, map_default_idem, map_default_comp]
  simp only [if_neg h5]
  simp [map_default_idem, map_default_comp]

/-! ### Grid adapter: idempotence -/

theorem clearCurrent_idem (grid : List (List GridCell)) :
    clearCurrent (clearCurrent grid) = clearCurrent grid := by
  apply map_grid_self
  intro x
  by_cases h : x.state = "current" <;> simp [h]

theorem clearInPath_idem (grid : List (List GridCell)) :
    clearInPath (clearInPath grid) = clearInPath grid := by
  apply map_grid_self
  intro x
  rfl

theorem resetGridCells_idem (grid : List (List GridCell)) :
    resetGridCells (resetGridCells grid) = resetGridCells grid := by
  apply map_grid_self
  intro x
  by_cases h : x.type ≠ "start" ∧ x.type ≠ "end" ∧ x.type ≠ "wall" <;> simp [h]

theorem clearCurrent_modifyCell_current (grid : List (List GridCell)) (r c : Nat) :
    clearCurrent (modifyCell grid r c (fun cell => { cell with state := "current" })) =
      modifyCell (clearCurrent grid) r c (fun cell => { cell with state := "default" }) := by
  unfold clearCurrent
  apply map_modifyCell
  intro x
  by_cases h : x.state = "current" <;> simp [h]

theorem clearInPath_modifyCell_inPath (grid : List (List GridCell)) (r c : Nat) :
    clearInPath (modifyCell grid r c (fun cl => { cl with inPath := true })) =
      clearInPath grid := by
  unfold clearInPath
  rw [map_modifyCell (fun c => { c with inPath := false })
    (fun cl => { cl with inPath := true }) (fun x => x) (fun x => rfl) grid r c]
  exact modifyCell_id _ _ _

theorem frontierBody_idem (rows cols : List Int) (acc : GridViz) (i : Nat) :
    frontierBody rows cols (frontierBody rows cols acc i) i =
      frontierBody rows cols acc i := by
  unfold frontierBody
  cases hri : rows[i]? with
  | none => rfl
  | some r =>
    cases hci : cols[i]? with
    | none => rfl
    | some c =>
      simp only [getCell?]
      cases hq : getCellAux acc.rows acc.cols acc.grid r c with
      | none =>
        try dsimp only
        rw [hq]
      | some cell =>
        by_cases hcond : ¬cell.visited ∧ cell.type ≠ "wall"
        · simp only [if_pos hcond]
          try dsimp only
          rw [getCellAux_modifyCell]
          simp only [if_pos (And.intro rfl rfl), hq, Option.map_some']
          try dsimp only
          try simp only [if_pos hcond]
          try rw [modifyCell_comp]
          simp [hcond]
        · simp only [if_neg hcond]
          rw [hq]
          try dsimp only
          try simp only [if_neg hcond]

theorem frontierBody_comm (rows cols : List Int) (acc : GridViz) (i j : Nat) :
    frontierBody rows cols (frontierBody rows cols acc i) j =
      frontierBody rows cols (frontierBody rows cols acc j) i := by
  unfold frontierBody
  cases hri : rows[i]? with
  | none =>
    cases hrj : rows[j]? with
    | none => rfl
    | some rj =>
      cases hcj : cols[j]? with
      | none => rfl
      | some cj => rfl
  | some ri =>
    cases hci : cols[i]? with
    | none =>
      cases hrj : rows[j]? with
      | none => rfl
      | some rj =>
        cases hcj : cols[j]? with
        | none => rfl
        | some cj => rfl
    | some ci =>
      cases hrj : rows[j]? with
      | none => rfl
      | some rj =>
        cases hcj : cols[j]? with
        | none => rfl
        | some cj =>
          simp only [getCell?]
          cases hqi : getCellAux acc.rows acc.cols acc.grid ri ci with
          | none =>
            try dsimp only
            cases hqj : getCellAux acc.rows acc.cols acc.grid rj cj with
            | none =>
              rw [hqi]
            | some cellj =>
              by_cases hcondj : ¬cellj.visited ∧ cellj.type ≠ "wall"
              · simp only [if_pos hcondj]
                try dsimp only
                rw [getCellAux_modifyCell]
                by_cases hpos : ri.toNat = rj.toNat ∧ ci.toNat = cj.toNat
                · simp only [if_pos hpos, hqi, Option.map_none']
                · simp only [if_neg hpos, hqi]
              · simp only [if_neg hcondj]
                try dsimp only
                rw [hqi]
          | some celli =>
            by_cases hcondi : ¬celli.visited ∧ celli.type ≠ "wall"
            · simp only [if_pos hcondi]
              try dsimp only
              cases hqj : getCellAux acc.rows acc.cols acc.grid rj cj with
              | none =>
                rw [getCellAux_modifyCell]
                by_cases hpos : rj.toNat = ri.toNat ∧ cj.toNat = ci.toNat
                · simp only [if_pos hpos, hqj, Option.map_none']
                  rw [hqi]
                  try dsimp only
                  simp only [if_pos hcondi]
                · simp only [if_neg hpos, hqj]
                  rw [hqi]
                  try dsimp only
                  simp only [if_pos hcondi]
              | some cellj =>
                by_cases hcondj : ¬cellj.visited ∧ cellj.type ≠ "wall"
                · rw [getCellAux_modifyCell]
                  by_cases hpos : rj.toNat = ri.toNat ∧ cj.toNat = ci.toNat
                  · -- same cell: the two lookups agree, so both orders modify the
                    -- same position twice with the same function
                    have hcells : celli = cellj := by
                      unfold getCellAux at hqi hqj
                      by_cases hbi : 0 ≤ ri ∧ ri < (acc.rows : Int) ∧ 0 ≤ ci ∧ ci < (acc.cols : Int)
                      · by_cases hbj : 0 ≤ rj ∧ rj < (acc.rows : Int) ∧ 0 ≤ cj ∧ cj < (acc.cols : Int)
                        · rw [if_pos hbi] at hqi
                          rw [if_pos hbj, hpos.1, hpos.2] at hqj
                          rw [hqi] at hqj
                          exact Option.some_inj.mp hqj
                        · rw [if_neg hbj] at hqj
                          exact absurd hqj (by simp)
                      · rw [if_neg hbi] at hqi
                        exact absurd hqi (by simp)
                    subst hcells
                    simp only [if_pos hpos, hqj, Option.map_some']
                    try dsimp only
                    simp only [if_pos hcondj]
                    rw [getCellAux_modifyCell]
                    simp only [if_pos (And.intro hpos.1.symm hpos.2.symm), hqi,
                      Option.map_some']
                    try dsimp only
                    simp only [if_pos hcondi]
                    rw [hpos.1, hpos.2]
                  · simp only [if_pos hcondj, if_neg hpos, hqj]
                    try dsimp only
                    try simp only [if_pos hcondj]
                    rw [getCellAux_modifyCell]
                    have hpos' : ¬(ri.toNat = rj.toNat ∧ ci.toNat = cj.toNat) := by
                      intro hx
                      exact hpos ⟨hx.1.symm, hx.2.symm⟩
                    simp only [if_neg hpos', hqi]
                    try dsimp only
                    simp only [if_pos hcondi]
                    rw [modifyCell_comm]
                    intro hx
                    exact hpos ⟨hx.1.symm, hx.2.symm⟩
                · simp only [if_neg hcondj]
                  try dsimp only
                  rw [getCellAux_modifyCell]
                  by_cases hpos : rj.toNat = ri.toNat ∧ cj.toNat = ci.toNat
                  · simp only [if_pos hpos, hqj, Option.map_some']
                    try dsimp only
                    simp only [if_neg hcondj, hqi]
                    try dsimp only
                    simp only [if_pos hcondi]
                  · simp only [if_neg hpos, hqj]
                    try dsimp only
                    simp only [if_neg hcondj, hqi]
                    try dsimp only
                    simp only [if_pos hcondi]
            · simp only [if_neg hcondi]
              try dsimp only
              cases hqj : getCellAux acc.rows acc.cols acc.grid rj cj with
              | none =>
                rw [hqi]
                try dsimp only
                simp only [if_neg hcondi]
              | some cellj =>
                by_cases hcondj : ¬cellj.visited ∧ cellj.type ≠ "wall"
                · simp only [if_pos hcondj]
                  try dsimp only
                  rw [getCellAux_modifyCell]
                  by_cases hpos : ri.toNat = rj.toNat ∧ ci.toNat = cj.toNat
                  · simp only [if_pos hpos, hqi, Option.map_some']
                    try dsimp only
                    simp only [if_neg hcondi]
                  · simp only [if_neg hpos, hqi]
                    try dsimp only
                    simp only [if_neg hcondi]
                · simp only [if_neg hcondj]
                  try dsimp only
                  rw [hqi]
                  simp only [if_neg hcondi]

theorem GridViz_ext (a b : GridViz) (h1 : a.rows = b.rows) (h2 : a.cols = b.cols)
    (h3 : a.grid = b.grid) (h4 : a.startCell = b.startCell)
    (h5 : a.endCell = b.endCell) : a = b := by
  cases a
  cases b
  congr 1

theorem pathBody_fields (acc : GridViz) (rc : Int × Int) :
    (pathBody acc rc).rows = acc.rows ∧ (pathBody acc rc).cols = acc.cols ∧
    (pathBody acc rc).startCell = acc.startCell ∧
    (pathBody acc rc).endCell = acc.endCell := by
  unfold pathBody
  cases getCell? acc rc.1 rc.2 <;> exact ⟨rfl, rfl, rfl, rfl⟩

theorem foldl_pathBody_fields (path : List (Int × Int)) (a : GridViz) :
    (path.foldl pathBody a).rows = a.rows ∧ (path.foldl pathBody a).cols = a.cols ∧
    (path.foldl pathBody a).startCell = a.startCell ∧
    (path.foldl pathBody a).endCell = a.endCell := by
  induction path generalizing a with
  | nil => exact ⟨rfl, rfl, rfl, rfl⟩
  | cons rc path ih =>
    rw [List.foldl_cons]
    have h1 := pathBody_fields a rc
    have h2 := ih (pathBody a rc)
    exact ⟨h2.1.trans h1.1, h2.2.1.trans h1.2.1, h2.2.2.1.trans h1.2.2.1,
      h2.2.2.2.trans h1.2.2.2⟩

theorem clearInPath_pathBody (acc : GridViz) (rc : Int × Int) :
    clearInPath (pathBody acc rc).grid = clearInPath acc.grid := by
  unfold pathBody
  cases getCell? acc rc.1 rc.2 with
  | none => rfl
  | some c =>
    try dsimp only
    exact clearInPath_modifyCell_inPath _ _ _

theorem clearInPath_foldl_pathBody (path : List (Int × Int)) (a : GridViz) :
    clearInPath (path.foldl pathBody a).grid = clearInPath a.grid := by
  induction path generalizing a with
  | nil => rfl
  | cons rc path ih => rw [List.foldl_cons, ih, clearInPath_pathBody]

/-- Idempotence of the pure grid model: every handled step kind is an
absolute state write, so a second application changes nothing. -/
theorem gridExecApply_idem (g : GridViz) (step : GridStep) :
    gridExecApply (gridExecApply g step) step = gridExecApply g step := by
  unfold gridExecApply
  by_cases h1 : step.type = "visit"
  · simp only [if_pos h1, getCell?]
    try dsimp only
    cases hq : getCellAux g.rows g.cols g.grid step.row step.col with
    | none =>
      try dsimp only
      rw [hq]
    | some c =>
      by_cases hc : c.type ≠ "wall"
      · simp only [if_pos hc]
        try dsimp only
        rw [getCellAux_modifyCell]
        simp only [if_pos (And.intro rfl rfl), hq, Option.map_some']
        try dsimp only
        try simp only [if_pos hc]
        try rw [modifyCell_comp]
        simp [hc]
      · simp only [if_neg hc]
        rw [hq]
        try dsimp only
        try simp only [if_neg hc]
  simp only [if_neg h1]
  by_cases h2 : step.type = "current"
  · simp only [if_pos h2, getCell?]
    try dsimp only
    cases hq : getCellAux g.rows g.cols (clearCurrent g.grid) step.row step.col with
    | none =>
      try dsimp only
      rw [clearCurrent_idem, hq]
    | some c =>
      try dsimp only
      rw [clearCurrent_modifyCell_current, clearCurrent_idem,
        getCellAux_modifyCell]
      simp only [if_pos (And.intro rfl rfl), hq, Option.map_some']
      try dsimp only
      try rw [modifyCell_comp]
      simp
  simp only [if_neg h2]
  by_cases h3 : step.type = "add_to_frontier"
  · simp only [if_pos h3]
    exact foldl_self_idem (frontierBody step.rows step.cols)
      (fun a i j => frontierBody_comm step.rows step.cols a i j)
      (fun a i => frontierBody_idem step.rows step.cols a i)
      (List.range step.rows.length) g
  simp only [if_neg h3]
  by_cases h4 : step.type = "mark_path"
  · simp only [if_pos h4]
    have hf := foldl_pathBody_fields step.path { g with grid := clearInPath g.grid }
    have hg : clearInPath
        (step.path.foldl pathBody { g with grid := clearInPath g.grid }).grid =
        clearInPath g.grid := by
      rw [clearInPath_foldl_pathBody]
      exact clearInPath_idem g.grid
    have hstart :
        ({ (step.path.foldl pathBody { g with grid := clearInPath g.grid }) with
            grid := clearInPath
              (step.path.foldl pathBody { g with grid := clearInPath g.grid }).grid } :
          GridViz) = { g with grid := clearInPath g.grid } := by
      apply GridViz_ext
      · exact hf.1
      · exact hf.2.1
      · exact hg
      · exact hf.2.2.1
      · exact hf.2.2.2
    rw [hstart]
  simp only [if_neg h4]
  by_cases h5 : step.type = "set_wall"
  · simp only [if_pos h5, getCell?]
    try dsimp only
    cases hq : getCellAux g.rows g.cols g.grid step.row step.col with
    | none =>
      try dsimp only
      rw [hq]
    | some c =>
      by_cases hc : c.type ≠ "start" ∧ c.type ≠ "end"
      · simp only [if_pos hc]
        try dsimp only
        rw [getCellAux_modifyCell]
        simp only [if_pos (And.intro rfl rfl), hq, Option.map_some']
        try dsimp only
        try rw [modifyCell_comp]
        simp
      · simp only [if_neg hc]
        rw [hq]
        try dsimp only
        try simp only [if_neg hc]
  simp only [if_neg h5]
  by_cases h6 : step.type = "set_start"
  · simp only [if_pos h6, getCell?]
    obtain ⟨grows, gcols, ggrid, gsc, gec⟩ := g
    cases gsc with
    | none =>
      try dsimp only
      cases hq : getCellAux grows gcols ggrid step.row step.col with
      | none =>
        try dsimp only
        rw [hq]
      | some c =>
        try dsimp only
        simp [hq, getCellAux_modifyCell, modifyCell_comp]
    | some rc =>
      try dsimp only
      cases hq : getCellAux grows gcols
          (modifyCell ggrid rc.1 rc.2 (fun cell => { cell with type := "empty" }))
          step.row step.col with
      | none =>
        try dsimp only
        simp [hq, modifyCell_comp]
      | some c =>
        try dsimp only
        simp [hq, getCellAux_modifyCell, modifyCell_comp]
  simp only [if_neg h6]
  by_cases h7 : step.type = "set_end"
  · simp only [if_pos h7, getCell?]
    obtain ⟨grows, gcols, ggrid, gsc, gec⟩ := g
    cases gec with
    | none =>
      try dsimp only
      cases hq : getCellAux grows gcols ggrid step.row step.col with
      | none =>
        try dsimp only
        rw [hq]
      | some c =>
        try dsimp only
        simp [hq, getCellAux_modifyCell, modifyCell_comp]
    | some rc =>
      try dsimp only
      cases hq : getCellAux grows gcols
          (modifyCell ggrid rc.1 rc.2 (fun cell => { cell with type := "empty" }))
          step.row step.col with
      | none =>
        try dsimp only
        simp [hq, modifyCell_comp]
      | some c =>
        try dsimp only
        simp [hq, getCellAux_modifyCell, modifyCell_comp]
  simp only [if_neg h7]
  by_cases h8 : step.type = "reset"
  · simp only [if_pos h8]
    try dsimp only
    rw [resetGridCells_idem]
  simp only [if_neg h8]

/-- C9: applying the same step twice in a row (no intervening reset) yields
the same adapter state as applying it once — unconditionally for the array
adapter, and for the grid adapter (on the well-formed grids `createGrid`
builds) the faithful `executeStep` applied to its own result returns that
result unchanged. -/
theorem executeStep_idempotent :
    (∀ (st : ArrayViz) (step : ArrayStep),
      arrayExecuteStep (arrayExecuteStep st step) step = arrayExecuteStep st step) ∧
    (∀ (g : GridViz) (step : GridStep), GridWF g →
      gridExecuteStepE g step = .ok (gridExecApply g step) ∧
      gridExecuteStepE (gridExecApply g step) step =
        .ok (gridExecApply g step)) := by
  constructor
  · exact arrayExecuteStep_idem
  · intro g step hwf
    obtain ⟨h1, hwf2⟩ := gridExec_bridge g step hwf
    refine ⟨h1, ?_⟩
    have h2 := (gridExec_bridge (gridExecApply g step) step hwf2).1
    rw [h2, gridExecApply_idem]

/-- Witness for C9: a `compare` step on a 1-element array and a `visit` step
on a well-formed 1×1 grid. -/
theorem executeStep_idempotent_witness :
    (arrayExecuteStep
        (arrayExecuteStep ⟨[⟨5, "default"⟩], [5]⟩ ⟨"compare", [0], none⟩)
        ⟨"compare", [0], none⟩ =
      arrayExecuteStep ⟨[⟨5, "default"⟩], [5]⟩ ⟨"compare", [0], none⟩) ∧
    (gridExecuteStepE ⟨1, 1, [[⟨"empty", false, false, "default"⟩]], none, none⟩
        ⟨"visit", 0, 0, [], [], []⟩ =
      .ok (gridExecApply ⟨1, 1, [[⟨"empty", false, false, "default"⟩]], none, none⟩
        ⟨"visit", 0, 0, [], [], []⟩) ∧
     gridExecuteStepE
        (gridExecApply ⟨1, 1, [[⟨"empty", false, false, "default"⟩]], none, none⟩
          ⟨"visit", 0, 0, [], [], []⟩) ⟨"visit", 0, 0, [], [], []⟩ =
      .ok (gridExecApply ⟨1, 1, [[⟨"empty", false, false, "default"⟩]], none, none⟩
        ⟨"visit", 0, 0, [], [], []⟩)) :=
  ⟨executeStep_idempotent.1 ⟨[⟨5, "default"⟩], [5]⟩ ⟨"compare", [0], none⟩,
   executeStep_idempotent.2 _ _ (by decide)⟩


/-! ### A* verification -/

/-- The sign test `zsqrt2Pos` is correct for the real number `p + q * √2`:
the embedding of A* scores as exact integer pairs uses the true order on `ℤ[√2]`. -/
theorem zsqrt2Pos_correct (p q : Int) :
    zsqrt2Pos p q = true ↔ (0 : ℝ) < (p : ℝ) + (q : ℝ) * Real.sqrt 2 := by
  have hs2 : Real.sqrt 2 * Real.sqrt 2 = 2 := Real.mul_self_sqrt (by norm_num)
  have hspos : (0 : ℝ) < Real.sqrt 2 := Real.sqrt_pos.mpr (by norm_num)
  rcases lt_trichotomy q 0 with hq | hq | hq
  · have hqR : (q : ℝ) < 0 := by exact_mod_cast hq
    have hb : (0 : ℝ) < -(q : ℝ) * Real.sqrt 2 := mul_pos (by linarith) hspos
    have hbb : -(q : ℝ) * Real.sqrt 2 * (-(q : ℝ) * Real.sqrt 2) = 2 * ((q : ℝ) * (q : ℝ)) := by
      rw [mul_mul_mul_comm, hs2]; ring
    simp only [zsqrt2Pos, if_neg (by omega : ¬ q = 0), if_neg (by omega : ¬ 0 < q),
      Bool.and_eq_true, decide_eq_true_eq]
    constructor
    · rintro ⟨hp, hsq⟩
      have hpR : (0 : ℝ) < (p : ℝ) := by exact_mod_cast hp
      have hsqR : 2 * ((q : ℝ) * (q : ℝ)) < (p : ℝ) * (p : ℝ) := by exact_mod_cast hsq
      by_contra hcon
      push_neg at hcon
      have hpb : (p : ℝ) ≤ -(q : ℝ) * Real.sqrt 2 := by linarith
      have := mul_le_mul hpb hpb hpR.le hb.le
      nlinarith [this, hbb, hsqR]
    · intro hpos
      have hpR : (0 : ℝ) < (p : ℝ) := by nlinarith
      refine ⟨by exact_mod_cast hpR, ?_⟩
      have hbp : -(q : ℝ) * Real.sqrt 2 < (p : ℝ) := by linarith
      have := mul_lt_mul'' hbp hbp hb.le hb.le
      have h2 : 2 * ((q : ℝ) * (q : ℝ)) < (p : ℝ) * (p : ℝ) := by nlinarith [this, hbb]
      exact_mod_cast h2
  · subst hq
    simp only [zsqrt2Pos, ite_true, if_pos rfl, decide_eq_true_eq, Int.cast_zero, zero_mul, add_zero]
    constructor
    · intro h; exact_mod_cast h
    · intro h; exact_mod_cast h
  · have hqR : (0 : ℝ) < (q : ℝ) := by exact_mod_cast hq
    have hb : (0 : ℝ) < (q : ℝ) * Real.sqrt 2 := mul_pos hqR hspos
    have hbb : (q : ℝ) * Real.sqrt 2 * ((q : ℝ) * Real.sqrt 2) = 2 * ((q : ℝ) * (q : ℝ)) := by
      rw [mul_mul_mul_comm, hs2]; ring
    simp only [zsqrt2Pos, if_neg (by omega : ¬ q = 0), if_pos hq,
      Bool.or_eq_true, decide_eq_true_eq]
    constructor
    · rintro (hp | hsq)
      · have hpR : (0 : ℝ) ≤ (p : ℝ) := by exact_mod_cast hp
        linarith
      · have hsqR : (p : ℝ) * (p : ℝ) < 2 * ((q : ℝ) * (q : ℝ)) := by exact_mod_cast hsq
        by_contra hcon
        push_neg at hcon
        have hbp : (q : ℝ) * Real.sqrt 2 ≤ -(p : ℝ) := by linarith
        have := mul_le_mul hbp hbp hb.le (by linarith)
        nlinarith [this, hbb, hsqR]
    · intro hpos
      by_cases hp : 0 ≤ p
      · exact Or.inl hp
      · right
        have hpR : (p : ℝ) < 0 := by exact_mod_cast Int.not_le.mp hp
        have hbp : -(p : ℝ) < (q : ℝ) * Real.sqrt 2 := by linarith
        have := mul_lt_mul'' hbp hbp (by linarith) (by linarith)
        have h2 : (p : ℝ) * (p : ℝ) < 2 * ((q : ℝ) * (q : ℝ)) := by nlinarith [this, hbb]
        exact_mod_cast h2

/-- A `foldl` preserves any invariant its body preserves. -/
theorem foldl_inv {α β : Type} (P : α → Prop) (f : α → β → α) :
    ∀ (l : List β) (init : α), P init → (∀ a b, b ∈ l → P a → P (f a b)) →
      P (l.foldl f init) := by
  intro l
  induction l with
  | nil => intro init h0 _; exact h0
  | cons b l ih =>
    intro init h0 hstep
    simp only [List.foldl_cons]
    exact ih (f init b) (hstep init b (by simp) h0)
      (fun a c hc ha => hstep a c (by simp [hc]) ha)

/-- Dropping up to an indexed element exposes it at the head. -/
theorem drop_eq_get_cons {α : Type} :
    ∀ (l : List α) (j : Nat) (b : α), l.get? j = some b →
      l.drop j = b :: l.drop (j + 1) := by
  intro l
  induction l with
  | nil => intro j b h; cases j <;> cases h
  | cons x xs ih =>
    intro j b h
    cases j with
    | zero => simp only [List.get?] at h; cases h; rfl
    | succ j =>
      simp only [List.get?] at h
      simpa using ih j b h

/-- Removing the element at index `j` is, up to permutation, removing one
occurrence of it. -/
theorem perm_cons_eraseIdx {α : Type} (l : List α) (j : Nat) (b : α)
    (h : l.get? j = some b) : l.Perm (b :: l.eraseIdx j) := by
  have h1 : l = l.take j ++ b :: l.drop (j + 1) := by
    conv_lhs => rw [← List.take_append_drop j l, drop_eq_get_cons l j b h]
  have h2 : l.eraseIdx j = l.take j ++ l.drop (j + 1) :=
    List.eraseIdx_eq_take_drop_succ l j
  rw [h2]
  conv_lhs => rw [h1]
  exact List.perm_middle

/-- The minimum-fScore scan returns a cell of the open set together with its
index. -/
theorem astarScanMin_get (fS : List (ACell × Option Zq)) :
    ∀ (rest : List ACell) (os : List ACell) (best : ACell) (bestIdx i : Nat),
      os.get? bestIdx = some best → os.drop i = rest →
      os.get? (astarScanMin fS rest best bestIdx i).2
        = some (astarScanMin fS rest best bestIdx i).1 := by
  intro rest
  induction rest with
  | nil => intro os best bestIdx i hb _; simpa [astarScanMin] using hb
  | cons c rest ih =>
    intro os best bestIdx i hb hd
    have hc : os.get? i = some c := by
      have h0 : (os.drop i).get? 0 = some c := by rw [hd]; rfl
      rw [List.get?_drop] at h0
      simpa using h0
    have hd' : os.drop (i + 1) = rest := by
      rw [← List.tail_drop, hd]
      rfl
    by_cases hlt : fltOpt (mget fS c).join (mget fS best).join
    · simp only [astarScanMin, if_pos hlt]
      exact ih os c i (i + 1) hc hd'
    · simp only [astarScanMin, if_neg hlt]
      exact ih os best bestIdx (i + 1) hb hd'

/-- Every `getNeighbors` result passes `isValidCell`. -/
theorem astarGetNeighbors_valid (grid : List (List AGridCell)) (c n : ACell)
    (h : n ∈ astarGetNeighbors grid c) : astarIsValidCell grid n.1 n.2 = true := by
  simp only [astarGetNeighbors, List.mem_filterMap] at h
  obtain ⟨d, _, hd⟩ := h
  by_cases hv : astarIsValidCell grid (c.1 + d.1) (c.2 + d.2)
  · rw [if_pos hv] at hd
    cases hd
    exact hv
  · rw [if_neg hv] at hd
    cases hd

theorem currentSubjects_append (a b : List AStep) :
    currentSubjects (a ++ b) = currentSubjects a ++ currentSubjects b :=
  List.filterMap_append a b _

/-- The neighbour loop only appends fresh, unexamined, valid, reachable
cells to the open set. -/
theorem astarNbFold_post (grid : List (List AGridCell)) (start endC : ACell)
    (h : ACell → ACell → Zq) (closed : List ACell) (current : ACell)
    (hcur : AReach grid start current) (nbs : List ACell)
    (hnbs : ∀ n ∈ nbs, n ∈ astarGetNeighbors grid current) (s0 : NbState)
    (h0 : s0.openSet.Nodup ∧ (∀ c ∈ s0.openSet, c ∉ closed) ∧
      (∀ c ∈ s0.openSet, AReach grid start c) ∧
      (∀ c ∈ s0.openSet, c = start ∨ astarIsValidCell grid c.1 c.2 = true)) :
    (nbs.foldl (astarNbBody closed current endC h) s0).openSet.Nodup ∧
    (∀ c ∈ (nbs.foldl (astarNbBody closed current endC h) s0).openSet, c ∉ closed) ∧
    (∀ c ∈ (nbs.foldl (astarNbBody closed current endC h) s0).openSet,
      AReach grid start c) ∧
    (∀ c ∈ (nbs.foldl (astarNbBody closed current endC h) s0).openSet,
      c = start ∨ astarIsValidCell grid c.1 c.2 = true) := by
  refine foldl_inv (fun s => s.openSet.Nodup ∧ (∀ c ∈ s.openSet, c ∉ closed) ∧
    (∀ c ∈ s.openSet, AReach grid start c) ∧
    (∀ c ∈ s.openSet, c = start ∨ astarIsValidCell grid c.1 c.2 = true))
    (astarNbBody closed current endC h) nbs s0 h0 ?_
  intro s n hn hP
  obtain ⟨hnd, hcl, hre, hva⟩ := hP
  by_cases h1 : n ∈ closed
  · simp only [astarNbBody, if_pos h1]
    exact ⟨hnd, hcl, hre, hva⟩
  · by_cases h2 : n ∈ s.openSet
    · simp only [astarNbBody, if_neg h1, if_neg (not_not_intro h2)]
      by_cases h3 : fgeOpt ((mget s.gScore current).join.map
          (fun g => zadd g (astarGetMoveCost current n))) (mget s.gScore n).join
      · simp only [if_pos h3]
        exact ⟨hnd, hcl, hre, hva⟩
      · simp only [if_neg h3]
        exact ⟨hnd, hcl, hre, hva⟩
    · simp only [astarNbBody, if_neg h1, if_pos h2]
      refine ⟨?_, ?_, ?_, ?_⟩
      · simp only [List.nodup_append, List.nodup_cons, List.not_mem_nil,
          not_false_iff, List.nodup_nil, and_true, true_and]
        refine ⟨hnd, ?_⟩
        intro a ha han
        rw [List.mem_singleton] at han
        exact h2 (han ▸ ha)
      · intro c hc
        rcases List.mem_append.mp hc with hc | hc
        · exact hcl c hc
        · rw [List.mem_singleton] at hc
          subst hc
          exact h1
      · intro c hc
        rcases List.mem_append.mp hc with hc | hc
        · exact hre c hc
        · rw [List.mem_singleton] at hc
          subst hc
          exact hcur.tail (hnbs _ hn)
      · intro c hc
        rcases List.mem_append.mp hc with hc | hc
        · exact hva c hc
        · rw [List.mem_singleton] at hc
          subst hc
          exact Or.inr (astarGetNeighbors_valid grid current _ (hnbs _ hn))

/-- One loop iteration preserves the invariant.  A `brk` or `div` outcome
means the goal cell was just examined (so it is reachable from `start`); a
`cont` outcome closes exactly one new cell. -/
theorem astarIterate_inv (grid : List (List AGridCell)) (start endC : ACell)
    (h : ACell → ACell → Zq) (st : AState) (c0 : ACell) (rest : List ACell)
    (hos : st.openSet = c0 :: rest)
    (hinv : AInv grid start st) :
    (∀ st2, astarIterate grid endC h st c0 rest = AIter.brk st2 →
      AInv grid start st2 ∧ AReach grid start endC) ∧
    (astarIterate grid endC h st c0 rest = AIter.div → AReach grid start endC) ∧
    (∀ st2, astarIterate grid endC h st c0 rest = AIter.cont st2 →
      AInv grid start st2 ∧
      st2.closedSet = (astarScanMin st.fScore rest c0 0 1).1 :: st.closedSet) := by
  obtain ⟨hclnd, hopnd, hdisj, hcurs, hopre, hclre, hopva, hclva⟩ := hinv
  have hget : (c0 :: rest).get? (astarScanMin st.fScore rest c0 0 1).2
      = some (astarScanMin st.fScore rest c0 0 1).1 :=
    astarScanMin_get st.fScore rest (c0 :: rest) c0 0 1 rfl rfl
  set cur := (astarScanMin st.fScore rest c0 0 1).1 with hcurdef
  set os1 := (c0 :: rest).eraseIdx (astarScanMin st.fScore rest c0 0 1).2 with hos1def
  have hperm : (c0 :: rest).Perm (cur :: os1) := perm_cons_eraseIdx _ _ _ hget
  have hmem : cur ∈ st.openSet := by
    rw [hos]
    exact hperm.mem_iff.mpr (List.mem_cons_self _ _)
  have hnodup2 : (cur :: os1).Nodup := hperm.nodup_iff.mp (hos ▸ hopnd)
  have hos1nd : os1.Nodup := (List.nodup_cons.mp hnodup2).2
  have hcurnin : cur ∉ os1 := (List.nodup_cons.mp hnodup2).1
  have hos1sub : ∀ c ∈ os1, c ∈ st.openSet := by
    intro c hc
    rw [hos]
    exact hperm.mem_iff.mpr (List.mem_cons_of_mem _ hc)
  have hcurncl : cur ∉ st.closedSet := hdisj cur hmem
  have hcurre : AReach grid start cur := hopre cur hmem
  have hcurva : cur = start ∨ astarIsValidCell grid cur.1 cur.2 = true := hopva cur hmem
  have hcl1nd : (cur :: st.closedSet).Nodup := List.nodup_cons.mpr ⟨hcurncl, hclnd⟩
  have hcl1re : ∀ c ∈ cur :: st.closedSet, AReach grid start c := by
    intro c hc
    rcases List.mem_cons.mp hc with hc | hc
    · exact hc ▸ hcurre
    · exact hclre c hc
  have hcl1va : ∀ c ∈ cur :: st.closedSet,
      c = start ∨ astarIsValidCell grid c.1 c.2 = true := by
    intro c hc
    rcases List.mem_cons.mp hc with hc | hc
    · exact hc ▸ hcurva
    · exact hclva c hc
  have hdisj1 : ∀ c ∈ os1, c ∉ cur :: st.closedSet := by
    intro c hc
    rw [List.mem_cons]
    push_neg
    exact ⟨fun heq => hcurnin (heq ▸ hc), hdisj c (hos1sub c hc)⟩
  have hsingle : currentSubjects [AStep.current cur.1 cur.2] = [cur] := by
    show [(cur.1, cur.2)] = [cur]
    rw [Prod.mk.eta]
  have hsteps1 : currentSubjects (st.steps ++ [AStep.current cur.1 cur.2])
      = (cur :: st.closedSet).reverse := by
    rw [currentSubjects_append, hcurs, hsingle, List.reverse_cons]
  refine ⟨?_, ?_, ?_⟩
  · intro st2 hbrk
    simp only [astarIterate] at hbrk
    rw [← hcurdef, ← hos1def] at hbrk
    by_cases hgoal : cur = endC
    · rw [if_pos hgoal] at hbrk
      cases hrec : astarReconstructPath st.parent cur endC with
      | none =>
        rw [hrec] at hbrk
        cases hbrk
      | some path =>
        rw [hrec] at hbrk
        cases hbrk
        refine ⟨⟨hcl1nd, hos1nd, hdisj1, ?_, fun c hc => hopre c (hos1sub c hc),
          hcl1re, fun c hc => hopva c (hos1sub c hc), hcl1va⟩, hgoal ▸ hcurre⟩
        show currentSubjects ((st.steps ++ [AStep.current cur.1 cur.2]) ++
          [AStep.found cur.1 cur.2, AStep.mark_path path]) = (cur :: st.closedSet).reverse
        rw [currentSubjects_append, hsteps1]
        show (cur :: st.closedSet).reverse ++ [] = (cur :: st.closedSet).reverse
        rw [List.append_nil]
    · rw [if_neg hgoal] at hbrk
      cases hbrk
  · intro hdiv
    simp only [astarIterate] at hdiv
    rw [← hcurdef, ← hos1def] at hdiv
    by_cases hgoal : cur = endC
    · exact hgoal ▸ hcurre
    · rw [if_neg hgoal] at hdiv
      cases hdiv
  · intro st2 hcont
    simp only [astarIterate] at hcont
    rw [← hcurdef, ← hos1def] at hcont
    by_cases hgoal : cur = endC
    · rw [if_pos hgoal] at hcont
      cases hrec : astarReconstructPath st.parent cur endC with
      | none => rw [hrec] at hcont; cases hcont
      | some path => rw [hrec] at hcont; cases hcont
    · rw [if_neg hgoal] at hcont
      set ns := (astarGetNeighbors grid cur).foldl
        (astarNbBody (cur :: st.closedSet) cur endC h)
        ⟨os1, [], st.gScore, st.fScore, st.parent⟩ with hnsdef
      have hfold := astarNbFold_post grid start endC h (cur :: st.closedSet) cur
        hcurre (astarGetNeighbors grid cur) (fun n hn => hn)
        ⟨os1, [], st.gScore, st.fScore, st.parent⟩
        ⟨hos1nd, hdisj1, fun c hc => hopre c (hos1sub c hc),
          fun c hc => hopva c (hos1sub c hc)⟩
      rw [← hnsdef] at hfold
      obtain ⟨hfnd, hfcl, hfre, hfva⟩ := hfold
      cases hcont
      refine ⟨⟨hcl1nd, hfnd, hfcl, ?_, hfre, hcl1re, hfva, hcl1va⟩, rfl⟩
      show currentSubjects (if ns.newFrontier = []
          then (st.steps ++ [AStep.current cur.1 cur.2]) ++ [AStep.visit cur.1 cur.2]
          else ((st.steps ++ [AStep.current cur.1 cur.2]) ++ [AStep.visit cur.1 cur.2]) ++
            [AStep.add_to_frontier (ns.newFrontier.map (fun x => x.1))
              (ns.newFrontier.map (fun x => x.2))])
        = (cur :: st.closedSet).reverse
      by_cases hnf : ns.newFrontier = []
      · rw [if_pos hnf, currentSubjects_append, hsteps1]
        show (cur :: st.closedSet).reverse ++ [] = (cur :: st.closedSet).reverse
        rw [List.append_nil]
      · rw [if_neg hnf, currentSubjects_append, currentSubjects_append, hsteps1]
        show (cur :: st.closedSet).reverse ++ [] ++ [] = (cur :: st.closedSet).reverse
        rw [List.append_nil, List.append_nil]

/-- The initial A* state satisfies the loop invariant. -/
theorem astarInit_inv (grid : List (List AGridCell)) (start endC : ACell)
    (h : ACell → ACell → Zq) : AInv grid start (astarInit start endC h) := by
  refine ⟨List.nodup_nil, ?_, ?_, rfl, ?_, ?_, ?_, ?_⟩
  · simp [astarInit]
  · intro c hc
    simp [astarInit] at hc ⊢
  · intro c hc
    simp only [astarInit, List.mem_singleton] at hc
    exact hc ▸ Relation.ReflTransGen.refl
  · intro c hc
    simp only [astarInit] at hc
    cases hc
  · intro c hc
    simp only [astarInit, List.mem_singleton] at hc
    exact Or.inl hc
  · intro c hc
    simp only [astarInit] at hc
    cases hc

/-- The loop invariant is preserved up to any successful exit of the loop. -/
theorem astarLoop_inv (grid : List (List AGridCell)) (start endC : ACell)
    (h : ACell → ACell → Zq) :
    ∀ (fuel : Nat) (st st' : AState), AInv grid start st →
      astarLoop grid endC h fuel st = some st' → AInv grid start st' := by
  intro fuel
  induction fuel with
  | zero => intro st st' _ hrun; cases hrun
  | succ f ih =>
    intro st st' hinv hrun
    rw [astarLoop] at hrun
    cases hos : st.openSet with
    | nil =>
      rw [hos] at hrun
      cases hrun
      exact hinv
    | cons c0 rest =>
      rw [hos] at hrun
      dsimp only at hrun
      obtain ⟨hbrk, _, hcont⟩ := astarIterate_inv grid start endC h st c0 rest hos hinv
      cases hit : astarIterate grid endC h st c0 rest with
      | div => rw [hit] at hrun; cases hrun
      | brk st2 =>
        rw [hit] at hrun
        dsimp only at hrun
        cases hrun
        exact (hbrk _ hit).1
      | cont st2 =>
        rw [hit] at hrun
        dsimp only at hrun
        exact ih st2 st' (hcont st2 hit).1 hrun

/-- C4 helper: for any terminating run the `current` subjects are exactly
the closing order of the closed set, hence pairwise distinct. -/
theorem astarRun_nodup (grid : List (List AGridCell)) (start endC : ACell)
    (h : ACell → ACell → Zq) (fuel : Nat) (l : List AStep)
    (hrun : astarRun grid start endC h fuel = some l) :
    (currentSubjects l).Nodup := by
  unfold astarRun at hrun
  cases hloop : astarLoop grid endC h fuel (astarInit start endC h) with
  | none => rw [hloop] at hrun; cases hrun
  | some st =>
    rw [hloop] at hrun
    have hinv := astarLoop_inv grid start endC h fuel _ st
      (astarInit_inv grid start endC h) hloop
    have hnd : (currentSubjects st.steps).Nodup := by
      rw [hinv.2.2.2.1]
      exact List.nodup_reverse.mpr hinv.1
    dsimp only at hrun
    by_cases hc : st.openSet = [] ∧ endC ∉ st.closedSet
    · rw [if_pos hc] at hrun
      cases hrun
      rw [currentSubjects_append]
      show (currentSubjects st.steps ++ []).Nodup
      rw [List.append_nil]
      exact hnd
    · rw [if_neg hc] at hrun
      cases hrun
      exact hnd

/-- The closed set never exceeds the number of grid cells plus one (for a
possibly-invalid start cell): its members are distinct and all lie in the
grid except possibly `start`. -/
theorem closedSet_length_bound (grid : List (List AGridCell)) (start : ACell)
    (st : AState) (hinv : AInv grid start st) :
    st.closedSet.length ≤ grid.length * (grid.headD []).length + 1 := by
  classical
  obtain ⟨hclnd, _, _, _, _, _, _, hclva⟩ := hinv
  set R := grid.length with hR
  set C := (grid.headD []).length with hC
  set U : Finset ACell := insert start
    ((Finset.range R ×ˢ Finset.range C).image
      (fun p => ((p.1 : Int), (p.2 : Int)))) with hU
  have hsub : ∀ c ∈ st.closedSet, c ∈ U := by
    intro c hc
    rcases hclva c hc with hs | hv
    · rw [hs]
      exact Finset.mem_insert_self _ _
    · unfold astarIsValidCell at hv
      by_cases hb : c.1 < 0 ∨ (R : Int) ≤ c.1 ∨ c.2 < 0 ∨ (C : Int) ≤ c.2
      · rw [if_pos hb] at hv
        cases hv
      · push_neg at hb
        obtain ⟨h1, h2, h3, h4⟩ := hb
        refine Finset.mem_insert_of_mem ?_
        rw [Finset.mem_image]
        refine ⟨(c.1.toNat, c.2.toNat), ?_, ?_⟩
        · rw [Finset.mem_product]
          constructor
          · rw [Finset.mem_range]; omega
          · rw [Finset.mem_range]; omega
        · have e1 : (c.1.toNat : Int) = c.1 := Int.toNat_of_nonneg h1
          have e2 : (c.2.toNat : Int) = c.2 := Int.toNat_of_nonneg h3
          calc ((c.1.toNat : Int), (c.2.toNat : Int)) = (c.1, c.2) := by rw [e1, e2]
            _ = c := Prod.mk.eta
  have hcard : st.closedSet.length ≤ U.card := by
    rw [← List.toFinset_card_of_nodup hclnd]
    exact Finset.card_le_card (fun c hc => hsub c (List.mem_toFinset.mp hc))
  refine hcard.trans ?_
  calc U.card ≤ ((Finset.range R ×ˢ Finset.range C).image
        (fun p : Nat × Nat => ((p.1 : Int), (p.2 : Int)))).card + 1 :=
        Finset.card_insert_le _ _
    _ ≤ (Finset.range R ×ˢ Finset.range C).card + 1 := by
        exact Nat.add_le_add_right (Finset.card_image_le) 1
    _ = R * C + 1 := by rw [Finset.card_product, Finset.card_range, Finset.card_range]

/-- With fuel exceeding the grid size the loop always terminates when the
goal is unreachable, exiting with an exhausted open set. -/
theorem astarLoop_terminates (grid : List (List AGridCell)) (start endC : ACell)
    (h : ACell → ACell → Zq) (hur : ¬ AReach grid start endC) :
    ∀ (fuel : Nat) (st : AState), AInv grid start st →
      grid.length * (grid.headD []).length + 2 ≤ fuel + st.closedSet.length →
      ∃ st', astarLoop grid endC h fuel st = some st' ∧ AInv grid start st' ∧
        st'.openSet = [] := by
  intro fuel
  induction fuel with
  | zero =>
    intro st hinv hfuel
    exfalso
    have := closedSet_length_bound grid start st hinv
    omega
  | succ f ih =>
    intro st hinv hfuel
    cases hos : st.openSet with
    | nil =>
      refine ⟨st, ?_, hinv, hos⟩
      rw [astarLoop, hos]
    | cons c0 rest =>
      obtain ⟨hbrk, hdiv, hcont⟩ := astarIterate_inv grid start endC h st c0 rest hos hinv
      cases hit : astarIterate grid endC h st c0 rest with
      | div => exact absurd (hdiv hit) hur
      | brk st2 => exact absurd (hbrk st2 hit).2 hur
      | cont st2 =>
        have hlen : st2.closedSet.length = st.closedSet.length + 1 := by
          rw [(hcont st2 hit).2]
          rfl
        obtain ⟨st', hrun, hinv', hemp⟩ := ih st2 (hcont st2 hit).1 (by omega)
        refine ⟨st', ?_, hinv', hemp⟩
        rw [astarLoop, hos]
        dsimp only
        rw [hit]
        exact hrun

/-- C5 helper (A* part): an unreachable goal yields normal termination with
a final `not_found` step. -/
theorem astar_unreachable_not_found (grid : List (List AGridCell))
    (start endC : ACell) (h : ACell → ACell → Zq)
    (hur : ¬ AReach grid start endC) :
    ∃ l, astarRun grid start endC h
        (grid.length * (grid.headD []).length + 2) = some l ∧
      l.getLast? = some AStep.not_found := by
  obtain ⟨st', hloop, hinv, hemp⟩ := astarLoop_terminates grid start endC h hur
    (grid.length * (grid.headD []).length + 2) (astarInit start endC h)
    (astarInit_inv grid start endC h) (by simp [astarInit])
  have hend : endC ∉ st'.closedSet := fun hmem => hur (hinv.2.2.2.2.2.1 endC hmem)
  refine ⟨st'.steps ++ [AStep.not_found], ?_, List.getLast?_concat _⟩
  unfold astarRun
  rw [hloop]
  dsimp only
  rw [if_pos ⟨hemp, hend⟩]

example : astarExecute [[⟨"empty"⟩]] (0, 0) (0, 0) "manhattan" 2 =
    some [AStep.start 0 0, AStep.current 0 0, AStep.found 0 0,
      AStep.mark_path [(0, 0)]] := by
  rfl

example : astarExecute [[⟨"empty"⟩, ⟨"wall"⟩, ⟨"empty"⟩]] (0, 0) (0, 2) "manhattan" 10 =
    some [AStep.start 0 0, AStep.current 0 0, AStep.visit 0 0, AStep.not_found] := by
  rfl

/-- C3 (amended): on the empty 5×5 grid, start (0,0), end (4,4), manhattan
heuristic, the A* runner emits `found` and a `mark_path` step whose path is
the 5-cell diagonal from (0,0) to (4,4): diagonal moves are permitted and
cost √2 < 2, so the optimal path is not a 9-cell Manhattan path. -/
theorem astar_5x5_spec :
    astarExecute grid5 (0, 0) (4, 4) "manhattan" 30 = some astarLog5 ∧
    AStep.found 4 4 ∈ astarLog5 ∧
    AStep.mark_path [(0, 0), (1, 1), (2, 2), (3, 3), (4, 4)] ∈ astarLog5 ∧
    markPaths astarLog5 = [[(0, 0), (1, 1), (2, 2), (3, 3), (4, 4)]] := by
  refine ⟨rfl, by decide, by decide, rfl⟩

/-- C3 counterexample: the only marked path of that run has 5 cells, not
the 9 cells (Manhattan length 8) the specification claims. -/
theorem astar_5x5_counterexample :
    astarExecute grid5 (0, 0) (4, 4) "manhattan" 30 = some astarLog5 ∧
    markPaths astarLog5 = [[(0, 0), (1, 1), (2, 2), (3, 3), (4, 4)]] ∧
    ([(0, 0), (1, 1), (2, 2), (3, 3), (4, 4)] : List ACell).length = 5 ∧
    (5 : Nat) ≠ 9 := by
  refine ⟨rfl, rfl, rfl, by decide⟩

/-- C4: whatever grid, start, end, heuristic and fuel are supplied, a
terminating A* run never re-examines a cell after it enters the closed set:
no cell is the subject of more than one `current` step of the Step Log. -/
theorem astar_no_reexamine (grid : List (List AGridCell)) (start endC : ACell)
    (h : ACell → ACell → Zq) (fuel : Nat) (l : List AStep)
    (hrun : astarRun grid start endC h fuel = some l) :
    (currentSubjects l).Nodup :=
  astarRun_nodup grid start endC h fuel l hrun

/-- Witness for C4: the 1×1 run, whose log has exactly one `current` step. -/
theorem astar_no_reexamine_witness :
    (currentSubjects [AStep.start 0 0, AStep.current 0 0, AStep.found 0 0,
      AStep.mark_path [(0, 0)]]).Nodup :=
  astar_no_reexamine [[⟨"empty"⟩]] (0, 0) (0, 0) (astarHeuristic "manhattan") 2
    [AStep.start 0 0, AStep.current 0 0, AStep.found 0 0,
      AStep.mark_path [(0, 0)]] rfl



/-! ### BFS / DFS verification -/

/-- Reading an association list after a write. -/
theorem mget_mset {α β : Type} [DecidableEq α] (m : List (α × β)) (k q : α)
    (v : β) : mget (mset m k v) q = if k = q then some v else mget m q := by
  by_cases h : k = q
  · simp [mget, mset, List.find?, h]
  · simp [mget, mset, List.find?, h]

/-- A key whose read is `some` occurs among the keys. -/
theorem mget_isSome_mem {α β : Type} [DecidableEq α] (m : List (α × β)) (k : α)
    (h : (mget m k).isSome) : k ∈ m.map (fun p => p.1) := by
  unfold mget at h
  cases hf : m.find? (fun p => decide (p.1 = k)) with
  | none => rw [hf] at h; cases h
  | some p =>
    have hmem := List.mem_of_find?_eq_some hf
    have hpred := List.find?_some hf
    rw [decide_eq_true_eq] at hpred
    rw [← hpred]
    exact List.mem_map_of_mem _ hmem

/-- A duplicate-free list contained in another list is no longer than it. -/
theorem nodup_subset_length {α : Type} [DecidableEq α] (l u : List α)
    (hnd : l.Nodup) (hsub : ∀ x ∈ l, x ∈ u) : l.length ≤ u.length := by
  classical
  calc l.length = l.toFinset.card := (List.toFinset_card_of_nodup hnd).symm
    _ ≤ u.toFinset.card :=
        Finset.card_le_card (fun x hx => List.mem_toFinset.mpr
          (hsub x (List.mem_toFinset.mp hx)))
    _ ≤ u.length := u.toFinset_card_le

theorem ParentChainTo.ne_nil {ν : Type} [DecidableEq ν]
    {parent : List (ν × JSVal ν)} {s v : ν} {l : List ν}
    (h : ParentChainTo parent s v l) : l ≠ [] := by
  cases h with
  | base _ => simp
  | step _ _ _ => simp

theorem ParentChainTo.nodup {ν : Type} [DecidableEq ν]
    {parent : List (ν × JSVal ν)} {s v : ν} {l : List ν}
    (h : ParentChainTo parent s v l) : l.Nodup := by
  induction h with
  | base _ => exact List.nodup_singleton _
  | step _ _ hnin ih =>
    simp only [List.nodup_append, List.nodup_singleton, true_and]
    exact ⟨ih, by intro a ha hb; rw [List.mem_singleton] at hb; exact hnin (hb ▸ ha)⟩

theorem ParentChainTo.bound {ν : Type} [DecidableEq ν]
    {parent : List (ν × JSVal ν)} {s v : ν} {l : List ν}
    (h : ParentChainTo parent s v l) : ∀ x ∈ l, (mget parent x).isSome := by
  induction h with
  | base hb => intro x hx; rw [List.mem_singleton] at hx; subst hx; simp [hb]
  | step _ hp _ ih =>
    intro x hx
    rcases List.mem_append.mp hx with hx | hx
    · exact ih x hx
    · rw [List.mem_singleton] at hx; subst hx; simp [hp]

theorem ParentChainTo.head {ν : Type} [DecidableEq ν]
    {parent : List (ν × JSVal ν)} {s v : ν} {l : List ν}
    (h : ParentChainTo parent s v l) : l.head? = some s := by
  induction h with
  | base _ => rfl
  | step h' _ _ ih =>
    rw [List.head?_append_of_ne_nil]
    · exact ih
    · exact h'.ne_nil

theorem ParentChainTo.last {ν : Type} [DecidableEq ν]
    {parent : List (ν × JSVal ν)} {s v : ν} {l : List ν}
    (h : ParentChainTo parent s v l) : l.getLast? = some v := by
  cases h with
  | base _ => rfl
  | step _ _ _ => exact List.getLast?_concat _

/-- Running the reconstruction loop along an acyclic parent chain. -/
theorem ParentChainTo.run {ν : Type} [DecidableEq ν]
    {parent : List (ν × JSVal ν)} {s v : ν} {l : List ν}
    (h : ParentChainTo parent s v l) :
    ∀ (fuel : Nat), l.length ≤ fuel → ∀ (acc : List ν),
      reconAux parent fuel (JSVal.node v) acc = some (l ++ acc) := by
  induction h with
  | base hb =>
    intro fuel hf acc
    cases fuel with
    | zero => simp at hf
    | succ f =>
      show reconAux parent (f + 1) (JSVal.node s) acc = some ([s] ++ acc)
      rw [reconAux, hb]
      cases f <;> rfl
  | step h' hp hnin ih =>
    intro fuel hf acc
    cases fuel with
    | zero => simp at hf
    | succ f =>
      rw [List.length_append, List.length_singleton] at hf
      rw [reconAux, hp]
      show reconAux parent f (JSVal.node _) (_ :: acc) = _
      rw [ih f (by omega) _]
      rw [List.append_assoc]
      rfl

/-- The `undefined` state of the reconstruction loop never exits. -/
theorem reconAux_undef {ν : Type} [DecidableEq ν]
    (parent : List (ν × JSVal ν)) :
    ∀ (fuel : Nat) (acc : List ν),
      reconAux parent fuel (JSVal.undef : JSVal ν) acc = none := by
  intro fuel
  induction fuel with
  | zero => intro acc; rfl
  | succ f ih => intro acc; rw [reconAux]; exact ih acc

/-- A node absent from the parent map makes the reconstruction loop run
forever (its parent read is `undefined`, never `null`). -/
theorem reconAux_missing {ν : Type} [DecidableEq ν]
    (parent : List (ν × JSVal ν)) (e : ν) (h : mget parent e = none) :
    ∀ (fuel : Nat) (acc : List ν),
      reconAux parent fuel (JSVal.node e) acc = none := by
  intro fuel acc
  match fuel with
  | 0 => rfl
  | f + 1 =>
    rw [reconAux, h]
    exact reconAux_undef parent f (e :: acc)

/-- C10: when the end node's parent chain is acyclic, reaches the start
node, and the start node's parent is null, `reconstructPath` terminates and
returns exactly that chain in start-to-end order; when the end node is
absent from the parent map the loop never terminates, because it only
stops on a `null` parent. -/
theorem reconstructPath_spec {ν : Type} [DecidableEq ν]
    (parent : List (ν × JSVal ν)) (s e : ν) :
    (∀ l, ParentChainTo parent s e l →
      reconstructPathG parent s e = some l ∧
      l.head? = some s ∧ l.getLast? = some e) ∧
    (mget parent e = none →
      ∀ fuel acc, reconAux parent fuel (JSVal.node e) acc = none) := by
  constructor
  · intro l hl
    refine ⟨?_, hl.head, hl.last⟩
    unfold reconstructPathG
    have hlen : l.length ≤ parent.length := by
      simpa using nodup_subset_length l (parent.map (fun p => p.1)) hl.nodup
        (fun x hx => mget_isSome_mem parent x (hl.bound x hx))
    rw [hl.run (parent.length + 1) (by omega) [], List.append_nil]
  · intro h fuel acc
    exact reconAux_missing parent e h fuel acc

/-- Witness for C10: the two-node chain B ↦ A ↦ null is reconstructed as
["A", "B"], and a node absent from an empty parent map loops forever. -/
theorem reconstructPath_spec_witness :
    reconstructPathG [("B", JSVal.node "A"), ("A", JSVal.null)] "A" "B"
        = some ["A", "B"] ∧
    reconAux ([] : List (String × JSVal String)) 5 (JSVal.node "X") [] = none := by
  constructor
  · exact ((reconstructPath_spec [("B", JSVal.node "A"), ("A", JSVal.null)]
      "A" "B").1 ["A", "B"]
      (ParentChainTo.step (ParentChainTo.base (by rfl)) (by rfl)
        (by decide))).1
  · exact (reconstructPath_spec ([] : List (String × JSVal String)) "A" "X").2
      rfl 5 []

theorem PChain.isSome {ν : Type} [DecidableEq ν] {g : BGraph ν} {s : ν}
    {parent : List (ν × JSVal ν)} {v : ν} {n : Nat}
    (h : PChain g s parent v n) : (mget parent v).isSome := by
  cases h with
  | base hb => simp [hb]
  | step _ hp _ => simp [hp]

theorem PChain.unique {ν : Type} [DecidableEq ν] {g : BGraph ν} {s : ν}
    {parent : List (ν × JSVal ν)} {v : ν} {m : Nat}
    (h1 : PChain g s parent v m) :
    ∀ n, PChain g s parent v n → m = n := by
  induction h1 with
  | base hb =>
    intro n h2
    cases h2 with
    | base _ => rfl
    | step _ hp _ => rw [hb] at hp; cases hp
  | step h1t hp1 hadj ih =>
    intro n h2
    cases h2 with
    | base hb => rw [hb] at hp1; cases hp1
    | step h2t hp2 _ =>
      rw [hp1] at hp2
      have hu := Option.some_inj.mp hp2
      injection hu with hu
      subst hu
      rw [ih _ h2t]

/-- Parent chains are stable under binding a fresh key. -/
theorem PChain.mono {ν : Type} [DecidableEq ν] {g : BGraph ν} {s : ν}
    {parent : List (ν × JSVal ν)} {v : ν} {n : Nat} (k : ν) (val : JSVal ν)
    (hk : mget parent k = none) (h : PChain g s parent v n) :
    PChain g s (mset parent k val) v n := by
  induction h with
  | base hb =>
    refine PChain.base ?_
    rw [mget_mset]
    rw [if_neg ?_]
    · exact hb
    · intro hks; rw [hks] at hk; rw [hk] at hb; cases hb
  | step h' hp hadj ih =>
    refine PChain.step ih ?_ hadj
    rw [mget_mset]
    rw [if_neg ?_]
    · exact hp
    · intro hkv; rw [hkv] at hk; rw [hk] at hp; cases hp

/-- Every parent chain yields an acyclic explicit chain list of matching
length whose consecutive entries are graph neighbours. -/
theorem PChain.exists_chain {ν : Type} [DecidableEq ν] {g : BGraph ν} {s : ν}
    {parent : List (ν × JSVal ν)} {v : ν} {n : Nat}
    (h : PChain g s parent v n) :
    ∃ l, ParentChainTo parent s v l ∧ l.length = n + 1 ∧
      List.Chain' (fun a b => b ∈ getNeighborsG g a) l ∧
      (∀ x ∈ l, ∃ k, k ≤ n ∧ PChain g s parent x k) := by
  induction h with
  | base hb =>
    refine ⟨[s], ParentChainTo.base hb, rfl, List.chain'_singleton _, ?_⟩
    intro x hx
    rw [List.mem_singleton] at hx
    subst hx
    exact ⟨0, le_refl 0, PChain.base hb⟩
  | @step u w m h' hp hadj ih =>
    obtain ⟨l, hct, hlen, hch, hmem⟩ := ih
    have hvnin : w ∉ l := by
      intro hin
      obtain ⟨k, hk, hpc⟩ := hmem _ hin
      have := (PChain.step h' hp hadj).unique k hpc
      omega
    refine ⟨l ++ [w], ParentChainTo.step hct hp hvnin, ?_, ?_, ?_⟩
    · rw [List.length_append, List.length_singleton, hlen]
    · rw [List.chain'_append]
      refine ⟨hch, List.chain'_singleton _, ?_⟩
      intro x hx y hy
      rw [hct.last] at hx
      rw [Option.mem_def, Option.some_inj] at hx
      rw [List.head?_cons, Option.mem_def, Option.some_inj] at hy
      subst hx
      subst hy
      exact hadj
    · intro x hx
      rcases List.mem_append.mp hx with hx | hx
      · obtain ⟨k, hk, hpc⟩ := hmem x hx
        exact ⟨k, by omega, hpc⟩
      · rw [List.mem_singleton] at hx
        subst hx
        exact ⟨_, le_refl _, PChain.step h' hp hadj⟩

theorem mget_eq_some_mem {α β : Type} [DecidableEq α] (m : List (α × β))
    (k : α) (b : β) (h : mget m k = some b) : ∃ p ∈ m, p.1 = k ∧ p.2 = b := by
  unfold mget at h
  cases hf : m.find? (fun p => decide (p.1 = k)) with
  | none => rw [hf] at h; cases h
  | some p =>
    rw [hf] at h
    have hpred := List.find?_some hf
    rw [decide_eq_true_eq] at hpred
    exact ⟨p, List.mem_of_find?_eq_some hf, hpred, Option.some_inj.mp h⟩

theorem foldl_append_con {α β : Type} (con : β → List α) :
    ∀ (l : List β) (init : List α),
      l.foldl (fun acc e => acc ++ con e) init = init ++ l.flatMap con := by
  intro l
  induction l with
  | nil => intro init; simp
  | cons e lt ih =>
    intro init
    simp only [List.foldl_cons, List.flatMap_cons, ih, List.append_assoc]

/-- The edge-scan accumulates the per-edge contribution. -/
theorem getNeighborsG_edges {ν : Type} [DecidableEq ν]
    (edges : List (BEdge ν)) (x : ν) :
    getNeighborsG ⟨none, some edges⟩ x = edges.flatMap (fun e =>
      if e.src = x then [e.tgt]
      else if e.directed = false ∧ e.tgt = x then [e.src] else []) := by
  show edges.foldl _ [] = _
  have hbody : (fun (acc : List ν) (e : BEdge ν) =>
      if e.src = x then acc ++ [e.tgt]
      else if e.directed = false ∧ e.tgt = x then acc ++ [e.src] else acc)
      = (fun acc e => acc ++ (if e.src = x then [e.tgt]
        else if e.directed = false ∧ e.tgt = x then [e.src] else [])) := by
    funext acc e
    by_cases h1 : e.src = x
    · simp [h1]
    · by_cases h2 : e.directed = false ∧ e.tgt = x
      · simp [h1, h2]
      · simp [h1, h2]
  rw [hbody, foldl_append_con]
  rfl

theorem getNeighborsG_subset {ν : Type} [DecidableEq ν] (g : BGraph ν)
    (x w : ν) (h : w ∈ getNeighborsG g x) : w ∈ universeG g := by
  obtain ⟨adj?, edges?⟩ := g
  cases adj? with
  | some adj =>
    show w ∈ adj.flatMap (fun p => p.2)
    unfold getNeighborsG at h
    dsimp only at h
    cases hm : mget adj x with
    | none => rw [hm] at h; cases h
    | some lst =>
      rw [hm] at h
      obtain ⟨p, hp, _, hp2⟩ := mget_eq_some_mem adj x lst hm
      exact List.mem_flatMap.mpr ⟨p, hp, by rw [hp2]; exact h⟩
  | none =>
    cases edges? with
    | none => cases h
    | some edges =>
      rw [getNeighborsG_edges] at h
      show w ∈ edges.flatMap (fun e => [e.src, e.tgt])
      obtain ⟨e, he, hw⟩ := List.mem_flatMap.mp h
      refine List.mem_flatMap.mpr ⟨e, he, ?_⟩
      by_cases h1 : e.src = x
      · rw [if_pos h1] at hw
        rw [List.mem_singleton] at hw
        simp [hw]
      · rw [if_neg h1] at hw
        by_cases h2 : e.directed = false ∧ e.tgt = x
        · rw [if_pos h2] at hw
          rw [List.mem_singleton] at hw
          simp [hw]
        · rw [if_neg h2] at hw
          cases hw

/-- A `foldl` establishes a per-element property that its body creates and
then maintains. -/
theorem foldl_establish {α β : Type} (P : α → Prop) (Q : β → α → Prop)
    (f : α → β → α) :
    ∀ (l : List β) (init : α), P init →
      (∀ a b, b ∈ l → P a → P (f a b)) →
      (∀ a b, b ∈ l → P a → Q b (f a b)) →
      (∀ a b c, c ∈ l → P a → Q b a → Q b (f a c)) →
      ∀ b ∈ l, Q b (l.foldl f init) := by
  intro l
  induction l with
  | nil => intro init _ _ _ _ b hb; cases hb
  | cons c lt ih =>
    intro init hP hPstep hQest hQstab b hb
    simp only [List.foldl_cons]
    rcases List.mem_cons.mp hb with hb | hb
    · subst hb
      have h1 : P (f init b) := hPstep init b (List.mem_cons_self _ _) hP
      have h2 : Q b (f init b) := hQest init b (List.mem_cons_self _ _) hP
      refine (foldl_inv (fun a => P a ∧ Q b a) f lt (f init b) ⟨h1, h2⟩ ?_).2
      rintro a c hc ⟨ha1, ha2⟩
      exact ⟨hPstep a c (List.mem_cons_of_mem _ hc) ha1,
        hQstab a b c (List.mem_cons_of_mem _ hc) ha1 ha2⟩
    · exact ih (f init c) (hPstep init c (List.mem_cons_self _ _) hP)
        (fun a b' hb' ha => hPstep a b' (List.mem_cons_of_mem _ hb') ha)
        (fun a b' hb' ha => hQest a b' (List.mem_cons_of_mem _ hb') ha)
        (fun a b' c' hc' ha hq => hQstab a b' c' (List.mem_cons_of_mem _ hc') ha hq)
        b hb

theorem GReach_iff {ν : Type} [DecidableEq ν] (g : BGraph ν) (s v : ν) :
    GReach g s v ↔ ∃ n, BPathLen g s v n := by
  constructor
  · intro h
    induction h with
    | refl => exact ⟨0, BPathLen.refl⟩
    | tail _ hstep ih =>
      obtain ⟨n, hn⟩ := ih
      exact ⟨n + 1, BPathLen.tail hn hstep⟩
  · rintro ⟨n, h⟩
    induction h with
    | refl => exact Relation.ReflTransGen.refl
    | tail _ hstep ih => exact ih.tail hstep

theorem bfsInit_inv {ν : Type} [DecidableEq ν] (g : BGraph ν) (s : ν)
    (e? : Option ν) : BInv g s e? (bfsInit s) := by
  have hs0 : PChain g s (bfsInit s).parent s 0 := by
    refine PChain.base ?_
    simp [bfsInit, mget, List.find?]
  refine ⟨List.nodup_singleton _, List.nodup_nil, ?_, Or.inl (by simp [bfsInit]),
    hs0, ?_, ⟨0, [s], [], rfl, ?_, ?_, ?_⟩, ?_, ?_, ?_, ?_, ?_, ?_⟩
  · intro v _ hv; cases hv
  · intro x hx
    left
    unfold bfsInit at hx
    by_cases h : x = s
    · subst h; simp [bfsInit]
    · have hsx : ¬ s = x := fun hh => h hh.symm
      simp [mget, List.find?, hsx] at hx
  · intro v hv; rw [List.mem_singleton] at hv; subst hv; exact hs0
  · intro v hv; cases hv
  · intro v hv; cases hv
  · intro u hu; cases hu
  · intro v hv
    rw [show (bfsInit s).queue = [s] from rfl, List.mem_singleton] at hv
    subst hv
    exact Relation.ReflTransGen.refl
  · intro v hv; cases hv
  · intro v hv
    rw [show (bfsInit s).queue = [s] from rfl, List.mem_singleton] at hv
    exact Or.inl hv
  · intro v hv; cases hv
  · intro e _ hv; cases hv

/-- Reconstruction along any acyclic chain, with the default fuel
`parent.length + 1` (the `start` argument of `reconstructPath` is unused). -/
theorem reconstructPathG_of_chain {ν : Type} [DecidableEq ν]
    {parent : List (ν × JSVal ν)} {s v : ν} {l : List ν}
    (h : ParentChainTo parent s v l) (s' : ν) :
    reconstructPathG parent s' v = some l := by
  unfold reconstructPathG
  have hlen : l.length ≤ parent.length := by
    simpa using nodup_subset_length l (parent.map (fun p => p.1)) h.nodup
      (fun x hx => mget_isSome_mem parent x (h.bound x hx))
  rw [h.run (parent.length + 1) (by omega) [], List.append_nil]

/-- Normalised breadth-layer split of a non-empty queue: the head lies in
the first layer. -/
theorem BInv.norm_split {ν : Type} [DecidableEq ν] {g : BGraph ν} {s : ν}
    {e? : Option ν} {st : BState ν} (hinv : BInv g s e? st) (current : ν)
    (rest : List ν) (hq : st.queue = current :: rest) :
    ∃ d q1t q2, rest = q1t ++ q2 ∧ PChain g s st.parent current d ∧
      (∀ v ∈ q1t, PChain g s st.parent v d) ∧
      (∀ v ∈ q2, PChain g s st.parent v (d + 1)) ∧
      (∀ v ∈ st.visited, ∃ k, k ≤ d ∧ PChain g s st.parent v k) := by
  obtain ⟨_, _, _, _, _, _, ⟨d, q1, q2, hsp, h1, h2, hv⟩, _⟩ := hinv
  rw [hq] at hsp
  cases q1 with
  | nil =>
    rw [List.nil_append] at hsp
    cases q2 with
    | nil => cases hsp
    | cons c q2t =>
      rw [List.cons_eq_cons] at hsp
      obtain ⟨hc, hr⟩ := hsp
      refine ⟨d + 1, q2t, [], by rw [hr, List.append_nil], ?_, ?_, ?_, ?_⟩
      · exact hc ▸ h2 c (List.mem_cons_self _ _)
      · intro v hv2
        exact h2 v (List.mem_cons_of_mem _ hv2)
      · intro v hv2
        cases hv2
      · intro v hv2
        obtain ⟨k, hk, hpc⟩ := hv v hv2
        exact ⟨k, by omega, hpc⟩
  | cons c q1t =>
    rw [List.cons_append, List.cons_eq_cons] at hsp
    obtain ⟨hc, hr⟩ := hsp
    exact ⟨d, q1t, q2, hr, hc ▸ h1 c (List.mem_cons_self _ _),
      fun v hv2 => h1 v (List.mem_cons_of_mem _ hv2), h2, hv⟩

/-- Any walk from `s` leads to a visited node at no greater depth, or shows
some queued node at no greater depth. -/
theorem BInv.dist_lower {ν : Type} [DecidableEq ν] {g : BGraph ν} {s : ν}
    {e? : Option ν} {st : BState ν} (hinv : BInv g s e? st) :
    ∀ (m : Nat) (v : ν), BPathLen g s v m →
      (v ∈ st.visited ∧ ∃ k, k ≤ m ∧ PChain g s st.parent v k) ∨
      (∃ w ∈ st.queue, ∃ k, k ≤ m ∧ PChain g s st.parent w k) := by
  obtain ⟨_, _, _, hsq, hs0, _, _, hclosure, _⟩ := hinv
  intro m v hpath
  induction hpath with
  | refl =>
    rcases hsq with hs | hs
    · exact Or.inr ⟨s, hs, 0, le_refl 0, hs0⟩
    · exact Or.inl ⟨hs, 0, le_refl 0, hs0⟩
  | @tail b c n hp hadj ih =>
    rcases ih with ⟨hbv, k, hk, hpc⟩ | ⟨w, hw, k, hk, hpc⟩
    · obtain ⟨hmem, kk, hkk, hpc2⟩ := hclosure b hbv c hadj k hpc
      rcases hmem with hm | hm
      · exact Or.inl ⟨hm, kk, by omega, hpc2⟩
      · exact Or.inr ⟨c, hm, kk, by omega, hpc2⟩
    · exact Or.inr ⟨w, hw, k, by omega, hpc⟩

/-- The visited set never exceeds the graph universe plus the start node. -/
theorem BInv.visited_bound {ν : Type} [DecidableEq ν] {g : BGraph ν} {s : ν}
    {e? : Option ν} {st : BState ν} (hinv : BInv g s e? st) :
    st.visited.length ≤ (universeG g).length + 1 := by
  obtain ⟨_, hvnd, _, _, _, _, _, _, _, _, _, hvu, _⟩ := hinv
  have := nodup_subset_length st.visited (s :: universeG g) hvnd ?_
  · simpa using this
  · intro x hx
    rcases hvu x hx with h | h
    · exact h ▸ List.mem_cons_self _ _
    · exact List.mem_cons_of_mem _ h

/-- Postconditions of the BFS neighbour loop: the queue gains exactly the
new frontier (fresh, unvisited, one layer deeper), the parent map grows by
fresh keys only, and every neighbour of `current` ends up visited or
queued one layer deeper at most. -/
theorem bfsNbFold_post {ν : Type} [DecidableEq ν] (g : BGraph ν)
    (s current : ν) (stVisited rest : List ν)
    (parent0 : List (ν × JSVal ν)) (dist0 : List (ν × Option Int)) (d : Nat)
    (hcur : PChain g s parent0 current d)
    (hrestnd : rest.Nodup)
    (hrestnv : ∀ x ∈ rest, x ∉ current :: stVisited)
    (hdom : ∀ x, (mget parent0 x).isSome → x ∈ current :: rest ∨ x ∈ stVisited)
    (hrestlev : ∀ x ∈ rest, ∃ kk, kk ≤ d + 1 ∧ PChain g s parent0 x kk)
    (hvislev : ∀ v ∈ stVisited, ∃ k, k ≤ d ∧ PChain g s parent0 v k) :
    ∀ ns, ns = (getNeighborsG g current).foldl
        (bfsNbBody (current :: stVisited) current) (rest, parent0, dist0, []) →
      ns.1 = rest ++ ns.2.2.2 ∧
      ns.1.Nodup ∧
      (∀ x ∈ ns.1, x ∉ current :: stVisited) ∧
      (∀ x ∈ ns.2.2.2, x ∈ getNeighborsG g current) ∧
      (∀ v n, PChain g s parent0 v n → PChain g s ns.2.1 v n) ∧
      (∀ x, (mget ns.2.1 x).isSome →
        x ∈ current :: rest ∨ x ∈ stVisited ∨ x ∈ ns.2.2.2) ∧
      (∀ x ∈ ns.2.2.2, PChain g s ns.2.1 x (d + 1)) ∧
      (∀ x ∈ ns.1, ∃ kk, kk ≤ d + 1 ∧ PChain g s ns.2.1 x kk) ∧
      (∀ w ∈ getNeighborsG g current,
        (w ∈ current :: stVisited ∨ w ∈ ns.1) ∧
        ∃ kk, kk ≤ d + 1 ∧ PChain g s ns.2.1 w kk) := by
  intro ns hns
  have hP0 : (fun (a : List ν × List (ν × JSVal ν) × List (ν × Option Int) × List ν) =>
      a.1 = rest ++ a.2.2.2 ∧ a.1.Nodup ∧
      (∀ x ∈ a.1, x ∉ current :: stVisited) ∧
      (∀ x ∈ a.2.2.2, x ∈ getNeighborsG g current) ∧
      (∀ v n, PChain g s parent0 v n → PChain g s a.2.1 v n) ∧
      (∀ x, (mget a.2.1 x).isSome →
        x ∈ current :: rest ∨ x ∈ stVisited ∨ x ∈ a.2.2.2) ∧
      (∀ x ∈ a.2.2.2, PChain g s a.2.1 x (d + 1)) ∧
      (∀ x ∈ a.1, ∃ kk, kk ≤ d + 1 ∧ PChain g s a.2.1 x kk))
      (rest, parent0, dist0, ([] : List ν)) := by
    refine ⟨by simp, hrestnd, hrestnv, ?_, fun v n h => h, ?_, ?_, hrestlev⟩
    · intro x hx; cases hx
    · intro x hx
      rcases hdom x hx with h | h
      · exact Or.inl h
      · exact Or.inr (Or.inl h)
    · intro x hx; cases hx
  have hstep : ∀ (a : List ν × List (ν × JSVal ν) × List (ν × Option Int) × List ν)
      (n : ν), n ∈ getNeighborsG g current →
      (a.1 = rest ++ a.2.2.2 ∧ a.1.Nodup ∧
        (∀ x ∈ a.1, x ∉ current :: stVisited) ∧
        (∀ x ∈ a.2.2.2, x ∈ getNeighborsG g current) ∧
        (∀ v n', PChain g s parent0 v n' → PChain g s a.2.1 v n') ∧
        (∀ x, (mget a.2.1 x).isSome →
          x ∈ current :: rest ∨ x ∈ stVisited ∨ x ∈ a.2.2.2) ∧
        (∀ x ∈ a.2.2.2, PChain g s a.2.1 x (d + 1)) ∧
        (∀ x ∈ a.1, ∃ kk, kk ≤ d + 1 ∧ PChain g s a.2.1 x kk)) →
      ((bfsNbBody (current :: stVisited) current a n).1
          = rest ++ (bfsNbBody (current :: stVisited) current a n).2.2.2 ∧
        (bfsNbBody (current :: stVisited) current a n).1.Nodup ∧
        (∀ x ∈ (bfsNbBody (current :: stVisited) current a n).1,
          x ∉ current :: stVisited) ∧
        (∀ x ∈ (bfsNbBody (current :: stVisited) current a n).2.2.2,
          x ∈ getNeighborsG g current) ∧
        (∀ v n', PChain g s parent0 v n' →
          PChain g s (bfsNbBody (current :: stVisited) current a n).2.1 v n') ∧
        (∀ x, (mget (bfsNbBody (current :: stVisited) current a n).2.1 x).isSome →
          x ∈ current :: rest ∨ x ∈ stVisited ∨
            x ∈ (bfsNbBody (current :: stVisited) current a n).2.2.2) ∧
        (∀ x ∈ (bfsNbBody (current :: stVisited) current a n).2.2.2,
          PChain g s (bfsNbBody (current :: stVisited) current a n).2.1 x (d + 1)) ∧
        (∀ x ∈ (bfsNbBody (current :: stVisited) current a n).1,
          ∃ kk, kk ≤ d + 1 ∧
            PChain g s (bfsNbBody (current :: stVisited) current a n).2.1 x kk)) := by
    intro a n hn hP
    obtain ⟨p1, p2, p3, p4, p5, p6, p7, p8⟩ := hP
    by_cases hg : n ∉ current :: stVisited ∧ n ∉ a.1
    · have hfresh : mget a.2.1 n = none := by
        cases hm : mget a.2.1 n with
        | none => rfl
        | some val =>
          exfalso
          rcases p6 n (by simp [hm]) with h | h | h
          · rcases List.mem_cons.mp h with h | h
            · exact hg.1 (h ▸ List.mem_cons_self _ _)
            · exact hg.2 (p1 ▸ List.mem_append.mpr (Or.inl h))
          · exact hg.1 (List.mem_cons_of_mem _ h)
          · exact hg.2 (p1 ▸ List.mem_append.mpr (Or.inr h))
      have hchainn : PChain g s (mset a.2.1 n (JSVal.node current)) n (d + 1) := by
        refine PChain.step (PChain.mono n _ hfresh (p5 _ _ hcur)) ?_ hn
        rw [mget_mset, if_pos rfl]
      simp only [bfsNbBody, if_pos hg]
      refine ⟨?_, ?_, ?_, ?_, ?_, ?_, ?_, ?_⟩
      · show a.1 ++ [n] = rest ++ (a.2.2.2 ++ [n])
        rw [p1, List.append_assoc]
      · show (a.1 ++ [n]).Nodup
        simp only [List.nodup_append, List.nodup_singleton, true_and]
        refine ⟨p2, ?_⟩
        intro x hx hxn
        rw [List.mem_singleton] at hxn
        exact hg.2 (hxn ▸ hx)
      · intro x hx
        rcases List.mem_append.mp hx with hx | hx
        · exact p3 x hx
        · rw [List.mem_singleton] at hx
          exact hx ▸ hg.1
      · intro x hx
        rcases List.mem_append.mp hx with hx | hx
        · exact p4 x hx
        · rw [List.mem_singleton] at hx
          exact hx ▸ hn
      · intro v n' h
        exact PChain.mono n _ hfresh (p5 v n' h)
      · intro x hx
        show x ∈ current :: rest ∨ x ∈ stVisited ∨ x ∈ a.2.2.2 ++ [n]
        rw [mget_mset] at hx
        by_cases hxn : n = x
        · exact Or.inr (Or.inr (List.mem_append.mpr (Or.inr (by simp [hxn]))))
        · rw [if_neg hxn] at hx
          rcases p6 x hx with h | h | h
          · exact Or.inl h
          · exact Or.inr (Or.inl h)
          · exact Or.inr (Or.inr (List.mem_append.mpr (Or.inl h)))
      · intro x hx
        rcases List.mem_append.mp hx with hx | hx
        · exact PChain.mono n _ hfresh (p7 x hx)
        · rw [List.mem_singleton] at hx
          exact hx ▸ hchainn
      · intro x hx
        rcases List.mem_append.mp hx with hx | hx
        · obtain ⟨kk, hkk, hpc⟩ := p8 x hx
          exact ⟨kk, hkk, PChain.mono n _ hfresh hpc⟩
        · rw [List.mem_singleton] at hx
          exact ⟨d + 1, le_refl _, hx ▸ hchainn⟩
    · simp only [bfsNbBody, if_neg hg]
      exact ⟨p1, p2, p3, p4, p5, p6, p7, p8⟩
  have hPend := foldl_inv _ (bfsNbBody (current :: stVisited) current)
    (getNeighborsG g current) (rest, parent0, dist0, []) hP0 hstep
  rw [← hns] at hPend
  obtain ⟨c1, c2, c3, c4, c5, c6, c7, c8⟩ := hPend
  refine ⟨c1, c2, c3, c4, c5, c6, c7, c8, ?_⟩
  have hQ := foldl_establish _
    (fun (w : ν) (a : List ν × List (ν × JSVal ν) × List (ν × Option Int) × List ν) =>
      (w ∈ current :: stVisited ∨ w ∈ a.1) ∧
      ∃ kk, kk ≤ d + 1 ∧ PChain g s a.2.1 w kk)
    (bfsNbBody (current :: stVisited) current)
    (getNeighborsG g current) (rest, parent0, dist0, []) hP0 hstep ?_ ?_
  · intro w hw
    have := hQ w hw
    rw [← hns] at this
    exact this
  · intro a n hn hP
    obtain ⟨p1, p2, p3, p4, p5, p6, p7, p8⟩ := hP
    by_cases hg : n ∉ current :: stVisited ∧ n ∉ a.1
    · have hfresh : mget a.2.1 n = none := by
        cases hm : mget a.2.1 n with
        | none => rfl
        | some val =>
          exfalso
          rcases p6 n (by simp [hm]) with h | h | h
          · rcases List.mem_cons.mp h with h | h
            · exact hg.1 (h ▸ List.mem_cons_self _ _)
            · exact hg.2 (p1 ▸ List.mem_append.mpr (Or.inl h))
          · exact hg.1 (List.mem_cons_of_mem _ h)
          · exact hg.2 (p1 ▸ List.mem_append.mpr (Or.inr h))
      have hchainn : PChain g s (mset a.2.1 n (JSVal.node current)) n (d + 1) := by
        refine PChain.step (PChain.mono n _ hfresh (p5 _ _ hcur)) ?_ hn
        rw [mget_mset, if_pos rfl]
      simp only [bfsNbBody, if_pos hg]
      refine ⟨Or.inr (List.mem_append.mpr (Or.inr (by simp))), d + 1, le_refl _, hchainn⟩
    · simp only [bfsNbBody, if_neg hg]
      rw [not_and_or, not_not, not_not] at hg
      rcases hg with hg | hg
      · refine ⟨Or.inl hg, ?_⟩
        rcases List.mem_cons.mp hg with hh | hh
        · exact ⟨d, by omega, hh ▸ p5 _ _ hcur⟩
        · obtain ⟨k, hk, hpc⟩ := hvislev n hh
          exact ⟨k, by omega, p5 _ _ hpc⟩
      · exact ⟨Or.inr hg, p8 n hg⟩
  · intro a b c hc hP hQb
    obtain ⟨p1, p2, p3, p4, p5, p6, p7, p8⟩ := hP
    obtain ⟨hmem, kk, hkk, hpc⟩ := hQb
    by_cases hg : c ∉ current :: stVisited ∧ c ∉ a.1
    · have hfresh : mget a.2.1 c = none := by
        cases hm : mget a.2.1 c with
        | none => rfl
        | some val =>
          exfalso
          rcases p6 c (by simp [hm]) with h | h | h
          · rcases List.mem_cons.mp h with h | h
            · exact hg.1 (h ▸ List.mem_cons_self _ _)
            · exact hg.2 (p1 ▸ List.mem_append.mpr (Or.inl h))
          · exact hg.1 (List.mem_cons_of_mem _ h)
          · exact hg.2 (p1 ▸ List.mem_append.mpr (Or.inr h))
      simp only [bfsNbBody, if_pos hg]
      refine ⟨?_, kk, hkk, PChain.mono c _ hfresh hpc⟩
      rcases hmem with h | h
      · exact Or.inl h
      · exact Or.inr (List.mem_append.mpr (Or.inl h))
    · simp only [bfsNbBody, if_neg hg]
      exact ⟨hmem, kk, hkk, hpc⟩

/-- One BFS iteration preserves the invariant.  A `brk` means the target
was just dequeued and the emitted path is a shortest one; `div` is
impossible (the parent chain always reconstructs); a `cont` visits exactly
one new node. -/
theorem bfsIterate_inv {ν : Type} [DecidableEq ν] (g : BGraph ν) (s : ν)
    (e? : Option ν) (st : BState ν) (current : ν) (rest : List ν)
    (hq : st.queue = current :: rest) (hinv : BInv g s e? st) :
    (∀ st2, bfsIterate g s e? st current rest = BIter.brk st2 →
      e? = some current ∧ GReach g s current ∧ st2.visited = st.visited ∧
      ∃ path, st2.steps = (st.steps ++ [BStep.current current]) ++
          [BStep.found current, BStep.highlight_path path] ∧
        path.head? = some s ∧ path.getLast? = some current ∧
        List.Chain' (fun a b => b ∈ getNeighborsG g a) path ∧
        (∀ m, BPathLen g s current m → path.length ≤ m + 1)) ∧
    (bfsIterate g s e? st current rest = BIter.div → False) ∧
    (∀ st2, bfsIterate g s e? st current rest = BIter.cont st2 →
      BInv g s e? st2 ∧ st2.visited = current :: st.visited) := by
  obtain ⟨d, q1t, q2, hrsp, hcurL, hq1L, hq2L, hvisL⟩ := hinv.norm_split current rest hq
  have hdl := hinv.dist_lower
  obtain ⟨hqnd, hvnd, hdisj, hsq, hs0, hdom, hsplit, hclosure, hqre, hvre, hqu, hvu, hev⟩ := hinv
  have hcmemq : current ∈ st.queue := hq ▸ List.mem_cons_self _ _
  have hcnv : current ∉ st.visited := hdisj current hcmemq
  have hcre : GReach g s current := hqre current hcmemq
  have hrestnd : rest.Nodup := by
    rw [hq] at hqnd
    exact (List.nodup_cons.mp hqnd).2
  have hcnr : current ∉ rest := by
    rw [hq] at hqnd
    exact (List.nodup_cons.mp hqnd).1
  obtain ⟨l, hct, hlen, hch, hmeml⟩ := hcurL.exists_chain
  have hrec : reconstructPathG st.parent s current = some l :=
    reconstructPathG_of_chain hct s
  have hmin : ∀ m, BPathLen g s current m → d ≤ m := by
    intro m hpath
    rcases hdl m current hpath with ⟨hcv, _⟩ | ⟨w, hw, k, hk, hpc⟩
    · exact absurd hcv hcnv
    · rw [hq] at hw
      rcases List.mem_cons.mp hw with hw | hw
      · subst hw
        have := hcurL.unique k hpc
        omega
      · rw [hrsp] at hw
        rcases List.mem_append.mp hw with hw | hw
        · have := (hq1L w hw).unique k hpc
          omega
        · have := (hq2L w hw).unique k hpc
          omega
  refine ⟨?_, ?_, ?_⟩
  · intro st2 hbrk
    simp only [bfsIterate] at hbrk
    by_cases hfound : e? = some current
    · rw [if_pos hfound, hrec] at hbrk
      cases hbrk
      refine ⟨hfound, hcre, rfl, l, rfl, hct.head, hct.last, hch, ?_⟩
      intro m hm
      rw [hlen]
      have := hmin m hm
      omega
    · rw [if_neg hfound, if_neg hcnv] at hbrk
      cases hbrk
  · intro hdiv
    simp only [bfsIterate] at hdiv
    by_cases hfound : e? = some current
    · rw [if_pos hfound, hrec] at hdiv
      cases hdiv
    · rw [if_neg hfound, if_neg hcnv] at hdiv
      cases hdiv
  · intro st2 hcont
    simp only [bfsIterate] at hcont
    by_cases hfound : e? = some current
    · rw [if_pos hfound, hrec] at hcont
      cases hcont
    · rw [if_neg hfound, if_neg hcnv] at hcont
      have hrestnv : ∀ x ∈ rest, x ∉ current :: st.visited := by
        intro x hx
        rw [List.mem_cons]
        push_neg
        exact ⟨fun he => hcnr (he ▸ hx),
          hdisj x (hq ▸ List.mem_cons_of_mem _ hx)⟩
      have hdom2 : ∀ x, (mget st.parent x).isSome →
          x ∈ current :: rest ∨ x ∈ st.visited := by
        intro x hx
        have := hdom x hx
        rw [hq] at this
        exact this
      have hrestlev : ∀ x ∈ rest, ∃ kk, kk ≤ d + 1 ∧
          PChain g s st.parent x kk := by
        intro x hx
        rw [hrsp] at hx
        rcases List.mem_append.mp hx with hx | hx
        · exact ⟨d, by omega, hq1L x hx⟩
        · exact ⟨d + 1, le_refl _, hq2L x hx⟩
      set ns := (getNeighborsG g current).foldl
        (bfsNbBody (current :: st.visited) current)
        (rest, st.parent, st.distances, []) with hnsdef
      obtain ⟨c1, c2, c3, c4, c5, c6, c7, c8, c9⟩ :=
        bfsNbFold_post g s current st.visited rest st.parent st.distances d
          hcurL hrestnd hrestnv hdom2 hrestlev hvisL ns hnsdef
      cases hcont
      refine ⟨⟨c2, List.nodup_cons.mpr ⟨hcnv, hvnd⟩, c3, ?_, c5 _ _ hs0, ?_,
        ⟨d, q1t, q2 ++ ns.2.2.2, ?_, ?_, ?_, ?_⟩, ?_, ?_, ?_, ?_, ?_, ?_⟩, rfl⟩
      · show s ∈ ns.1 ∨ s ∈ current :: st.visited
        rcases hsq with hs | hs
        · rw [hq] at hs
          rcases List.mem_cons.mp hs with hs | hs
          · exact Or.inr (hs ▸ List.mem_cons_self _ _)
          · exact Or.inl (c1 ▸ List.mem_append.mpr (Or.inl hs))
        · exact Or.inr (List.mem_cons_of_mem _ hs)
      · show ∀ x, (mget ns.2.1 x).isSome → x ∈ ns.1 ∨ x ∈ current :: st.visited
        intro x hx
        rcases c6 x hx with h | h | h
        · rcases List.mem_cons.mp h with h | h
          · exact Or.inr (h ▸ List.mem_cons_self _ _)
          · exact Or.inl (c1 ▸ List.mem_append.mpr (Or.inl h))
        · exact Or.inr (List.mem_cons_of_mem _ h)
        · exact Or.inl (c1 ▸ List.mem_append.mpr (Or.inr h))
      · show ns.1 = q1t ++ (q2 ++ ns.2.2.2)
        rw [c1, hrsp, List.append_assoc]
      · intro v hv
        exact c5 _ _ (hq1L v hv)
      · intro v hv
        rcases List.mem_append.mp hv with hv | hv
        · exact c5 _ _ (hq2L v hv)
        · exact c7 v hv
      · intro v hv
        rcases List.mem_cons.mp hv with hv | hv
        · exact ⟨d, le_refl _, by rw [hv]; exact c5 _ _ hcurL⟩
        · obtain ⟨k, hk, hpc⟩ := hvisL v hv
          exact ⟨k, hk, c5 _ _ hpc⟩
      · show ∀ u ∈ current :: st.visited, ∀ w ∈ getNeighborsG g u, ∀ k,
          PChain g s ns.2.1 u k → (w ∈ current :: st.visited ∨ w ∈ ns.1) ∧
          ∃ kk, kk ≤ k + 1 ∧ PChain g s ns.2.1 w kk
        intro u hu w hw k hpc
        rcases List.mem_cons.mp hu with hu | hu
        · subst hu
          have hkd : d = k := (c5 _ _ hcurL).unique k hpc
          subst hkd
          exact c9 w hw
        · obtain ⟨k0, hk0, hpc0⟩ := hvisL u hu
          have hkeq : k0 = k := (c5 _ _ hpc0).unique k hpc
          subst hkeq
          obtain ⟨hm, kk, hkk, hpcw⟩ := hclosure u hu w hw k0 hpc0
          refine ⟨?_, kk, hkk, c5 _ _ hpcw⟩
          rcases hm with hm | hm
          · exact Or.inl (List.mem_cons_of_mem _ hm)
          · rw [hq] at hm
            rcases List.mem_cons.mp hm with hm | hm
            · exact Or.inl (hm ▸ List.mem_cons_self _ _)
            · exact Or.inr (c1 ▸ List.mem_append.mpr (Or.inl hm))
      · show ∀ v ∈ ns.1, GReach g s v
        intro v hv
        rw [c1] at hv
        rcases List.mem_append.mp hv with hv | hv
        · exact hqre v (hq ▸ List.mem_cons_of_mem _ hv)
        · exact hcre.tail (c4 v hv)
      · intro v hv
        rcases List.mem_cons.mp hv with hv | hv
        · exact hv ▸ hcre
        · exact hvre v hv
      · show ∀ v ∈ ns.1, v = s ∨ v ∈ universeG g
        intro v hv
        rw [c1] at hv
        rcases List.mem_append.mp hv with hv | hv
        · exact hqu v (hq ▸ List.mem_cons_of_mem _ hv)
        · exact Or.inr (getNeighborsG_subset g current v (c4 v hv))
      · intro v hv
        rcases List.mem_cons.mp hv with hv | hv
        · exact hv ▸ hqu current hcmemq
        · exact hvu v hv
      · intro e he
        rw [List.mem_cons]
        push_neg
        refine ⟨?_, hev e he⟩
        intro hec
        exact hfound (hec ▸ he)

/-- Any successful BFS run (target `e`) either broke out with a shortest
`found`/`highlight_path` pair, or drained its queue with the invariant
intact. -/
theorem bfsLoop_characterize {ν : Type} [DecidableEq ν] (g : BGraph ν)
    (s e : ν) :
    ∀ (fuel : Nat) (st st' : BState ν), BInv g s (some e) st →
      bfsLoop g s (some e) fuel st = some st' →
      (∃ l1 path,
        st'.steps = l1 ++ [BStep.found e, BStep.highlight_path path] ∧
        e ∉ st'.visited ∧ path.head? = some s ∧ path.getLast? = some e ∧
        List.Chain' (fun a b => b ∈ getNeighborsG g a) path ∧
        (∀ m, BPathLen g s e m → path.length ≤ m + 1)) ∨
      (st'.queue = [] ∧ BInv g s (some e) st') := by
  intro fuel
  induction fuel with
  | zero => intro st st' _ h; cases h
  | succ f ih =>
    intro st st' hinv hrun
    rw [bfsLoop] at hrun
    cases hqe : st.queue with
    | nil =>
      rw [hqe] at hrun
      cases hrun
      exact Or.inr ⟨hqe, hinv⟩
    | cons current rest =>
      rw [hqe] at hrun
      dsimp only at hrun
      obtain ⟨hbrk, hdiv, hcont⟩ := bfsIterate_inv g s (some e) st current rest hqe hinv
      cases hit : bfsIterate g s (some e) st current rest with
      | div => exact absurd (hdiv hit) not_false
      | brk st2 =>
        rw [hit] at hrun
        dsimp only at hrun
        cases hrun
        obtain ⟨hfound, _, hvis, path, hsteps, hh, hl, hc, hm⟩ := hbrk _ hit
        have he : e = current := Option.some_inj.mp hfound
        subst he
        left
        refine ⟨st.steps ++ [BStep.current e], path, hsteps, ?_, hh, hl, hc, hm⟩
        rw [hvis]
        exact hinv.2.2.2.2.2.2.2.2.2.2.2.2 e rfl
      | cont st2 =>
        rw [hit] at hrun
        dsimp only at hrun
        exact ih st2 st' (hcont st2 hit).1 hrun

/-- With fuel exceeding the universe size the BFS loop always terminates
when the target is unreachable, draining its queue. -/
theorem bfsLoop_terminates {ν : Type} [DecidableEq ν] (g : BGraph ν)
    (s e : ν) (hur : ¬ GReach g s e) :
    ∀ (fuel : Nat) (st : BState ν), BInv g s (some e) st →
      (universeG g).length + 2 ≤ fuel + st.visited.length →
      ∃ st', bfsLoop g s (some e) fuel st = some st' ∧
        BInv g s (some e) st' ∧ st'.queue = [] := by
  intro fuel
  induction fuel with
  | zero =>
    intro st hinv hfuel
    exfalso
    have := hinv.visited_bound
    omega
  | succ f ih =>
    intro st hinv hfuel
    cases hqe : st.queue with
    | nil =>
      refine ⟨st, ?_, hinv, hqe⟩
      rw [bfsLoop, hqe]
    | cons current rest =>
      obtain ⟨hbrk, hdiv, hcont⟩ := bfsIterate_inv g s (some e) st current rest hqe hinv
      cases hit : bfsIterate g s (some e) st current rest with
      | div => exact absurd (hdiv hit) not_false
      | brk st2 =>
        obtain ⟨hfound, hre, _⟩ := hbrk _ hit
        have he : e = current := Option.some_inj.mp hfound
        exact absurd (he ▸ hre) hur
      | cont st2 =>
        have hlen : st2.visited.length = st.visited.length + 1 := by
          rw [(hcont st2 hit).2]
          rfl
        obtain ⟨st', hrun, hinv', hemp⟩ := ih st2 (hcont st2 hit).1 (by omega)
        refine ⟨st', ?_, hinv', hemp⟩
        rw [bfsLoop, hqe]
        dsimp only
        rw [hit]
        exact hrun

/-- C5 helper (BFS part): an unreachable target yields normal termination
with a final `not_found` step. -/
theorem bfs_unreachable_not_found {ν : Type} [DecidableEq ν] (g : BGraph ν)
    (s e : ν) (hur : ¬ GReach g s e) :
    ∃ l, bfsRun g s (some e) ((universeG g).length + 2) = some l ∧
      l.getLast? = some BStep.not_found := by
  obtain ⟨st', hloop, hinv, _⟩ := bfsLoop_terminates g s e hur
    ((universeG g).length + 2) (bfsInit s) (bfsInit_inv g s (some e))
    (by simp [bfsInit])
  have hend : e ∉ st'.visited := hinv.2.2.2.2.2.2.2.2.2.2.2.2 e rfl
  refine ⟨st'.steps ++ [BStep.not_found], ?_, List.getLast?_concat _⟩
  unfold bfsRun
  rw [hloop]
  dsimp only
  rw [if_pos hend]

/-- C2: for every graph, start `s`, and end `e` reachable from `s`, a
terminating BFS run's Step Log contains `found e` immediately followed by
a `highlight_path` step whose path runs from `s` to `e` along graph
neighbours in start-to-end order and has minimum length among all walks
from `s` to `e`. -/
theorem bfs_shortest_path {ν : Type} [DecidableEq ν] (g : BGraph ν)
    (s e : ν) (fuel : Nat) (l : List (BStep ν)) (hreach : GReach g s e)
    (hrun : bfsRun g s (some e) fuel = some l) :
    ∃ l1 l2 path,
      l = l1 ++ BStep.found e :: BStep.highlight_path path :: l2 ∧
      path.head? = some s ∧ path.getLast? = some e ∧
      List.Chain' (fun a b => b ∈ getNeighborsG g a) path ∧
      (∀ m, BPathLen g s e m → path.length ≤ m + 1) := by
  unfold bfsRun at hrun
  cases hloop : bfsLoop g s (some e) fuel (bfsInit s) with
  | none => rw [hloop] at hrun; cases hrun
  | some st' =>
    rw [hloop] at hrun
    dsimp only at hrun
    rcases bfsLoop_characterize g s e fuel (bfsInit s) st'
        (bfsInit_inv g s (some e)) hloop with
      ⟨l1, path, hsteps, hnv, hh, hl, hc, hm⟩ | ⟨hemp, hinv⟩
    · rw [if_pos hnv] at hrun
      cases hrun
      refine ⟨l1, [BStep.not_found], path, ?_, hh, hl, hc, hm⟩
      rw [hsteps]
      simp
    · exfalso
      obtain ⟨m, hpath⟩ := (GReach_iff g s e).mp hreach
      rcases hinv.dist_lower m e hpath with ⟨hev, _⟩ | ⟨w, hw, _⟩
      · exact hinv.2.2.2.2.2.2.2.2.2.2.2.2 e rfl hev
      · rw [hemp] at hw
        cases hw

/-- Witness for C2: the specification example (nodes A..E, edges A-B, A-C,
B-D, C-E, B-E, start A, end E) yields `found E` followed by
`highlight_path ["A", "B", "E"]`, a shortest path. -/
theorem bfs_shortest_path_witness :
    ∃ l1 l2 path,
      ([BStep.start "A", BStep.current "A", BStep.visit "A",
        BStep.frontier ["B", "C"], BStep.current "B", BStep.visit "B",
        BStep.frontier ["D", "E"], BStep.current "C", BStep.visit "C",
        BStep.current "D", BStep.visit "D", BStep.current "E",
        BStep.found "E", BStep.highlight_path ["A", "B", "E"],
        BStep.not_found] : List (BStep String))
        = l1 ++ BStep.found "E" :: BStep.highlight_path path :: l2 ∧
      path.head? = some "A" ∧ path.getLast? = some "E" ∧
      List.Chain' (fun a b => b ∈ getNeighborsG gSpec a) path ∧
      (∀ m, BPathLen gSpec "A" "E" m → path.length ≤ m + 1) :=
  bfs_shortest_path gSpec "A" "E" 20 _
    (Relation.ReflTransGen.tail
      (Relation.ReflTransGen.tail Relation.ReflTransGen.refl
        (show "B" ∈ getNeighborsG gSpec "A" by decide))
      (show "E" ∈ getNeighborsG gSpec "B" by decide))
    rfl

/-- Binding a fresh key of the universe list removes exactly one unbound
entry. -/
theorem length_filter_isNone_set {ν : Type} [DecidableEq ν]
    (m : List (ν × JSVal ν)) (n : ν) (v : JSVal ν) :
    ∀ (u : List ν), u.Nodup → n ∈ u → mget m n = none →
      (u.filter (fun x => (mget (mset m n v) x).isNone)).length + 1
        = (u.filter (fun x => (mget m x).isNone)).length := by
  intro u
  induction u with
  | nil => intro _ h; cases h
  | cons x ut ih =>
    intro hnd hn hfresh
    rw [List.nodup_cons] at hnd
    rw [List.filter_cons, List.filter_cons]
    rcases List.mem_cons.mp hn with hxn | hxn
    · subst hxn
      have h1 : ((mget (mset m n v) n).isNone : Bool) = false := by
        rw [mget_mset, if_pos rfl]
        rfl
      have h2 : ((mget m n).isNone : Bool) = true := by
        rw [hfresh]
        rfl
      rw [h1, h2]
      have heq : ut.filter (fun y => (mget (mset m n v) y).isNone)
          = ut.filter (fun y => (mget m y).isNone) := by
        apply List.filter_congr
        intro y hy
        have hny : ¬ (n = y) := by
          intro hny
          rw [← hny] at hy
          exact hnd.1 hy
        rw [mget_mset, if_neg hny]
      rw [heq]
      simp
    · have hnex : ¬ (n = x) := fun h => hnd.1 (h ▸ hxn)
      have hsame : ((mget (mset m n v) x).isNone : Bool)
          = ((mget m x).isNone : Bool) := by
        rw [mget_mset, if_neg hnex]
      rw [hsame]
      cases hb : ((mget m x).isNone : Bool) with
      | false =>
        simp only [Bool.false_eq_true, if_false]
        exact ih hnd.2 hxn hfresh
      | true =>
        simp only [if_true, List.length_cons]
        have := ih hnd.2 hxn hfresh
        omega

/-- The DFS push loop: reachability of the stack is preserved and the
stack length plus the number of unbound universe nodes is conserved. -/
theorem dfsFold_post {ν : Type} [DecidableEq ν] (g : BGraph ν)
    (s current : ν) (hcur : GReach g s current) (l : List ν)
    (hl : ∀ x ∈ l, x ∈ getNeighborsG g current) (rest0 : List ν)
    (par0 : List (ν × JSVal ν)) (hrre : ∀ x ∈ rest0, GReach g s x) :
    ∀ sp, sp = l.foldl (fun sp n => if (mget sp.2 n).isSome then sp
        else (n :: sp.1, mset sp.2 n (JSVal.node current))) (rest0, par0) →
      (∀ x ∈ sp.1, GReach g s x) ∧
      sp.1.length + ((s :: universeG g).dedup.filter
          (fun x => (mget sp.2 x).isNone)).length
        = rest0.length + ((s :: universeG g).dedup.filter
          (fun x => (mget par0 x).isNone)).length := by
  intro sp hsp
  have := foldl_inv (fun (a : List ν × List (ν × JSVal ν)) =>
      (∀ x ∈ a.1, GReach g s x) ∧
      a.1.length + ((s :: universeG g).dedup.filter
          (fun x => (mget a.2 x).isNone)).length
        = rest0.length + ((s :: universeG g).dedup.filter
          (fun x => (mget par0 x).isNone)).length)
    (fun sp n => if (mget sp.2 n).isSome then sp
        else (n :: sp.1, mset sp.2 n (JSVal.node current)))
    l (rest0, par0) ⟨hrre, rfl⟩ ?_
  · rw [← hsp] at this
    exact this
  · intro a n hn hP
    obtain ⟨hre, hsum⟩ := hP
    dsimp only
    by_cases hb : (mget a.2 n).isSome
    · rw [if_pos hb]
      exact ⟨hre, hsum⟩
    · rw [if_neg hb]
      have hfresh : mget a.2 n = none := Option.not_isSome_iff_eq_none.mp hb
      have hmemu : n ∈ (s :: universeG g).dedup :=
        List.mem_dedup.mpr (List.mem_cons_of_mem _
          (getNeighborsG_subset g current n (hl n hn)))
      have hcount := length_filter_isNone_set a.2 n (JSVal.node current)
        (s :: universeG g).dedup (List.nodup_dedup _) hmemu hfresh
      constructor
      · intro x hx
        rcases List.mem_cons.mp hx with hx | hx
        · rw [hx]
          exact hcur.tail (hl n hn)
        · exact hre x hx
      · show (n :: a.1).length + ((s :: universeG g).dedup.filter
            (fun x => (mget (mset a.2 n (JSVal.node current)) x).isNone)).length
          = rest0.length + ((s :: universeG g).dedup.filter
            (fun x => (mget par0 x).isNone)).length
        rw [List.length_cons]
        omega

/-- With fuel exceeding the measure, the DFS loop terminates with an empty
stack whenever the target is unreachable. -/
theorem dfsLoop_terminates {ν : Type} [DecidableEq ν] (g : BGraph ν)
    (s e : ν) (hur : ¬ GReach g s e) :
    ∀ (fuel : Nat) (st : DState ν), DInv g s st →
      st.stack.length + ((s :: universeG g).dedup.filter
        (fun x => (mget st.parent x).isNone)).length < fuel →
      ∃ st', dfsLoop g s (some e) fuel st = some st' ∧ DInv g s st' ∧
        st'.stack = [] := by
  intro fuel
  induction fuel with
  | zero => intro st _ h; omega
  | succ f ih =>
    intro st hinv hm
    cases hse : st.stack with
    | nil =>
      refine ⟨st, ?_, hinv, hse⟩
      rw [dfsLoop, hse]
    | cons current rest =>
      rw [hse] at hm
      have hcre : GReach g s current :=
        hinv.1 current (hse ▸ List.mem_cons_self _ _)
      by_cases hvis : current ∈ st.visited
      · have hit : dfsIterate g s (some e) st current rest
            = DIter.cont { st with stack := rest } := by
          simp only [dfsIterate, if_pos hvis]
        obtain ⟨st', hrun, hinv', hemp⟩ := ih { st with stack := rest }
          ⟨fun x hx => hinv.1 x (hse ▸ List.mem_cons_of_mem _ hx), hinv.2⟩
          (by simp only [List.length_cons] at hm; dsimp only; omega)
        refine ⟨st', ?_, hinv', hemp⟩
        rw [dfsLoop, hse]
        dsimp only
        rw [hit]
        exact hrun
      · by_cases hfound : (some e : Option ν) = some current
        · exact absurd (Option.some_inj.mp hfound ▸ hcre) hur
        · set unvisited := (getNeighborsG g current).filter
            (fun n => decide (n ∉ current :: st.visited)) with hunv
          set sp := unvisited.reverse.foldl
            (fun (sp : List ν × List (ν × JSVal ν)) n =>
              if (mget sp.2 n).isSome then sp
              else (n :: sp.1, mset sp.2 n (JSVal.node current)))
            (rest, st.parent) with hspdef
          obtain ⟨hsre, hsum⟩ := dfsFold_post g s current hcre unvisited.reverse
            (fun x hx => (List.mem_filter.mp (List.mem_reverse.mp hx)).1)
            rest st.parent
            (fun x hx => hinv.1 x (hse ▸ List.mem_cons_of_mem _ hx))
            sp hspdef
          have hit : ∃ stps, dfsIterate g s (some e) st current rest
              = DIter.cont ⟨sp.1, current :: st.visited, sp.2, stps⟩ := by
            simp only [dfsIterate, if_neg hvis, if_neg hfound]
            rw [← hunv, ← hspdef]
            exact ⟨_, rfl⟩
          obtain ⟨stps, hit⟩ := hit
          obtain ⟨st', hrun, hinv', hemp⟩ := ih ⟨sp.1, current :: st.visited, sp.2, stps⟩
            ⟨hsre, fun x hx => by
              rcases List.mem_cons.mp hx with hx | hx
              · exact hx ▸ hcre
              · exact hinv.2 x hx⟩
            (by simp only [List.length_cons] at hm; dsimp only; omega)
          refine ⟨st', ?_, hinv', hemp⟩
          rw [dfsLoop, hse]
          dsimp only
          rw [hit]
          exact hrun

/-- C5 helper (DFS part): an unreachable target yields normal termination
with a final `not_found` step. -/
theorem dfs_unreachable_not_found {ν : Type} [DecidableEq ν] (g : BGraph ν)
    (s e : ν) (hur : ¬ GReach g s e) :
    ∃ l, dfsRun g s (some e) ((s :: universeG g).dedup.length + 2) = some l ∧
      l.getLast? = some DStep.not_found := by
  obtain ⟨st', hloop, hinv, _⟩ := dfsLoop_terminates g s e hur
    ((s :: universeG g).dedup.length + 2) (dfsInit s)
    ⟨fun x hx => by
      rw [show (dfsInit s).stack = [s] from rfl, List.mem_singleton] at hx
      exact hx ▸ Relation.ReflTransGen.refl,
      fun x hx => by cases hx⟩
    (by
      have := List.length_filter_le
        (fun x => (mget (dfsInit s).parent x).isNone) (s :: universeG g).dedup
      simp only [show (dfsInit s).stack = [s] from rfl, List.length_singleton]
      omega)
  have hend : e ∉ st'.visited := fun h => hur (hinv.2 e h)
  refine ⟨st'.steps ++ [DStep.not_found], ?_, List.getLast?_concat _⟩
  unfold dfsRun
  rw [hloop]
  dsimp only
  rw [if_pos hend]

/-- A node with no outgoing hops reaches only itself. -/
theorem reflTransGen_isolated {α : Type} (r : α → α → Prop) (s e : α)
    (hs : ∀ b, ¬ r s b) (hne : s ≠ e) : ¬ Relation.ReflTransGen r s e := by
  intro h
  rcases Relation.ReflTransGen.cases_head h with h | ⟨b, hb, _⟩
  · exact hne h
  · exact hs b hb

/-- C5: for each of BFS, DFS and A*, when an end target is given and no
path from start to end exists, the runner terminates normally (the fuelled
loop returns a value; nothing can throw) and the final step of its Step
Log is `not_found`. -/
theorem search_unreachable_not_found :
    (∀ {ν : Type} [DecidableEq ν] (g : BGraph ν) (s e : ν), ¬ GReach g s e →
      ∃ l, bfsRun g s (some e) ((universeG g).length + 2) = some l ∧
        l.getLast? = some BStep.not_found) ∧
    (∀ {ν : Type} [DecidableEq ν] (g : BGraph ν) (s e : ν), ¬ GReach g s e →
      ∃ l, dfsRun g s (some e) ((s :: universeG g).dedup.length + 2) = some l ∧
        l.getLast? = some DStep.not_found) ∧
    (∀ (grid : List (List AGridCell)) (s e : ACell) (h : ACell → ACell → Zq),
      ¬ AReach grid s e →
      ∃ l, astarRun grid s e h (grid.length * (grid.headD []).length + 2)
          = some l ∧
        l.getLast? = some AStep.not_found) :=
  ⟨fun g s e hur => bfs_unreachable_not_found g s e hur,
   fun g s e hur => dfs_unreachable_not_found g s e hur,
   fun grid s e h hur => astar_unreachable_not_found grid s e h hur⟩

/-- Witness for C5: an edgeless two-node graph for BFS and DFS, and a 1×3
grid whose middle cell is a wall for A*. -/
theorem search_unreachable_not_found_witness :
    (∃ l, bfsRun (⟨none, some []⟩ : BGraph String) "A" (some "B")
        ((universeG (⟨none, some []⟩ : BGraph String)).length + 2) = some l ∧
      l.getLast? = some BStep.not_found) ∧
    (∃ l, dfsRun (⟨none, some []⟩ : BGraph String) "A" (some "B")
        (("A" :: universeG (⟨none, some []⟩ : BGraph String)).dedup.length + 2)
        = some l ∧
      l.getLast? = some DStep.not_found) ∧
    (∃ l, astarRun [[⟨"empty"⟩, ⟨"wall"⟩, ⟨"empty"⟩]] (0, 0) (0, 2)
        (astarHeuristic "manhattan")
        (([[⟨"empty"⟩, ⟨"wall"⟩, ⟨"empty"⟩]] : List (List AGridCell)).length *
          (([[⟨"empty"⟩, ⟨"wall"⟩, ⟨"empty"⟩]] : List (List AGridCell)).headD []).length
          + 2) = some l ∧
      l.getLast? = some AStep.not_found) :=
  ⟨search_unreachable_not_found.1 (⟨none, some []⟩ : BGraph String) "A" "B"
      (reflTransGen_isolated _ "A" "B" (fun b hb => List.not_mem_nil b hb)
        (by decide)),
   search_unreachable_not_found.2.1 (⟨none, some []⟩ : BGraph String) "A" "B"
      (reflTransGen_isolated _ "A" "B" (fun b hb => List.not_mem_nil b hb)
        (by decide)),
   search_unreachable_not_found.2.2 [[⟨"empty"⟩, ⟨"wall"⟩, ⟨"empty"⟩]]
      (0, 0) (0, 2) (astarHeuristic "manhattan")
      (reflTransGen_isolated _ (0, 0) (0, 2)
        (fun b hb => List.not_mem_nil b hb) (by decide))⟩

end AlgoViz
